import Mathlib

/-!
# Segment reduce kernels (`src/array/cpu/segment_reduce.h`)

A shallow embedding of the four CPU kernels `SegmentSum`, `SegmentCmp`,
`ScatterAdd` and `BackwardSegmentCmp`, and theorems about them.

Modelling conventions.

* An `NDArray` is a shape together with its flat, row-major data. The kernels
  only ever see the raw data pointer, so every access is a flat index.
* `IdType` is a signed integer type: it is modelled by `Int`. The C `int`
  loop counters `i` and `k` run upwards from `0` and are modelled by `Nat`.
  The kernels `SegmentSum`, `SegmentCmp`, `ScatterAdd` and `BackwardSegmentCmp`
  compute their indices with exact integers, and take the row indices stored in
  `idx` and `arg` in the range of `int`, where the conversion to `int` of lines
  93 and 120 keeps the value.
* The integer types of the source are explicit where a claim depends on them.
  `ScatterAdd.wide` and `BackwardSegmentCmp.wide` convert the `idx` and `arg`
  values to `int` (`toInt32`), as the source does when `IdType` is wider than
  `int`; they are `ScatterAdd` and `BackwardSegmentCmp` on the converted values
  (`ScatterAdd_wide_eq`, `BackwardSegmentCmp_wide_eq`). `SegmentSum.machine` and
  `SegmentCmp.machine` form every index in the type the source forms it in
  (`int` for `i * dim + k`, the `w`-bit `IdType` for `j * dim + k`), with signed
  overflow as undefined behaviour; on sizes that fit these types they are
  `SegmentSum` and `SegmentCmp` (`SegmentSum_machine_eq`, `SegmentCmp_machine_eq`).
* `DType` is a type parameter. The sums are taken in an arbitrary commutative
  additive monoid (exact arithmetic, which covers the integers and the integers
  modulo `2^w`); the comparisons are taken in an arbitrary linear order, with a
  least element for `-infinity` and a greatest element for `+infinity`.
  Floating-point rounding and NaN are not modelled.
* An access outside a buffer is undefined behaviour in C++, and the source
  performs no check. A kernel returns `none` as soon as it performs such an
  access (a kernel with machine index arithmetic also when an index overflows),
  and `some` of the final buffers when every access stays inside its
  buffer. The theorems about the result of a call are total: from the
  preconditions of the kernel (buffer sizes, offsets and indices that are rows
  of the buffer they address) they conclude that the call returns `some` result
  and describe this result.
* The `#pragma omp parallel for` loops are modelled by their sequential,
  ascending execution. `SegmentSum.inOrder` and `SegmentCmp.inOrder` run the
  segment loop in a given order instead, to state that the order of the
  segments does not matter. Interleavings of threads are not modelled.
* Distinct arguments are distinct buffers (no aliasing).
-/

namespace dgl.aten.cpu

/-! ## Buffers -/

/-- A dense array: its shape and its flat row-major contents. -/
structure NDArray (α : Type) where
  shape : List Nat
  data : List α
deriving DecidableEq

/-- Read of `buf[p]` for a non-negative index; `none` when `p` is outside the buffer. -/
def rdN {α : Type} (buf : List α) (p : Nat) : Option α := buf[p]?

/-- Write of `buf[p] = v` for a non-negative index; `none` when `p` is outside the buffer. -/
def wrN {α : Type} (buf : List α) (p : Nat) (v : α) : Option (List α) :=
  if p < buf.length then some (buf.set p v) else none

/-- Read of `buf[p]` for a signed index; `none` when `p` is outside the buffer. -/
def rd {α : Type} (buf : List α) (p : Int) : Option α :=
  if p < 0 then none else rdN buf p.toNat

/-- Write of `buf[p] = v` for a signed index; `none` when `p` is outside the buffer. -/
def wr {α : Type} (buf : List α) (p : Int) (v : α) : Option (List α) :=
  if p < 0 then none else wrN buf p.toNat v

/-! ## Loops -/

/-- The loop `for (int i = 0; i < n; ++i) body(i)`, threading the state `s`
through the iterations `0, 1, ..., n-1` in this order. -/
def forUpto {σ : Type} : Nat → (Nat → σ → Option σ) → σ → Option σ
  | 0, _, s => some s
  | n + 1, body, s => (forUpto n body s).bind (body n)

/-- The loop `for (IdType j = lo; j < hi; ++j) body(j)`: it runs
`hi - lo` iterations when `lo < hi` and none otherwise. -/
def forRange {σ : Type} (lo hi : Int) (body : Int → σ → Option σ) (s : σ) : Option σ :=
  forUpto (hi - lo).toNat (fun t => body (lo + t)) s

/-- The row width: `dim = 1; for (i = 1; i < ndim; ++i) dim *= shape[i]`. -/
def rowWidth (shape : List Nat) : Nat := (shape.drop 1).foldl (fun d s => d * s) 1

/-- The element count `NumElements()`: the product of all dimensions. -/
def numElements (shape : List Nat) : Nat := shape.foldl (fun d s => d * s) 1

/-- The call `std::fill(p, p + cnt, v)`. -/
def fill {α : Type} (buf : List α) (cnt : Nat) (v : α) : Option (List α) :=
  forUpto cnt (fun p b => wrN b p v) buf

/-! ## SegmentSum -/

/-- The innermost loop of `SegmentSum`: `out[i*dim+k] += feat[j*dim+k]` for `k < dim`. -/
def SegmentSum.cols {α : Type} [Add α] (feat : List α) (dim i : Nat) (j : Int)
    (o : List α) : Option (List α) :=
  forUpto dim (fun k o => do
    let a ← rdN o (i * dim + k)
    let b ← rd feat (j * dim + k)
    wrN o (i * dim + k) (a + b)) o

/-- The body of the segment loop of `SegmentSum`: the rows
`offsets[i] ≤ j < offsets[i+1]` are added to output row `i`. -/
def SegmentSum.segment {α : Type} [Add α] (feat : List α) (offsets : List Int) (dim i : Nat)
    (o : List α) : Option (List α) := do
  let lo ← rdN offsets i
  let hi ← rdN offsets (i + 1)
  forRange lo hi (fun j o => SegmentSum.cols feat dim i j o) o

/-- The kernel `SegmentSum(feat, offsets, out)`; the result is the output array after the call. -/
def SegmentSum {α : Type} [Add α] (feat : NDArray α) (offsets : NDArray Int) (out : NDArray α) :
    Option (NDArray α) := do
  let n ← out.shape[0]?
  let dim := rowWidth out.shape
  let data ← forUpto n (fun i o => SegmentSum.segment feat.data offsets.data dim i o) out.data
  pure ⟨out.shape, data⟩

/-! ## SegmentCmp -/

/-- The comparator policy `Cmp` of `SegmentCmp`: the identity value `Cmp::zero`
and the predicate `Cmp::Call(current, candidate)`. The header takes it as a
template parameter. -/
structure Cmp (α : Type) where
  zero : α
  Call : α → α → Bool

/-- Modelled from the spec: the comparator policy `Max`, which is declared
outside this header: `zero = -infinity` and `Call(a, b) = b > a`. The least
element of the element type stands for `-infinity`. -/
def op.Max (α : Type) [LinearOrder α] [OrderBot α] : Cmp α :=
  ⟨⊥, fun a b => decide (b > a)⟩

/-- Modelled from the spec: the comparator policy `Min`, which is declared
outside this header: `zero = +infinity` and `Call(a, b) = b < a`. The greatest
element of the element type stands for `+infinity`. -/
def op.Min (α : Type) [LinearOrder α] [OrderTop α] : Cmp α :=
  ⟨⊤, fun a b => decide (b < a)⟩

/-- The innermost loop of `SegmentCmp`: for `k < dim`, the candidate
`feat[j*dim+k]` replaces `out[i*dim+k]`, and `j` replaces `arg[i*dim+k]`, when
`Cmp::Call(out[i*dim+k], feat[j*dim+k])` holds. The state is `(out, arg)`. -/
def SegmentCmp.cols {α : Type} (C : Cmp α) (feat : List α) (dim i : Nat) (j : Int)
    (s : List α × List Int) : Option (List α × List Int) :=
  forUpto dim (fun k s => do
    let val ← rd feat (j * dim + k)
    let cur ← rdN s.1 (i * dim + k)
    if C.Call cur val then
      let o ← wrN s.1 (i * dim + k) val
      let a ← wrN s.2 (i * dim + k) j
      pure (o, a)
    else
      pure s) s

/-- The body of the segment loop of `SegmentCmp`. -/
def SegmentCmp.segment {α : Type} (C : Cmp α) (feat : List α) (offsets : List Int) (dim i : Nat)
    (s : List α × List Int) : Option (List α × List Int) := do
  let lo ← rdN offsets i
  let hi ← rdN offsets (i + 1)
  forRange lo hi (fun j s => SegmentCmp.cols C feat dim i j s) s

/-- The kernel `SegmentCmp(feat, offsets, out, arg)`; the result is the pair
of the output array and the argument array after the call. -/
def SegmentCmp {α : Type} (C : Cmp α) (feat : NDArray α) (offsets : NDArray Int)
    (out : NDArray α) (arg : NDArray Int) : Option (NDArray α × NDArray Int) := do
  let n ← out.shape[0]?
  let dim := rowWidth out.shape
  let out0 ← fill out.data (numElements out.shape) C.zero
  let arg0 ← fill arg.data (numElements arg.shape) (-1)
  let s ← forUpto n (fun i s => SegmentCmp.segment C feat.data offsets.data dim i s) (out0, arg0)
  pure (⟨out.shape, s.1⟩, ⟨arg.shape, s.2⟩)

/-! ## ScatterAdd -/

/-- The inner loop of `ScatterAdd`:
`out[write_row*dim+k] += feat[i*dim+k]` for `k < dim`. -/
def ScatterAdd.cols {α : Type} [Add α] (feat : List α) (dim i : Nat) (write_row : Int)
    (o : List α) : Option (List α) :=
  forUpto dim (fun k o => do
    let a ← rd o (write_row * dim + k)
    let b ← rdN feat (i * dim + k)
    wr o (write_row * dim + k) (a + b)) o

/-- The body of the row loop of `ScatterAdd`, for a value `idx[i]` in the range of
`int`, which the conversion `const int write_row = idx_data[i]` of line 93 keeps;
`ScatterAdd.wideRow` is the body for an arbitrary value. -/
def ScatterAdd.row {α : Type} [Add α] (feat : List α) (idx : List Int) (dim i : Nat)
    (o : List α) : Option (List α) := do
  let write_row ← rdN idx i
  ScatterAdd.cols feat dim i write_row o

/-- The kernel `ScatterAdd(feat, idx, out)`, for `idx` values in the range of `int`; the
result is the output array after the call. -/
def ScatterAdd {α : Type} [Add α] (feat : NDArray α) (idx : NDArray Int) (out : NDArray α) :
    Option (NDArray α) := do
  let n ← feat.shape[0]?
  let dim := rowWidth out.shape
  let data ← forUpto n (fun i o => ScatterAdd.row feat.data idx.data dim i o) out.data
  pure ⟨out.shape, data⟩

/-! ## BackwardSegmentCmp -/

/-- The body of the inner loop of `BackwardSegmentCmp`: with
`write_row = arg[i*dim+k]`, the assignment `out[write_row*dim+k] = feat[i*dim+k]`
is made when `write_row >= 0`. The value `arg[i*dim+k]` is in the range of `int`,
which the conversion `int write_row = arg_data[i * dim + k]` of line 120 keeps;
`BackwardSegmentCmp.wideCell` is the body for an arbitrary value. -/
def BackwardSegmentCmp.cell {α : Type} (feat : List α) (arg : List Int) (dim i k : Nat)
    (o : List α) : Option (List α) := do
  let write_row ← rdN arg (i * dim + k)
  if write_row ≥ 0 then
    let v ← rdN feat (i * dim + k)
    wr o (write_row * dim + k) v
  else
    pure o

/-- The inner loop of `BackwardSegmentCmp`, over the columns `k < dim` of row `i`. -/
def BackwardSegmentCmp.cols {α : Type} (feat : List α) (arg : List Int) (dim i : Nat)
    (o : List α) : Option (List α) :=
  forUpto dim (fun k o => BackwardSegmentCmp.cell feat arg dim i k o) o

/-- The kernel `BackwardSegmentCmp(feat, arg, out)`, for `arg` values in the range of
`int`; the result is the output array after the call. -/
def BackwardSegmentCmp {α : Type} (feat : NDArray α) (arg : NDArray Int) (out : NDArray α) :
    Option (NDArray α) := do
  let n ← feat.shape[0]?
  let dim := rowWidth out.shape
  let data ← forUpto n (fun i o => BackwardSegmentCmp.cols feat.data arg.data dim i o) out.data
  pure ⟨out.shape, data⟩

/-! ## Cell-wise description of the comparison scan -/

/-- One comparison of `SegmentCmp` seen from a single cell: the pair
`(out[i,k], arg[i,k])` becomes `(v, j)` when `Cmp::Call(out[i,k], v)` holds. -/
def cmpStep {α : Type} (C : Cmp α) (s : α × Int) (v : α) (j : Int) : α × Int :=
  if C.Call s.1 v then (v, j) else s

/-- The pair `(out[i,k], arg[i,k])` after the rows `lo, lo+1, ..., lo+t-1`, with
values `f lo, f (lo+1), ...` in column `k`, have been compared in this order,
starting from the pair `init`. -/
def cmpScan {α : Type} (C : Cmp α) (f : Nat → α) (lo : Nat) (init : α × Int) : Nat → α × Int
  | 0 => init
  | t + 1 => cmpStep C (cmpScan C f lo init t) (f (lo + t)) ((lo + t : Nat) : Int)

/-- The pair of the cells at flat index `p` of the state `(out, arg)`. -/
def pairAt {α : Type} (z : α) (s : List α × List Int) (p : Nat) : α × Int :=
  (s.1.getD p z, s.2.getD p 0)

/-! ## Invariant of the backward scatter -/

/-- The cells `(i, k)` of `arg` that `BackwardSegmentCmp` has processed when it is
about to process column `c` of row `t`. -/
def processed (t c : Nat) (i k : Nat) : Prop := i < t ∨ (i = t ∧ k < c)

/-- The state of the output `o` of `BackwardSegmentCmp` once the cells `(i, k)` of
`arg` in `D` have been processed: each processed cell with a non-negative argument
has put `feat[i,k]` in the cell `(arg[i,k], k)`, and the cells that no processed
argument names are those of the initial output `out`. -/
def BackwardInv {α : Type} (feat : List α) (arg : List Int) (out : List α) (n dim : Nat)
    (D : Nat → Nat → Prop) (o : List α) : Prop :=
  o.length = out.length ∧
  (∀ i k, i < n → k < dim → D i k → 0 ≤ arg.getD (i * dim + k) 0 →
    o[(arg.getD (i * dim + k) 0).toNat * dim + k]? = feat[i * dim + k]?) ∧
  (∀ q, (∀ i k, i < n → k < dim → D i k → 0 ≤ arg.getD (i * dim + k) 0 →
      q ≠ (arg.getD (i * dim + k) 0).toNat * dim + k) → o[q]? = out[q]?)

/-! ## Processing order and elementwise sum -/

/-- The loop body `body(i)` run for the indices `i` of `order`, one after the other,
threading the state through. -/
def forOrder {σ : Type} : List Nat → (Nat → σ → Option σ) → σ → Option σ
  | [], _, s => some s
  | i :: rest, body, s => (body i s).bind (forOrder rest body)

/-- The kernel `SegmentSum` with the iterations of its segment loop run in the order
`order` rather than `0, 1, ..., n-1`. -/
def SegmentSum.inOrder {α : Type} [Add α] (order : List Nat) (feat : NDArray α)
    (offsets : NDArray Int) (out : NDArray α) : Option (NDArray α) := do
  let _ ← out.shape[0]?
  let dim := rowWidth out.shape
  let data ← forOrder order (fun i o => SegmentSum.segment feat.data offsets.data dim i o) out.data
  pure ⟨out.shape, data⟩

/-- The kernel `SegmentCmp` with the iterations of its segment loop run in the order
`order` rather than `0, 1, ..., n-1`. -/
def SegmentCmp.inOrder {α : Type} (order : List Nat) (C : Cmp α) (feat : NDArray α)
    (offsets : NDArray Int) (out : NDArray α) (arg : NDArray Int) :
    Option (NDArray α × NDArray Int) := do
  let _ ← out.shape[0]?
  let dim := rowWidth out.shape
  let out0 ← fill out.data (numElements out.shape) C.zero
  let arg0 ← fill arg.data (numElements arg.shape) (-1)
  let s ← forOrder order (fun i s => SegmentCmp.segment C feat.data offsets.data dim i s)
    (out0, arg0)
  pure (⟨out.shape, s.1⟩, ⟨arg.shape, s.2⟩)

/-- The elementwise sum `A + B` of two arrays of the same shape. -/
def NDArray.add {α : Type} [Add α] (A B : NDArray α) : NDArray α :=
  ⟨A.shape, List.zipWith (fun a b => a + b) A.data B.data⟩

/-! ## Machine integers

The kernels above compute with exact integers. The definitions below make the
integer types of the source explicit where a claim depends on them: the conversion
of an `IdType` value to `int` (lines 93 and 120), and the `int` and `IdType`
arithmetic in which the flat indices are formed. -/

/-- The conversion of an integer value to the 32-bit C type `int`, as made by
`const int write_row = idx_data[i]` (line 93) and by
`int write_row = arg_data[i * dim + k]` (line 120) when `IdType` is wider than `int`:
a value in the range of `int` is kept, any other value is reduced modulo `2^32`
into this range. -/
def toInt32 (x : Int) : Int := (x + 2147483648) % 4294967296 - 2147483648

/-- The bound `2^(w-1)` of a signed C type of `w` bits, whose values `x` satisfy
`-2^(w-1) ≤ x < 2^(w-1)`. -/
def signedBound (w : Nat) : Int := 2 ^ (w - 1)

/-- The value of an arithmetic expression of a signed C type of `w` bits whose exact
value is `x`: `x` when it is representable; signed overflow is undefined behaviour
(`none`). -/
def signed (w : Nat) (x : Int) : Option Int :=
  if -(signedBound w) ≤ x ∧ x < signedBound w then some x else none

/-- The flat index `r * dim + k` formed in a signed type of `w` bits. -/
def flatIndex (w : Nat) (r dim k : Int) : Option Int := do
  let m ← signed w (r * dim)
  signed w (m + k)

/-- The row width as the source computes it: `int dim = 1;` and then, for each
trailing dimension, `dim *= shape[i]`, a 64-bit product converted to `int`. -/
def rowWidthInt (shape : List Nat) : Option Int :=
  (shape.drop 1).foldlM (fun d s => (signed 64 (d * (s : Int))).map toInt32) (1 : Int)

/-! ## ScatterAdd and BackwardSegmentCmp with the conversion to `int` -/

/-- The body of the row loop of `ScatterAdd` with the conversion of line 93 made
explicit: `const int write_row = idx_data[i]`. -/
def ScatterAdd.wideRow {α : Type} [Add α] (feat : List α) (idx : List Int) (dim i : Nat)
    (o : List α) : Option (List α) := do
  let write_row := toInt32 (← rdN idx i)
  ScatterAdd.cols feat dim i write_row o

/-- The kernel `ScatterAdd(feat, idx, out)` for an `IdType` wider than `int`: the
`idx` values are arbitrary integers, converted to `int` on line 93. For `idx` values in
the range of `int` it is `ScatterAdd`. -/
def ScatterAdd.wide {α : Type} [Add α] (feat : NDArray α) (idx : NDArray Int)
    (out : NDArray α) : Option (NDArray α) := do
  let n ← feat.shape[0]?
  let dim := rowWidth out.shape
  let data ← forUpto n (fun i o => ScatterAdd.wideRow feat.data idx.data dim i o) out.data
  pure ⟨out.shape, data⟩

/-- The body of the inner loop of `BackwardSegmentCmp` with the conversion of line 120
made explicit: `int write_row = arg_data[i * dim + k]`, and then the assignment
`out[write_row*dim+k] = feat[i*dim+k]` when `write_row >= 0`. -/
def BackwardSegmentCmp.wideCell {α : Type} (feat : List α) (arg : List Int) (dim i k : Nat)
    (o : List α) : Option (List α) := do
  let write_row := toInt32 (← rdN arg (i * dim + k))
  if write_row ≥ 0 then
    let v ← rdN feat (i * dim + k)
    wr o (write_row * dim + k) v
  else
    pure o

/-- The inner loop of `BackwardSegmentCmp.wide`, over the columns `k < dim` of row `i`. -/
def BackwardSegmentCmp.wideCols {α : Type} (feat : List α) (arg : List Int) (dim i : Nat)
    (o : List α) : Option (List α) :=
  forUpto dim (fun k o => BackwardSegmentCmp.wideCell feat arg dim i k o) o

/-- The kernel `BackwardSegmentCmp(feat, arg, out)` for an `IdType` wider than `int`:
the `arg` values are arbitrary integers, converted to `int` on line 120. For `arg`
values in the range of `int` it is `BackwardSegmentCmp`. -/
def BackwardSegmentCmp.wide {α : Type} (feat : NDArray α) (arg : NDArray Int)
    (out : NDArray α) : Option (NDArray α) := do
  let n ← feat.shape[0]?
  let dim := rowWidth out.shape
  let data ← forUpto n (fun i o => BackwardSegmentCmp.wideCols feat.data arg.data dim i o)
    out.data
  pure ⟨out.shape, data⟩

/-! ## SegmentSum and SegmentCmp with machine index arithmetic -/

/-- The innermost loop of `SegmentSum` with the indices formed as in the source:
`i * dim + k` in `int`, and `j * dim + k` in the `w`-bit type `IdType`. -/
def SegmentSum.machineCols {α : Type} [Add α] (w : Nat) (feat : List α) (dim i j : Int)
    (o : List α) : Option (List α) :=
  forRange 0 dim (fun k o => do
    let po ← flatIndex 32 i dim k
    let a ← rd o po
    let pf ← flatIndex w j dim k
    let b ← rd feat pf
    wr o po (a + b)) o

/-- The body of the segment loop of `SegmentSum` with machine index arithmetic. -/
def SegmentSum.machineSegment {α : Type} [Add α] (w : Nat) (feat : List α)
    (offsets : List Int) (dim i : Int) (o : List α) : Option (List α) := do
  let lo ← rd offsets i
  let i1 ← signed 32 (i + 1)
  let hi ← rd offsets i1
  forRange lo hi (fun j o => SegmentSum.machineCols w feat dim i j o) o

/-- The kernel `SegmentSum(feat, offsets, out)` with the integer types of the source:
`int n = out->shape[0]`, the row width computed in `int`, the loop counters `i` and `k`
of type `int`, and `j` of the `w`-bit type `IdType` (`w` is 32 or 64). -/
def SegmentSum.machine {α : Type} [Add α] (w : Nat) (feat : NDArray α)
    (offsets : NDArray Int) (out : NDArray α) : Option (NDArray α) := do
  let shape0 ← out.shape[0]?
  let n := toInt32 (Int.ofNat shape0)
  let dim ← rowWidthInt out.shape
  let data ← forRange 0 n
    (fun i o => SegmentSum.machineSegment w feat.data offsets.data dim i o) out.data
  pure ⟨out.shape, data⟩

/-- The innermost loop of `SegmentCmp` with the indices formed as in the source. -/
def SegmentCmp.machineCols {α : Type} (w : Nat) (C : Cmp α) (feat : List α) (dim i j : Int)
    (s : List α × List Int) : Option (List α × List Int) :=
  forRange 0 dim (fun k s => do
    let pf ← flatIndex w j dim k
    let val ← rd feat pf
    let po ← flatIndex 32 i dim k
    let cur ← rd s.1 po
    if C.Call cur val then
      let o ← wr s.1 po val
      let a ← wr s.2 po j
      pure (o, a)
    else
      pure s) s

/-- The body of the segment loop of `SegmentCmp` with machine index arithmetic. -/
def SegmentCmp.machineSegment {α : Type} (w : Nat) (C : Cmp α) (feat : List α)
    (offsets : List Int) (dim i : Int) (s : List α × List Int) :
    Option (List α × List Int) := do
  let lo ← rd offsets i
  let i1 ← signed 32 (i + 1)
  let hi ← rd offsets i1
  forRange lo hi (fun j s => SegmentCmp.machineCols w C feat dim i j s) s

/-- The kernel `SegmentCmp(feat, offsets, out, arg)` with the integer types of the
source, as `SegmentSum.machine`. -/
def SegmentCmp.machine {α : Type} (w : Nat) (C : Cmp α) (feat : NDArray α)
    (offsets : NDArray Int) (out : NDArray α) (arg : NDArray Int) :
    Option (NDArray α × NDArray Int) := do
  let shape0 ← out.shape[0]?
  let n := toInt32 (Int.ofNat shape0)
  let dim ← rowWidthInt out.shape
  let out0 ← fill out.data (numElements out.shape) C.zero
  let arg0 ← fill arg.data (numElements arg.shape) (-1)
  let s ← forRange 0 n
    (fun i s => SegmentCmp.machineSegment w C feat.data offsets.data dim i s) (out0, arg0)
  pure (⟨out.shape, s.1⟩, ⟨arg.shape, s.2⟩)

/-! ## Loop rule and index arithmetic -/

theorem forUpto_inv {σ : Type} (body : Nat → σ → Option σ) (P : Nat → σ → Prop) (n : Nat) (s : σ)
    (h0 : P 0 s)
    (hstep : ∀ t s, t < n → P t s → ∃ s', body t s = some s' ∧ P (t + 1) s') :
    ∃ s', forUpto n body s = some s' ∧ P n s' := by
  induction n with
  | zero => exact ⟨s, rfl, h0⟩
  | succ m ih =>
    obtain ⟨s1, h1, hP1⟩ := ih (fun t s ht hP => hstep t s (Nat.lt_succ_of_lt ht) hP)
    obtain ⟨s2, h2, hP2⟩ := hstep m s1 (Nat.lt_succ_self m) hP1
    exact ⟨s2, by simp [forUpto, h1, h2], hP2⟩

theorem forRange_inv {σ : Type} (body : Int → σ → Option σ) (P : Nat → σ → Prop) (lo hi : Int)
    (s : σ) (h0 : P 0 s)
    (hstep : ∀ t s, t < (hi - lo).toNat → P t s →
      ∃ s', body (lo + t) s = some s' ∧ P (t + 1) s') :
    ∃ s', forRange lo hi body s = some s' ∧ P (hi - lo).toNat s' :=
  forUpto_inv (fun t => body (lo + t)) P (hi - lo).toNat s h0 hstep

theorem cell_lt {i n k dim : Nat} (hi : i < n) (hk : k < dim) : i * dim + k < n * dim := by
  have h : (i + 1) * dim ≤ n * dim := Nat.mul_le_mul_right dim hi
  rw [Nat.add_mul, Nat.one_mul] at h
  omega

theorem cell_inj {i i' k k' dim : Nat} (hk : k < dim) (hk' : k' < dim)
    (h : i * dim + k = i' * dim + k') : i = i' ∧ k = k' := by
  rcases Nat.lt_trichotomy i i' with hlt | heq | hgt
  · have := cell_lt (Nat.succ_le_of_lt hlt) hk
    have h2 : (i + 1) * dim ≤ i' * dim := Nat.mul_le_mul_right dim hlt
    rw [Nat.add_mul, Nat.one_mul] at h2
    omega
  · subst heq
    exact ⟨rfl, by omega⟩
  · have h2 : (i' + 1) * dim ≤ i * dim := Nat.mul_le_mul_right dim hgt
    rw [Nat.add_mul, Nat.one_mul] at h2
    omega

theorem rd_natCast {α : Type} (buf : List α) (p : Nat) : rd buf (p : Int) = buf[p]? := by
  simp [rd, rdN]

theorem rdN_getD {α : Type} (buf : List α) (p : Nat) (d : α) (h : p < buf.length) :
    rdN buf p = some (buf.getD p d) := by
  simp [rdN, List.getD_eq_getElem?_getD, List.getElem?_eq_getElem h]

theorem wrN_some {α : Type} (buf : List α) (p : Nat) (v : α) (h : p < buf.length) :
    wrN buf p v = some (buf.set p v) := by
  simp [wrN, h]

theorem wr_natCast {α : Type} (buf : List α) (p : Nat) (v : α) : wr buf (p : Int) v = wrN buf p v := by
  simp [wr]

theorem getD_set {α : Type} (buf : List α) (p q : Nat) (v d : α) (h : p < buf.length) :
    (buf.set p v).getD q d = if q = p then v else buf.getD q d := by
  simp only [List.getD_eq_getElem?_getD, List.getElem?_set]
  by_cases hq : q = p
  · subst hq; simp [h]
  · have : ¬ p = q := fun e => hq e.symm
    simp [hq, this]

theorem cell_outside {i i' k dim : Nat} (hne : i' ≠ i) (hk : k < dim) :
    i' * dim + k < i * dim ∨ i * dim + dim ≤ i' * dim + k := by
  rcases Nat.lt_or_gt_of_ne hne with hlt | hgt
  · left
    have h2 : (i' + 1) * dim ≤ i * dim := Nat.mul_le_mul_right dim hlt
    rw [Nat.add_mul, Nat.one_mul] at h2
    omega
  · right
    have h2 : (i + 1) * dim ≤ i' * dim := Nat.mul_le_mul_right dim hgt
    rw [Nat.add_mul, Nat.one_mul] at h2
    omega

/-- A column loop whose body rewrites cell `b + k` to `g k` of its current value
rewrites the `dim` cells from `b` on and leaves every other cell alone. -/
theorem forUpto_row {α : Type} (d : α) (body : Nat → List α → Option (List α)) (g : Nat → α → α)
    (b dim : Nat) (o : List α) (hlen : b + dim ≤ o.length)
    (hbody : ∀ k o', k < dim → o'.length = o.length →
      body k o' = wrN o' (b + k) (g k (o'.getD (b + k) d))) :
    ∃ o', forUpto dim body o = some o' ∧ o'.length = o.length ∧
      (∀ k, k < dim → o'.getD (b + k) d = g k (o.getD (b + k) d)) ∧
      (∀ p, (p < b ∨ b + dim ≤ p) → o'.getD p d = o.getD p d) := by
  have key := forUpto_inv body
    (fun c o' => o'.length = o.length ∧
      (∀ k, k < dim → o'.getD (b + k) d
        = if k < c then g k (o.getD (b + k) d) else o.getD (b + k) d) ∧
      (∀ p, (p < b ∨ b + dim ≤ p) → o'.getD p d = o.getD p d)) dim o
    ⟨rfl, fun k _ => by simp, fun p _ => rfl⟩
    (by
      intro c o1 hc ⟨hl, hrow, hfr⟩
      have hin : b + c < o1.length := by omega
      refine ⟨o1.set (b + c) (g c (o1.getD (b + c) d)), ?_, ?_, ?_, ?_⟩
      · rw [hbody c o1 hc hl, wrN_some _ _ _ hin]
      · simp [hl]
      · intro k hk
        rw [getD_set _ _ _ _ _ hin]
        by_cases hkc : k = c
        · subst hkc
          have := hrow k hk
          simp at this
          simp [this]
        · have h1 : ¬ b + k = b + c := by omega
          rw [if_neg h1, hrow k hk]
          by_cases hlt : k < c
          · have : k < c + 1 := by omega
            simp [hlt, this]
          · have : ¬ k < c + 1 := by omega
            simp [hlt, this]
      · intro p hp
        rw [getD_set _ _ _ _ _ hin]
        have h1 : ¬ p = b + c := by omega
        rw [if_neg h1, hfr p hp])
  obtain ⟨o', h, hl, hrow, hfr⟩ := key
  refine ⟨o', h, hl, ?_, hfr⟩
  intro k hk
  have := hrow k hk
  simpa [hk] using this

/-! ## SegmentSum: the effect of the loops -/

theorem SegmentSum_cols_spec {α : Type} [AddCommMonoid α] (feat : List α) (n dim R i jn : Nat)
    (o : List α) (hi : i < n) (hj : jn < R) (ho : o.length = n * dim)
    (hfeat : feat.length = R * dim) :
    ∃ o', SegmentSum.cols feat dim i (jn : Int) o = some o' ∧ o'.length = o.length ∧
      (∀ k, k < dim → o'.getD (i * dim + k) 0
        = o.getD (i * dim + k) 0 + feat.getD (jn * dim + k) 0) ∧
      (∀ p, (p < i * dim ∨ i * dim + dim ≤ p) → o'.getD p 0 = o.getD p 0) := by
  have hb : i * dim + dim ≤ o.length := by
    have h : (i + 1) * dim ≤ n * dim := Nat.mul_le_mul_right dim hi
    rw [Nat.add_mul, Nat.one_mul] at h
    omega
  apply forUpto_row 0 _ (fun k a => a + feat.getD (jn * dim + k) 0) (i * dim) dim o hb
  intro k o' hk hl
  have h1 : i * dim + k < o'.length := by omega
  have h2 : jn * dim + k < feat.length := by rw [hfeat]; exact cell_lt hj hk
  have h3 : ((jn : Int) * (dim : Int) + (k : Int)) = ((jn * dim + k : Nat) : Int) := by
    push_cast; rfl
  rw [rdN_getD o' _ 0 h1, h3, rd_natCast, ← rdN, rdN_getD feat _ 0 h2]
  rfl

theorem getD_mem_of_lt {α : Type} (l : List α) (p : Nat) (d : α) (h : p < l.length) :
    l.getD p d ∈ l := by
  rw [List.getD_eq_getElem _ _ h]
  exact List.getElem_mem h

theorem SegmentSum_segment_spec {α : Type} [AddCommMonoid α] (feat : List α) (offsets : List Int)
    (n dim R i : Nat) (o : List α) (hi : i < n) (ho : o.length = n * dim)
    (hfeat : feat.length = R * dim) (hoff : offsets.length = n + 1)
    (hrange : ∀ x ∈ offsets, 0 ≤ x ∧ x ≤ (R : Int)) :
    ∃ o', SegmentSum.segment feat offsets dim i o = some o' ∧ o'.length = o.length ∧
      (∀ k, k < dim → o'.getD (i * dim + k) 0 = o.getD (i * dim + k) 0
        + ∑ j ∈ Finset.Ico (offsets.getD i 0).toNat (offsets.getD (i + 1) 0).toNat,
            feat.getD (j * dim + k) 0) ∧
      (∀ p, (p < i * dim ∨ i * dim + dim ≤ p) → o'.getD p 0 = o.getD p 0) := by
  have hi0 : i < offsets.length := by omega
  have hi1 : i + 1 < offsets.length := by omega
  obtain ⟨hlo0, -⟩ := hrange _ (getD_mem_of_lt offsets i 0 hi0)
  obtain ⟨hhi0, hhiR⟩ := hrange _ (getD_mem_of_lt offsets (i + 1) 0 hi1)
  generalize hlo : offsets.getD i 0 = lo at hlo0 ⊢
  generalize hhi : offsets.getD (i + 1) 0 = hi' at hhi0 hhiR ⊢
  have key := forRange_inv (fun j o => SegmentSum.cols feat dim i j o)
    (fun t o' => o'.length = o.length ∧
      (∀ k, k < dim → o'.getD (i * dim + k) 0 = o.getD (i * dim + k) 0
        + ∑ u ∈ Finset.range t, feat.getD ((lo.toNat + u) * dim + k) 0) ∧
      (∀ p, (p < i * dim ∨ i * dim + dim ≤ p) → o'.getD p 0 = o.getD p 0)) lo hi' o
    ⟨rfl, fun k _ => by simp, fun p _ => rfl⟩
    (by
      intro t o1 ht ⟨hl, hrow, hfr⟩
      have hj : lo + (t : Int) = ((lo.toNat + t : Nat) : Int) := by
        push_cast
        rw [Int.toNat_of_nonneg hlo0]
      have hjR : lo.toNat + t < R := by omega
      obtain ⟨o2, h2, hl2, hrow2, hfr2⟩ :=
        SegmentSum_cols_spec feat n dim R i (lo.toNat + t) o1 hi hjR (hl.trans ho) hfeat
      refine ⟨o2, ?_, hl2.trans hl, ?_, ?_⟩
      · show SegmentSum.cols feat dim i (lo + (t : Int)) o1 = some o2
        rw [hj]
        exact h2
      · intro k hk
        rw [hrow2 k hk, hrow k hk, Finset.sum_range_succ, add_assoc]
      · intro p hp
        rw [hfr2 p hp, hfr p hp])
  obtain ⟨o', h, hl, hrow, hfr⟩ := key
  refine ⟨o', ?_, hl, ?_, hfr⟩
  · have e1 : rdN offsets i = some lo := by rw [rdN_getD offsets i 0 hi0, hlo]
    have e2 : rdN offsets (i + 1) = some hi' := by rw [rdN_getD offsets (i + 1) 0 hi1, hhi]
    simp only [SegmentSum.segment, e1, e2, Option.bind_eq_bind, Option.some_bind]
    exact h
  · intro k hk
    rw [hrow k hk, Finset.sum_Ico_eq_sum_range]
    have : (hi' - lo).toNat = hi'.toNat - lo.toNat := by omega
    rw [this]

/-- The run of `SegmentSum` on well-formed buffers: it completes, and every
output cell has gained the sum of its segment. -/
theorem SegmentSum_run {α : Type} [AddCommMonoid α] (feat : NDArray α) (offsets : NDArray Int)
    (out : NDArray α) (n dim R : Nat)
    (hn : out.shape[0]? = some n) (hd : rowWidth out.shape = dim)
    (ho : out.data.length = n * dim) (hfeat : feat.data.length = R * dim)
    (hoff : offsets.data.length = n + 1)
    (hrange : ∀ x ∈ offsets.data, 0 ≤ x ∧ x ≤ (R : Int)) :
    ∃ data, SegmentSum feat offsets out = some ⟨out.shape, data⟩ ∧ data.length = n * dim ∧
      ∀ i k, i < n → k < dim → data.getD (i * dim + k) 0 = out.data.getD (i * dim + k) 0
        + ∑ j ∈ Finset.Ico (offsets.data.getD i 0).toNat (offsets.data.getD (i + 1) 0).toNat,
            feat.data.getD (j * dim + k) 0 := by
  have key := forUpto_inv (fun i o => SegmentSum.segment feat.data offsets.data dim i o)
    (fun t o' => o'.length = n * dim ∧
      ∀ i k, i < n → k < dim → o'.getD (i * dim + k) 0
        = if i < t then out.data.getD (i * dim + k) 0
            + ∑ j ∈ Finset.Ico (offsets.data.getD i 0).toNat (offsets.data.getD (i + 1) 0).toNat,
                feat.data.getD (j * dim + k) 0
          else out.data.getD (i * dim + k) 0) n out.data
    ⟨ho, fun i k _ _ => by simp⟩
    (by
      intro t o1 ht ⟨hl, hcell⟩
      obtain ⟨o2, h2, hl2, hrow2, hfr2⟩ :=
        SegmentSum_segment_spec feat.data offsets.data n dim R t o1 ht hl hfeat hoff hrange
      refine ⟨o2, h2, hl2.trans hl, ?_⟩
      intro i k hi hk
      by_cases hit : i = t
      · subst hit
        rw [hrow2 k hk, hcell i k hi hk]
        simp
      · rw [hfr2 _ (cell_outside hit hk), hcell i k hi hk]
        by_cases hlt : i < t
        · have : i < t + 1 := by omega
          simp [hlt, this]
        · have : ¬ i < t + 1 := by omega
          simp [hlt, this])
  obtain ⟨data, h, hl, hcell⟩ := key
  refine ⟨data, ?_, hl, ?_⟩
  · simp only [SegmentSum, hn, hd, h, Option.bind_eq_bind, Option.some_bind, Option.pure_def]
  · intro i k hi hk
    rw [hcell i k hi hk, if_pos hi]

/-! ## SegmentCmp: the effect of the loops -/

/-- A column loop over an abstract state: when the body rewrites the view of cell
`b + k` to `g k` of its current view and keeps the other views, the loop rewrites
the `dim` cells from `b` on and keeps every other cell. -/
theorem forUpto_cells {σ β : Type} (view : σ → Nat → β) (ok : σ → Prop)
    (body : Nat → σ → Option σ) (g : Nat → β → β) (b dim : Nat) (s : σ) (hs : ok s)
    (hbody : ∀ k s1, k < dim → ok s1 → ∃ s2, body k s1 = some s2 ∧ ok s2 ∧
      ∀ p, view s2 p = if p = b + k then g k (view s1 (b + k)) else view s1 p) :
    ∃ s', forUpto dim body s = some s' ∧ ok s' ∧
      (∀ k, k < dim → view s' (b + k) = g k (view s (b + k))) ∧
      (∀ p, (p < b ∨ b + dim ≤ p) → view s' p = view s p) := by
  have key := forUpto_inv body
    (fun c s1 => ok s1 ∧
      (∀ k, k < dim → view s1 (b + k) = if k < c then g k (view s (b + k)) else view s (b + k)) ∧
      (∀ p, (p < b ∨ b + dim ≤ p) → view s1 p = view s p)) dim s
    ⟨hs, fun k _ => by simp, fun p _ => rfl⟩
    (by
      intro c s1 hc ⟨hok, hrow, hfr⟩
      obtain ⟨s2, h2, hok2, hv⟩ := hbody c s1 hc hok
      refine ⟨s2, h2, hok2, ?_, ?_⟩
      · intro k hk
        rw [hv]
        by_cases hkc : k = c
        · subst hkc
          have := hrow k hk
          simp at this
          simp [this]
        · have h1 : ¬ b + k = b + c := by omega
          rw [if_neg h1, hrow k hk]
          by_cases hlt : k < c
          · have : k < c + 1 := by omega
            simp [hlt, this]
          · have : ¬ k < c + 1 := by omega
            simp [hlt, this]
      · intro p hp
        rw [hv]
        have h1 : ¬ p = b + c := by omega
        rw [if_neg h1, hfr p hp])
  obtain ⟨s', h, hok, hrow, hfr⟩ := key
  refine ⟨s', h, hok, ?_, hfr⟩
  intro k hk
  have := hrow k hk
  simpa [hk] using this

theorem SegmentCmp_cols_spec {α : Type} (C : Cmp α) (feat : List α) (n dim R i jn : Nat)
    (s : List α × List Int) (hi : i < n) (hj : jn < R)
    (ho : s.1.length = n * dim) (ha : s.2.length = n * dim) (hfeat : feat.length = R * dim) :
    ∃ s', SegmentCmp.cols C feat dim i (jn : Int) s = some s' ∧
      (s'.1.length = n * dim ∧ s'.2.length = n * dim) ∧
      (∀ k, k < dim → pairAt C.zero s' (i * dim + k)
        = cmpStep C (pairAt C.zero s (i * dim + k)) (feat.getD (jn * dim + k) C.zero) jn) ∧
      (∀ p, (p < i * dim ∨ i * dim + dim ≤ p) → pairAt C.zero s' p = pairAt C.zero s p) := by
  apply forUpto_cells (pairAt C.zero) (fun s => s.1.length = n * dim ∧ s.2.length = n * dim) _
    (fun k c => cmpStep C c (feat.getD (jn * dim + k) C.zero) jn) (i * dim) dim s ⟨ho, ha⟩
  intro k s1 hk ⟨h1, h2⟩
  have hc : i * dim + k < n * dim := cell_lt hi hk
  have hf : jn * dim + k < feat.length := by rw [hfeat]; exact cell_lt hj hk
  have h3 : ((jn : Int) * (dim : Int) + (k : Int)) = ((jn * dim + k : Nat) : Int) := by
    push_cast; rfl
  have e1 : rd feat ((jn : Int) * (dim : Int) + (k : Int)) = some (feat.getD (jn * dim + k) C.zero) := by
    rw [h3, rd_natCast, ← rdN, rdN_getD feat _ C.zero hf]
  have e2 : rdN s1.1 (i * dim + k) = some (s1.1.getD (i * dim + k) C.zero) :=
    rdN_getD _ _ _ (by omega)
  by_cases hcall : C.Call (s1.1.getD (i * dim + k) C.zero) (feat.getD (jn * dim + k) C.zero) = true
  · refine ⟨(s1.1.set (i * dim + k) (feat.getD (jn * dim + k) C.zero),
      s1.2.set (i * dim + k) (jn : Int)), ?_, by simp [h1, h2], ?_⟩
    · simp only [e1, e2, Option.bind_eq_bind, Option.some_bind, hcall, if_true,
        wrN_some s1.1 _ _ (by omega : i * dim + k < s1.1.length),
        wrN_some s1.2 _ _ (by omega : i * dim + k < s1.2.length), Option.pure_def]
    · intro p
      simp only [pairAt, cmpStep, hcall, if_true]
      rw [getD_set _ _ _ _ _ (by omega : i * dim + k < s1.1.length),
        getD_set _ _ _ _ _ (by omega : i * dim + k < s1.2.length)]
      by_cases hp : p = i * dim + k <;> simp [hp]
  · refine ⟨s1, ?_, ⟨h1, h2⟩, ?_⟩
    · simp only [e1, e2, Option.bind_eq_bind, Option.some_bind, hcall, Option.pure_def]
      simp
    · intro p
      by_cases hp : p = i * dim + k
      · subst hp
        simp only [pairAt, cmpStep, if_neg hcall, if_true]
      · simp only [if_neg hp]

theorem SegmentCmp_segment_spec {α : Type} (C : Cmp α) (feat : List α) (offsets : List Int)
    (n dim R i : Nat) (s : List α × List Int) (hi : i < n)
    (ho : s.1.length = n * dim) (ha : s.2.length = n * dim)
    (hfeat : feat.length = R * dim) (hoff : offsets.length = n + 1)
    (hrange : ∀ x ∈ offsets, 0 ≤ x ∧ x ≤ (R : Int)) :
    ∃ s', SegmentCmp.segment C feat offsets dim i s = some s' ∧
      (s'.1.length = n * dim ∧ s'.2.length = n * dim) ∧
      (∀ k, k < dim → pairAt C.zero s' (i * dim + k)
        = cmpScan C (fun j => feat.getD (j * dim + k) C.zero) (offsets.getD i 0).toNat
            (pairAt C.zero s (i * dim + k))
            ((offsets.getD (i + 1) 0).toNat - (offsets.getD i 0).toNat)) ∧
      (∀ p, (p < i * dim ∨ i * dim + dim ≤ p) → pairAt C.zero s' p = pairAt C.zero s p) := by
  have hi0 : i < offsets.length := by omega
  have hi1 : i + 1 < offsets.length := by omega
  obtain ⟨hlo0, -⟩ := hrange _ (getD_mem_of_lt offsets i 0 hi0)
  obtain ⟨hhi0, hhiR⟩ := hrange _ (getD_mem_of_lt offsets (i + 1) 0 hi1)
  generalize hlo : offsets.getD i 0 = lo at hlo0 ⊢
  generalize hhi : offsets.getD (i + 1) 0 = hi' at hhi0 hhiR ⊢
  have key := forRange_inv (fun j s => SegmentCmp.cols C feat dim i j s)
    (fun t s' => (s'.1.length = n * dim ∧ s'.2.length = n * dim) ∧
      (∀ k, k < dim → pairAt C.zero s' (i * dim + k)
        = cmpScan C (fun j => feat.getD (j * dim + k) C.zero) lo.toNat
            (pairAt C.zero s (i * dim + k)) t) ∧
      (∀ p, (p < i * dim ∨ i * dim + dim ≤ p) → pairAt C.zero s' p = pairAt C.zero s p)) lo hi' s
    ⟨⟨ho, ha⟩, fun k _ => rfl, fun p _ => rfl⟩
    (by
      intro t s1 ht ⟨⟨hl1, hl2⟩, hrow, hfr⟩
      have hj : lo + (t : Int) = ((lo.toNat + t : Nat) : Int) := by
        push_cast
        rw [Int.toNat_of_nonneg hlo0]
      have hjR : lo.toNat + t < R := by omega
      obtain ⟨s2, h2, hl, hrow2, hfr2⟩ :=
        SegmentCmp_cols_spec C feat n dim R i (lo.toNat + t) s1 hi hjR hl1 hl2 hfeat
      refine ⟨s2, ?_, hl, ?_, ?_⟩
      · show SegmentCmp.cols C feat dim i (lo + (t : Int)) s1 = some s2
        rw [hj]
        exact h2
      · intro k hk
        rw [hrow2 k hk, hrow k hk]
        rfl
      · intro p hp
        rw [hfr2 p hp, hfr p hp])
  obtain ⟨s', h, hl, hrow, hfr⟩ := key
  refine ⟨s', ?_, hl, ?_, hfr⟩
  · have e1 : rdN offsets i = some lo := by rw [rdN_getD offsets i 0 hi0, hlo]
    have e2 : rdN offsets (i + 1) = some hi' := by rw [rdN_getD offsets (i + 1) 0 hi1, hhi]
    simp only [SegmentCmp.segment, e1, e2, Option.bind_eq_bind, Option.some_bind]
    exact h
  · intro k hk
    rw [hrow k hk]
    have : (hi' - lo).toNat = hi'.toNat - lo.toNat := by omega
    rw [this]

theorem foldl_mul_start (l : List Nat) (a : Nat) :
    l.foldl (fun d s => d * s) a = a * l.foldl (fun d s => d * s) 1 := by
  induction l generalizing a with
  | nil => simp
  | cons x tl ih =>
    simp only [List.foldl_cons]
    rw [ih (a * x), ih (1 * x)]
    ring

theorem numElements_eq (shape : List Nat) (n : Nat) (hn : shape[0]? = some n) :
    numElements shape = n * rowWidth shape := by
  cases shape with
  | nil => simp at hn
  | cons x tl =>
    simp at hn
    subst hn
    simp only [numElements, rowWidth, List.foldl_cons, List.drop_succ_cons, List.drop_zero]
    rw [foldl_mul_start tl (1 * x)]
    ring

theorem fill_spec {α : Type} (buf : List α) (cnt : Nat) (v : α) (h : cnt = buf.length) :
    fill buf cnt v = some (List.replicate cnt v) := by
  have key := forUpto_inv (fun p b => wrN b p v)
    (fun c b => b.length = buf.length ∧ ∀ p, p < c → b[p]? = some v) cnt buf
    ⟨rfl, fun p hp => absurd hp (Nat.not_lt_zero p)⟩
    (by
      intro c b hc ⟨hl, hv⟩
      have hin : c < b.length := by omega
      refine ⟨b.set c v, wrN_some b c v hin, by simp [hl], ?_⟩
      intro p hp
      rw [List.getElem?_set]
      by_cases hpc : c = p
      · subst hpc
        rw [if_pos rfl, if_pos hin]
      · rw [if_neg hpc]
        exact hv p (by omega))
  obtain ⟨b, hb, hl, hv⟩ := key
  rw [fill, hb]
  congr 1
  apply List.ext_getElem?
  intro p
  by_cases hp : p < cnt
  · rw [hv p hp, List.getElem?_replicate, if_pos hp]
  · rw [List.getElem?_replicate, if_neg hp, List.getElem?_eq_none (by omega)]

theorem getD_replicate_lt {α : Type} (cnt p : Nat) (v d : α) (h : p < cnt) :
    (List.replicate cnt v).getD p d = v := by
  simp [List.getD_eq_getElem?_getD, List.getElem?_replicate, h]

/-- The run of `SegmentCmp` on well-formed buffers: it completes, and every cell
of `(out, arg)` holds the result of the scan of its segment started from
`(Cmp::zero, -1)`. -/
theorem SegmentCmp_run {α : Type} (C : Cmp α) (feat : NDArray α) (offsets : NDArray Int)
    (out : NDArray α) (arg : NDArray Int) (n dim R : Nat)
    (hn : out.shape[0]? = some n) (hd : rowWidth out.shape = dim)
    (ho : out.data.length = n * dim) (hs : arg.shape = out.shape)
    (ha : arg.data.length = n * dim) (hfeat : feat.data.length = R * dim)
    (hoff : offsets.data.length = n + 1)
    (hrange : ∀ x ∈ offsets.data, 0 ≤ x ∧ x ≤ (R : Int)) :
    ∃ o a, SegmentCmp C feat offsets out arg = some (⟨out.shape, o⟩, ⟨arg.shape, a⟩) ∧
      o.length = n * dim ∧ a.length = n * dim ∧
      ∀ i k, i < n → k < dim → (o.getD (i * dim + k) C.zero, a.getD (i * dim + k) 0)
        = cmpScan C (fun j => feat.data.getD (j * dim + k) C.zero)
            (offsets.data.getD i 0).toNat (C.zero, -1)
            ((offsets.data.getD (i + 1) 0).toNat - (offsets.data.getD i 0).toNat) := by
  have hne : numElements out.shape = n * dim := by rw [numElements_eq _ _ hn, hd]
  have f1 : fill out.data (numElements out.shape) C.zero = some (List.replicate (n * dim) C.zero) := by
    rw [hne]; exact fill_spec _ _ _ ho.symm
  have f2 : fill arg.data (numElements arg.shape) (-1) = some (List.replicate (n * dim) (-1)) := by
    rw [hs, hne]; exact fill_spec _ _ _ ha.symm
  have key := forUpto_inv (fun i s => SegmentCmp.segment C feat.data offsets.data dim i s)
    (fun t s => (s.1.length = n * dim ∧ s.2.length = n * dim) ∧
      ∀ i k, i < n → k < dim → pairAt C.zero s (i * dim + k)
        = if i < t then cmpScan C (fun j => feat.data.getD (j * dim + k) C.zero)
            (offsets.data.getD i 0).toNat (C.zero, -1)
            ((offsets.data.getD (i + 1) 0).toNat - (offsets.data.getD i 0).toNat)
          else (C.zero, -1)) n
    (List.replicate (n * dim) C.zero, List.replicate (n * dim) (-1))
    ⟨⟨by simp, by simp⟩, fun i k hi hk => by
      simp only [pairAt, Nat.not_lt_zero, if_false]
      rw [getD_replicate_lt _ _ _ _ (cell_lt hi hk), getD_replicate_lt _ _ _ _ (cell_lt hi hk)]⟩
    (by
      intro t s1 ht ⟨⟨hl1, hl2⟩, hcell⟩
      obtain ⟨s2, h2, hl, hrow2, hfr2⟩ :=
        SegmentCmp_segment_spec C feat.data offsets.data n dim R t s1 ht hl1 hl2 hfeat hoff hrange
      refine ⟨s2, h2, hl, ?_⟩
      intro i k hi hk
      by_cases hit : i = t
      · subst hit
        rw [hrow2 k hk, hcell i k hi hk]
        simp
      · rw [hfr2 _ (cell_outside hit hk), hcell i k hi hk]
        by_cases hlt : i < t
        · have : i < t + 1 := by omega
          simp [hlt, this]
        · have : ¬ i < t + 1 := by omega
          simp [hlt, this])
  obtain ⟨s, h, ⟨hl1, hl2⟩, hcell⟩ := key
  refine ⟨s.1, s.2, ?_, hl1, hl2, ?_⟩
  · simp only [SegmentCmp, hn, hd, f1, f2, h, Option.bind_eq_bind, Option.some_bind,
      Option.pure_def]
  · intro i k hi hk
    have := hcell i k hi hk
    rw [if_pos hi] at this
    exact this

/-! ## The comparison scan of one cell -/

/-- For every policy the scan leaves either the initial pair `(zero, -1)` or the
value and the index of a scanned row. -/
theorem cmpScan_cases {α : Type} (C : Cmp α) (f : Nat → α) (lo t : Nat) :
    cmpScan C f lo (C.zero, -1) t = (C.zero, -1) ∨
      ∃ j, lo ≤ j ∧ j < lo + t ∧ cmpScan C f lo (C.zero, -1) t = (f j, (j : Int)) := by
  induction t with
  | zero => exact Or.inl rfl
  | succ t ih =>
    by_cases hc : C.Call (cmpScan C f lo (C.zero, -1) t).1 (f (lo + t)) = true
    · right
      exact ⟨lo + t, by omega, by omega, by simp only [cmpScan, cmpStep, if_pos hc]⟩
    · have e : cmpScan C f lo (C.zero, -1) (t + 1) = cmpScan C f lo (C.zero, -1) t := by
        simp only [cmpScan, cmpStep, if_neg hc]
      rw [e]
      rcases ih with h | ⟨j, h1, h2, h3⟩
      · exact Or.inl h
      · exact Or.inr ⟨j, h1, by omega, h3⟩

theorem cmpScan_succ {α : Type} (C : Cmp α) (f : Nat → α) (lo : Nat) (init : α × Int) (t : Nat) :
    cmpScan C f lo init (t + 1)
      = cmpStep C (cmpScan C f lo init t) (f (lo + t)) ((lo + t : Nat) : Int) := rfl

theorem cmpStep_max {α : Type} [LinearOrder α] [OrderBot α] (s : α × Int) (v : α) (j : Int) :
    cmpStep (op.Max α) s v j = if v > s.1 then (v, j) else s := by
  simp [cmpStep, op.Max]

theorem cmpStep_min {α : Type} [LinearOrder α] [OrderTop α] (s : α × Int) (v : α) (j : Int) :
    cmpStep (op.Min α) s v j = if v < s.1 then (v, j) else s := by
  simp [cmpStep, op.Min]

/-- The scan with the `Max` policy: the value bounds every scanned value, and the
pair is either still `(⊥, -1)` or the first row that attains the bound. -/
theorem cmpScan_max {α : Type} [LinearOrder α] [OrderBot α] (f : Nat → α) (lo t : Nat) :
    (∀ j, lo ≤ j → j < lo + t → f j ≤ (cmpScan (op.Max α) f lo (⊥, -1) t).1) ∧
    (cmpScan (op.Max α) f lo (⊥, -1) t = (⊥, -1) ∨
      ∃ j, lo ≤ j ∧ j < lo + t ∧ cmpScan (op.Max α) f lo (⊥, -1) t = (f j, (j : Int)) ∧
        ⊥ < f j ∧ ∀ j', lo ≤ j' → j' < j → f j' < f j) := by
  induction t with
  | zero => exact ⟨fun j h1 h2 => absurd h2 (by omega), Or.inl rfl⟩
  | succ t ih =>
    obtain ⟨hub, hcase⟩ := ih
    by_cases hc : f (lo + t) > (cmpScan (op.Max α) f lo (⊥, -1) t).1
    · have e : cmpScan (op.Max α) f lo (⊥, -1) (t + 1) = (f (lo + t), ((lo + t : Nat) : Int)) := by
        rw [cmpScan_succ, cmpStep_max, if_pos hc]
      rw [e]
      refine ⟨?_, Or.inr ⟨lo + t, by omega, by omega, rfl, lt_of_le_of_lt bot_le hc, ?_⟩⟩
      · intro j h1 h2
        by_cases hj : j = lo + t
        · rw [hj]
        · exact le_of_lt (lt_of_le_of_lt (hub j h1 (by omega)) hc)
      · intro j' h1 h2
        exact lt_of_le_of_lt (hub j' h1 h2) hc
    · have e : cmpScan (op.Max α) f lo (⊥, -1) (t + 1) = cmpScan (op.Max α) f lo (⊥, -1) t := by
        rw [cmpScan_succ, cmpStep_max, if_neg hc]
      rw [e]
      refine ⟨?_, ?_⟩
      · intro j h1 h2
        by_cases hj : j = lo + t
        · rw [hj]; exact not_lt.mp hc
        · exact hub j h1 (by omega)
      · rcases hcase with h | ⟨j, h1, h2, h3, h4, h5⟩
        · exact Or.inl h
        · exact Or.inr ⟨j, h1, by omega, h3, h4, h5⟩

/-- The scan with the `Min` policy, the mirror image of `cmpScan_max`. -/
theorem cmpScan_min {α : Type} [LinearOrder α] [OrderTop α] (f : Nat → α) (lo t : Nat) :
    (∀ j, lo ≤ j → j < lo + t → (cmpScan (op.Min α) f lo (⊤, -1) t).1 ≤ f j) ∧
    (cmpScan (op.Min α) f lo (⊤, -1) t = (⊤, -1) ∨
      ∃ j, lo ≤ j ∧ j < lo + t ∧ cmpScan (op.Min α) f lo (⊤, -1) t = (f j, (j : Int)) ∧
        f j < ⊤ ∧ ∀ j', lo ≤ j' → j' < j → f j < f j') := by
  induction t with
  | zero => exact ⟨fun j h1 h2 => absurd h2 (by omega), Or.inl rfl⟩
  | succ t ih =>
    obtain ⟨hlb, hcase⟩ := ih
    by_cases hc : f (lo + t) < (cmpScan (op.Min α) f lo (⊤, -1) t).1
    · have e : cmpScan (op.Min α) f lo (⊤, -1) (t + 1) = (f (lo + t), ((lo + t : Nat) : Int)) := by
        rw [cmpScan_succ, cmpStep_min, if_pos hc]
      rw [e]
      refine ⟨?_, Or.inr ⟨lo + t, by omega, by omega, rfl, lt_of_lt_of_le hc le_top, ?_⟩⟩
      · intro j h1 h2
        by_cases hj : j = lo + t
        · rw [hj]
        · exact le_of_lt (lt_of_lt_of_le hc (hlb j h1 (by omega)))
      · intro j' h1 h2
        exact lt_of_lt_of_le hc (hlb j' h1 h2)
    · have e : cmpScan (op.Min α) f lo (⊤, -1) (t + 1) = cmpScan (op.Min α) f lo (⊤, -1) t := by
        rw [cmpScan_succ, cmpStep_min, if_neg hc]
      rw [e]
      refine ⟨?_, ?_⟩
      · intro j h1 h2
        by_cases hj : j = lo + t
        · rw [hj]; exact not_lt.mp hc
        · exact hlb j h1 (by omega)
      · rcases hcase with h | ⟨j, h1, h2, h3, h4, h5⟩
        · exact Or.inl h
        · exact Or.inr ⟨j, h1, by omega, h3, h4, h5⟩

/-- A cell of a list of known length read through `getD` and through `[·]?`. -/
theorem getElem?_of_getD {α : Type} (l : List α) (p : Nat) (d v : α) (h : p < l.length)
    (hv : l.getD p d = v) : l[p]? = some v := by
  rw [← hv, ← rdN_getD l p d h, rdN]

/-- The rows scanned for a segment, in terms of the offsets themselves. -/
theorem seg_range_iff (lo hi : Int) (j : Nat) (h0 : 0 ≤ lo) :
    (lo.toNat ≤ j ∧ j < lo.toNat + (hi.toNat - lo.toNat)) ↔ (lo ≤ (j : Int) ∧ (j : Int) < hi) := by
  omega

/-- Every cell after `SegmentCmp`, for any policy: it holds `(zero, -1)` or the
value and the index of a row of its own segment. -/
theorem SegmentCmp_cells {α : Type} (C : Cmp α) (feat : NDArray α) (offsets : NDArray Int)
    (out : NDArray α) (arg : NDArray Int) (n dim R : Nat)
    (hn : out.shape[0]? = some n) (hd : rowWidth out.shape = dim)
    (ho : out.data.length = n * dim) (hs : arg.shape = out.shape)
    (ha : arg.data.length = n * dim) (hfeat : feat.data.length = R * dim)
    (hoff : offsets.data.length = n + 1)
    (hrange : ∀ x ∈ offsets.data, 0 ≤ x ∧ x ≤ (R : Int)) :
    ∃ o a, SegmentCmp C feat offsets out arg = some (⟨out.shape, o⟩, ⟨arg.shape, a⟩) ∧
      o.length = n * dim ∧ a.length = n * dim ∧
      ∀ i k, i < n → k < dim →
        (o.getD (i * dim + k) C.zero = C.zero ∧ a.getD (i * dim + k) 0 = -1) ∨
        ∃ j : Nat, offsets.data.getD i 0 ≤ (j : Int) ∧ (j : Int) < offsets.data.getD (i + 1) 0 ∧
          o.getD (i * dim + k) C.zero = feat.data.getD (j * dim + k) C.zero ∧
          a.getD (i * dim + k) 0 = (j : Int) := by
  obtain ⟨o, a, hrun, hlo, hla, hcell⟩ :=
    SegmentCmp_run C feat offsets out arg n dim R hn hd ho hs ha hfeat hoff hrange
  refine ⟨o, a, hrun, hlo, hla, ?_⟩
  intro i k hi hk
  have h0 : 0 ≤ offsets.data.getD i 0 :=
    (hrange _ (getD_mem_of_lt offsets.data i 0 (by omega))).1
  have hc := hcell i k hi hk
  rcases cmpScan_cases C (fun j => feat.data.getD (j * dim + k) C.zero)
      (offsets.data.getD i 0).toNat
      ((offsets.data.getD (i + 1) 0).toNat - (offsets.data.getD i 0).toNat) with h | ⟨j, h1, h2, h3⟩
  · left
    rw [h] at hc
    exact ⟨congrArg Prod.fst hc, congrArg Prod.snd hc⟩
  · right
    rw [h3] at hc
    obtain ⟨h4, h5⟩ := (seg_range_iff _ _ j h0).mp ⟨h1, h2⟩
    exact ⟨j, h4, h5, congrArg Prod.fst hc, congrArg Prod.snd hc⟩

/-- Every cell after `SegmentCmp` with the `Max` policy. -/
theorem SegmentCmp_max_cells {α : Type} [LinearOrder α] [OrderBot α] (feat : NDArray α)
    (offsets : NDArray Int) (out : NDArray α) (arg : NDArray Int) (n dim R : Nat)
    (hn : out.shape[0]? = some n) (hd : rowWidth out.shape = dim)
    (ho : out.data.length = n * dim) (hs : arg.shape = out.shape)
    (ha : arg.data.length = n * dim) (hfeat : feat.data.length = R * dim)
    (hoff : offsets.data.length = n + 1)
    (hrange : ∀ x ∈ offsets.data, 0 ≤ x ∧ x ≤ (R : Int)) :
    ∃ o a, SegmentCmp (op.Max α) feat offsets out arg
        = some (⟨out.shape, o⟩, ⟨arg.shape, a⟩) ∧
      o.length = n * dim ∧ a.length = n * dim ∧
      ∀ i k, i < n → k < dim →
        (∀ j : Nat, offsets.data.getD i 0 ≤ (j : Int) → (j : Int) < offsets.data.getD (i + 1) 0 →
          feat.data.getD (j * dim + k) ⊥ ≤ o.getD (i * dim + k) ⊥) ∧
        ((o.getD (i * dim + k) ⊥ = ⊥ ∧ a.getD (i * dim + k) 0 = -1) ∨
          ∃ j : Nat, offsets.data.getD i 0 ≤ (j : Int) ∧ (j : Int) < offsets.data.getD (i + 1) 0 ∧
            o.getD (i * dim + k) ⊥ = feat.data.getD (j * dim + k) ⊥ ∧
            a.getD (i * dim + k) 0 = (j : Int) ∧ ⊥ < feat.data.getD (j * dim + k) ⊥ ∧
            ∀ j' : Nat, offsets.data.getD i 0 ≤ (j' : Int) → j' < j →
              feat.data.getD (j' * dim + k) ⊥ < feat.data.getD (j * dim + k) ⊥) := by
  obtain ⟨o, a, hrun, hlo, hla, hcell⟩ :=
    SegmentCmp_run (op.Max α) feat offsets out arg n dim R hn hd ho hs ha hfeat hoff hrange
  refine ⟨o, a, hrun, hlo, hla, ?_⟩
  intro i k hi hk
  have h0 : 0 ≤ offsets.data.getD i 0 :=
    (hrange _ (getD_mem_of_lt offsets.data i 0 (by omega))).1
  have hc : (o.getD (i * dim + k) ⊥, a.getD (i * dim + k) 0) = _ := hcell i k hi hk
  obtain ⟨hub, hcase⟩ := cmpScan_max (fun j => feat.data.getD (j * dim + k) ⊥)
      (offsets.data.getD i 0).toNat
      ((offsets.data.getD (i + 1) 0).toNat - (offsets.data.getD i 0).toNat)
  have hc1 := congrArg Prod.fst hc
  have hc2 := congrArg Prod.snd hc
  simp only at hc1 hc2
  refine ⟨?_, ?_⟩
  · intro j h1 h2
    obtain ⟨h3, h4⟩ := (seg_range_iff _ _ j h0).mpr ⟨h1, h2⟩
    rw [hc1]
    exact hub j h3 h4
  · rcases hcase with h | ⟨j, h1, h2, h3, h4, h5⟩
    · left
      have e : (op.Max α).zero = (⊥ : α) := rfl
      rw [e] at hc1 hc2
      rw [h] at hc1 hc2
      exact ⟨hc1, hc2⟩
    · right
      have e : (op.Max α).zero = (⊥ : α) := rfl
      rw [e] at hc1 hc2
      rw [h3] at hc1 hc2
      obtain ⟨h6, h7⟩ := (seg_range_iff _ _ j h0).mp ⟨h1, h2⟩
      refine ⟨j, h6, h7, hc1, hc2, h4, ?_⟩
      intro j' h8 h9
      exact h5 j' (by omega) h9

/-- Every cell after `SegmentCmp` with the `Min` policy. -/
theorem SegmentCmp_min_cells {α : Type} [LinearOrder α] [OrderTop α] (feat : NDArray α)
    (offsets : NDArray Int) (out : NDArray α) (arg : NDArray Int) (n dim R : Nat)
    (hn : out.shape[0]? = some n) (hd : rowWidth out.shape = dim)
    (ho : out.data.length = n * dim) (hs : arg.shape = out.shape)
    (ha : arg.data.length = n * dim) (hfeat : feat.data.length = R * dim)
    (hoff : offsets.data.length = n + 1)
    (hrange : ∀ x ∈ offsets.data, 0 ≤ x ∧ x ≤ (R : Int)) :
    ∃ o a, SegmentCmp (op.Min α) feat offsets out arg
        = some (⟨out.shape, o⟩, ⟨arg.shape, a⟩) ∧
      o.length = n * dim ∧ a.length = n * dim ∧
      ∀ i k, i < n → k < dim →
        (∀ j : Nat, offsets.data.getD i 0 ≤ (j : Int) → (j : Int) < offsets.data.getD (i + 1) 0 →
          o.getD (i * dim + k) ⊤ ≤ feat.data.getD (j * dim + k) ⊤) ∧
        ((o.getD (i * dim + k) ⊤ = ⊤ ∧ a.getD (i * dim + k) 0 = -1) ∨
          ∃ j : Nat, offsets.data.getD i 0 ≤ (j : Int) ∧ (j : Int) < offsets.data.getD (i + 1) 0 ∧
            o.getD (i * dim + k) ⊤ = feat.data.getD (j * dim + k) ⊤ ∧
            a.getD (i * dim + k) 0 = (j : Int) ∧ feat.data.getD (j * dim + k) ⊤ < ⊤ ∧
            ∀ j' : Nat, offsets.data.getD i 0 ≤ (j' : Int) → j' < j →
              feat.data.getD (j * dim + k) ⊤ < feat.data.getD (j' * dim + k) ⊤) := by
  obtain ⟨o, a, hrun, hlo, hla, hcell⟩ :=
    SegmentCmp_run (op.Min α) feat offsets out arg n dim R hn hd ho hs ha hfeat hoff hrange
  refine ⟨o, a, hrun, hlo, hla, ?_⟩
  intro i k hi hk
  have h0 : 0 ≤ offsets.data.getD i 0 :=
    (hrange _ (getD_mem_of_lt offsets.data i 0 (by omega))).1
  have hc : (o.getD (i * dim + k) ⊤, a.getD (i * dim + k) 0) = _ := hcell i k hi hk
  obtain ⟨hlb, hcase⟩ := cmpScan_min (fun j => feat.data.getD (j * dim + k) ⊤)
      (offsets.data.getD i 0).toNat
      ((offsets.data.getD (i + 1) 0).toNat - (offsets.data.getD i 0).toNat)
  have hc1 := congrArg Prod.fst hc
  have hc2 := congrArg Prod.snd hc
  simp only at hc1 hc2
  have e : (op.Min α).zero = (⊤ : α) := rfl
  rw [e] at hc1 hc2
  refine ⟨?_, ?_⟩
  · intro j h1 h2
    obtain ⟨h3, h4⟩ := (seg_range_iff _ _ j h0).mpr ⟨h1, h2⟩
    rw [hc1]
    exact hlb j h3 h4
  · rcases hcase with h | ⟨j, h1, h2, h3, h4, h5⟩
    · left
      rw [h] at hc1 hc2
      exact ⟨hc1, hc2⟩
    · right
      rw [h3] at hc1 hc2
      obtain ⟨h6, h7⟩ := (seg_range_iff _ _ j h0).mp ⟨h1, h2⟩
      refine ⟨j, h6, h7, hc1, hc2, h4, ?_⟩
      intro j' h8 h9
      exact h5 j' (by omega) h9

/-! ## ScatterAdd: the effect of the loops -/

theorem ScatterAdd_cols_spec {α : Type} [AddCommMonoid α] (feat : List α) (M dim R i r : Nat)
    (o : List α) (hi : i < R) (hr : r < M) (ho : o.length = M * dim)
    (hfeat : feat.length = R * dim) :
    ∃ o', ScatterAdd.cols feat dim i (r : Int) o = some o' ∧ o'.length = o.length ∧
      (∀ k, k < dim → o'.getD (r * dim + k) 0
        = o.getD (r * dim + k) 0 + feat.getD (i * dim + k) 0) ∧
      (∀ p, (p < r * dim ∨ r * dim + dim ≤ p) → o'.getD p 0 = o.getD p 0) := by
  have hb : r * dim + dim ≤ o.length := by
    have h : (r + 1) * dim ≤ M * dim := Nat.mul_le_mul_right dim hr
    rw [Nat.add_mul, Nat.one_mul] at h
    omega
  apply forUpto_row 0 _ (fun k a => a + feat.getD (i * dim + k) 0) (r * dim) dim o hb
  intro k o' hk hl
  have h1 : r * dim + k < o'.length := by omega
  have h2 : i * dim + k < feat.length := by rw [hfeat]; exact cell_lt hi hk
  have h3 : ((r : Int) * (dim : Int) + (k : Int)) = ((r * dim + k : Nat) : Int) := by
    push_cast; rfl
  rw [h3, rd_natCast, ← rdN, rdN_getD o' _ 0 h1, rdN_getD feat _ 0 h2]
  simp only [wr_natCast, Option.bind_eq_bind, Option.some_bind]

/-- The destination sum of `ScatterAdd` over the first `t + 1` input rows. -/
theorem scatter_sum_succ {α : Type} [AddCommMonoid α] (idx : List Int) (f : Nat → α) (r : Int)
    (t : Nat) :
    ∑ i ∈ (Finset.range (t + 1)).filter (fun i => idx.getD i 0 = r), f i
      = if idx.getD t 0 = r then
          (∑ i ∈ (Finset.range t).filter (fun i => idx.getD i 0 = r), f i) + f t
        else ∑ i ∈ (Finset.range t).filter (fun i => idx.getD i 0 = r), f i := by
  rw [Finset.range_succ, Finset.filter_insert]
  by_cases h : idx.getD t 0 = r
  · rw [if_pos h, if_pos h, Finset.sum_insert (by simp), add_comm]
  · rw [if_neg h, if_neg h]

/-- The run of `ScatterAdd` on well-formed buffers: it completes, and every output
cell has gained the values of the input rows sent to its row. -/
theorem ScatterAdd_run {α : Type} [AddCommMonoid α] (feat : NDArray α) (idx : NDArray Int)
    (out : NDArray α) (R M dim : Nat)
    (hn : feat.shape[0]? = some R) (hd : rowWidth out.shape = dim)
    (ho : out.data.length = M * dim) (hfeat : feat.data.length = R * dim)
    (hidx : idx.data.length = R)
    (hrange : ∀ x ∈ idx.data, 0 ≤ x ∧ x < (M : Int)) :
    ∃ data, ScatterAdd feat idx out = some ⟨out.shape, data⟩ ∧ data.length = M * dim ∧
      ∀ r k, r < M → k < dim → data.getD (r * dim + k) 0 = out.data.getD (r * dim + k) 0
        + ∑ i ∈ (Finset.range R).filter (fun i => idx.data.getD i 0 = (r : Int)),
            feat.data.getD (i * dim + k) 0 := by
  have key := forUpto_inv (fun i o => ScatterAdd.row feat.data idx.data dim i o)
    (fun t o' => o'.length = M * dim ∧
      ∀ r k, r < M → k < dim → o'.getD (r * dim + k) 0 = out.data.getD (r * dim + k) 0
        + ∑ i ∈ (Finset.range t).filter (fun i => idx.data.getD i 0 = (r : Int)),
            feat.data.getD (i * dim + k) 0) R out.data
    ⟨ho, fun r k _ _ => by simp⟩
    (by
      intro t o1 ht ⟨hl, hcell⟩
      have ht' : t < idx.data.length := by omega
      obtain ⟨h0, hM⟩ := hrange _ (getD_mem_of_lt idx.data t 0 ht')
      have hw : idx.data.getD t 0 = (((idx.data.getD t 0).toNat : Nat) : Int) :=
        (Int.toNat_of_nonneg h0).symm
      have hr0 : (idx.data.getD t 0).toNat < M := by omega
      obtain ⟨o2, h2, hl2, hrow2, hfr2⟩ :=
        ScatterAdd_cols_spec feat.data M dim R t (idx.data.getD t 0).toNat o1 ht hr0 hl hfeat
      refine ⟨o2, ?_, hl2.trans hl, ?_⟩
      · simp only [ScatterAdd.row, rdN_getD idx.data t 0 ht', Option.bind_eq_bind,
          Option.some_bind]
        rw [hw]
        exact h2
      · intro r k hr hk
        rw [scatter_sum_succ]
        by_cases hrt : r = (idx.data.getD t 0).toNat
        · have e : idx.data.getD t 0 = (r : Int) := by omega
          rw [if_pos e, hrt, hrow2 k hk, ← hrt, hcell r k hr hk, add_assoc]
        · have e : ¬ idx.data.getD t 0 = (r : Int) := by omega
          rw [if_neg e, hfr2 _ (cell_outside hrt hk), hcell r k hr hk])
  obtain ⟨data, h, hl, hcell⟩ := key
  refine ⟨data, ?_, hl, hcell⟩
  simp only [ScatterAdd, hn, hd, h, Option.bind_eq_bind, Option.some_bind, Option.pure_def]

/-- The destination sum of `ScatterAdd` does not change when the input rows are
permuted together with their destinations. -/
theorem scatter_sum_perm {α : Type} [AddCommMonoid α] (R : Nat) (p : Equiv.Perm (Fin R))
    (a a' : Nat → Int) (f f' : Nat → α) (r : Int)
    (ha : ∀ i : Fin R, a' i.val = a (p i).val) (hf : ∀ i : Fin R, f' i.val = f (p i).val) :
    ∑ i ∈ (Finset.range R).filter (fun i => a' i = r), f' i
      = ∑ i ∈ (Finset.range R).filter (fun i => a i = r), f i := by
  rw [Finset.sum_filter, Finset.sum_filter, Finset.sum_range, Finset.sum_range]
  rw [← Equiv.sum_comp p (fun j : Fin R => if a j.val = r then f j.val else 0)]
  apply Finset.sum_congr rfl
  intro i _
  rw [ha i, hf i]

/-- Two lists of the same length with the same cells, read through `getD`, are equal. -/
theorem list_eq_of_getD {α : Type} (l l' : List α) (d : α) (hl : l.length = l'.length)
    (h : ∀ p, p < l.length → l.getD p d = l'.getD p d) : l = l' := by
  apply List.ext_getElem hl
  intro p h1 h2
  have := h p h1
  rwa [List.getD_eq_getElem _ _ h1, List.getD_eq_getElem _ _ h2] at this

/-- Every flat index of a buffer of `M` rows of width `dim` is a cell `r * dim + k`. -/
theorem cell_of_lt (M dim p : Nat) (h : p < M * dim) :
    ∃ r k, r < M ∧ k < dim ∧ p = r * dim + k := by
  have hd : 0 < dim := by
    rcases Nat.eq_zero_or_pos dim with h0 | h0
    · rw [h0] at h; simp at h
    · exact h0
  refine ⟨p / dim, p % dim, ?_, Nat.mod_lt _ hd, ?_⟩
  · exact (Nat.div_lt_iff_lt_mul hd).mpr h
  · rw [Nat.mul_comm]; exact (Nat.div_add_mod p dim).symm

/-! ## BackwardSegmentCmp: the effect of the loops -/

theorem BackwardInv_congr {α : Type} (feat : List α) (arg : List Int) (out : List α)
    (n dim : Nat) (D D' : Nat → Nat → Prop) (o : List α)
    (h : ∀ i k, k < dim → (D i k ↔ D' i k)) (hinv : BackwardInv feat arg out n dim D o) :
    BackwardInv feat arg out n dim D' o := by
  obtain ⟨h1, h2, h3⟩ := hinv
  refine ⟨h1, ?_, ?_⟩
  · intro i k hi hk hD
    exact h2 i k hi hk ((h i k hk).mpr hD)
  · intro q hq
    apply h3 q
    intro i k hi hk hD
    exact hq i k hi hk ((h i k hk).mp hD)

/-- One step of `BackwardSegmentCmp`: processing the cell `(i0, k0)` of `arg`, when
each output cell is named by at most one non-negative argument. -/
theorem BackwardSegmentCmp_cell_spec {α : Type} (feat : List α) (arg : List Int) (out : List α)
    (n M dim : Nat) (hfeat : feat.length = n * dim) (harg : arg.length = n * dim)
    (ho : out.length = M * dim) (hrange : ∀ x ∈ arg, x < (M : Int))
    (hinj : ∀ i i' k, i < n → i' < n → k < dim → 0 ≤ arg.getD (i * dim + k) 0 →
      arg.getD (i * dim + k) 0 = arg.getD (i' * dim + k) 0 → i = i')
    (D D' : Nat → Nat → Prop) (i0 k0 : Nat) (hi0 : i0 < n) (hk0 : k0 < dim)
    (hD : ¬ D i0 k0) (hD' : ∀ i k, D' i k ↔ (D i k ∨ (i = i0 ∧ k = k0)))
    (o : List α) (hinv : BackwardInv feat arg out n dim D o) :
    ∃ o', BackwardSegmentCmp.cell feat arg dim i0 k0 o = some o' ∧
      BackwardInv feat arg out n dim D' o' := by
  obtain ⟨h1, h2, h3⟩ := hinv
  have hc : i0 * dim + k0 < n * dim := cell_lt hi0 hk0
  have ea : rdN arg (i0 * dim + k0) = some (arg.getD (i0 * dim + k0) 0) :=
    rdN_getD arg _ 0 (by omega)
  have hAM := hrange _ (getD_mem_of_lt arg (i0 * dim + k0) 0 (by omega))
  generalize hA : arg.getD (i0 * dim + k0) 0 = A at ea hAM
  by_cases hpos : A ≥ 0
  · have hf : i0 * dim + k0 < feat.length := by omega
    have ef : rdN feat (i0 * dim + k0) = some (feat[i0 * dim + k0]) := by
      rw [rdN, List.getElem?_eq_getElem hf]
    have hr0 : A.toNat < M := by omega
    have hp0 : A.toNat * dim + k0 < o.length := by rw [h1, ho]; exact cell_lt hr0 hk0
    have hcast : A * (dim : Int) + (k0 : Int) = ((A.toNat * dim + k0 : Nat) : Int) := by
      push_cast
      rw [Int.toNat_of_nonneg hpos]
    refine ⟨o.set (A.toNat * dim + k0) (feat[i0 * dim + k0]), ?_, ?_, ?_, ?_⟩
    · simp only [BackwardSegmentCmp.cell, ea, ef, Option.bind_eq_bind, Option.some_bind,
        if_pos hpos, hcast, wr_natCast, wrN_some o _ _ hp0]
    · simp [h1]
    · intro i k hi hk hDik hnn
      rw [List.getElem?_set]
      rcases (hD' i k).mp hDik with hold | ⟨rfl, rfl⟩
      · have hne : ¬ A.toNat * dim + k0 = (arg.getD (i * dim + k) 0).toNat * dim + k := by
          intro e
          obtain ⟨e1, e2⟩ := cell_inj hk0 hk e
          subst e2
          have e3 : arg.getD (i * dim + k0) 0 = arg.getD (i0 * dim + k0) 0 := by
            rw [hA]; omega
          have := hinj i i0 k0 hi hi0 hk0 hnn e3
          subst this
          exact hD hold
        rw [if_neg hne]
        exact h2 i k hi hk hold hnn
      · rw [hA, if_pos rfl, if_pos hp0, List.getElem?_eq_getElem hf]
    · intro q hq
      have hne : ¬ A.toNat * dim + k0 = q := by
        intro e
        have := hq i0 k0 hi0 hk0 ((hD' i0 k0).mpr (Or.inr ⟨rfl, rfl⟩)) (by rw [hA]; exact hpos)
        rw [hA] at this
        exact this e.symm
      rw [List.getElem?_set, if_neg hne]
      apply h3 q
      intro i k hi hk hDik
      exact hq i k hi hk ((hD' i k).mpr (Or.inl hDik))
  · refine ⟨o, ?_, h1, ?_, ?_⟩
    · simp only [BackwardSegmentCmp.cell, ea, Option.bind_eq_bind, Option.some_bind,
        if_neg hpos, Option.pure_def]
    · intro i k hi hk hDik hnn
      rcases (hD' i k).mp hDik with hold | ⟨rfl, rfl⟩
      · exact h2 i k hi hk hold hnn
      · rw [hA] at hnn
        exact absurd hnn hpos
    · intro q hq
      apply h3 q
      intro i k hi hk hDik
      exact hq i k hi hk ((hD' i k).mpr (Or.inl hDik))

/-- The run of `BackwardSegmentCmp` on well-formed buffers in which each output cell
is named by at most one non-negative argument. -/
theorem BackwardSegmentCmp_run {α : Type} (feat : NDArray α) (arg : NDArray Int)
    (out : NDArray α) (n M dim : Nat)
    (hn : feat.shape[0]? = some n) (hd : rowWidth out.shape = dim)
    (hfeat : feat.data.length = n * dim) (harg : arg.data.length = n * dim)
    (ho : out.data.length = M * dim) (hrange : ∀ x ∈ arg.data, x < (M : Int))
    (hinj : ∀ i i' k, i < n → i' < n → k < dim → 0 ≤ arg.data.getD (i * dim + k) 0 →
      arg.data.getD (i * dim + k) 0 = arg.data.getD (i' * dim + k) 0 → i = i') :
    ∃ data, BackwardSegmentCmp feat arg out = some ⟨out.shape, data⟩ ∧
      data.length = M * dim ∧
      (∀ i k, i < n → k < dim → 0 ≤ arg.data.getD (i * dim + k) 0 →
        data[(arg.data.getD (i * dim + k) 0).toNat * dim + k]? = feat.data[i * dim + k]?) ∧
      (∀ q, (∀ i k, i < n → k < dim → 0 ≤ arg.data.getD (i * dim + k) 0 →
          q ≠ (arg.data.getD (i * dim + k) 0).toNat * dim + k) → data[q]? = out.data[q]?) := by
  have key := forUpto_inv (fun i o => BackwardSegmentCmp.cols feat.data arg.data dim i o)
    (fun t o => BackwardInv feat.data arg.data out.data n dim (processed t 0) o) n out.data
    ⟨rfl, fun i k _ _ hD => by simp [processed] at hD, fun q _ => rfl⟩
    (by
      intro t o1 ht hinv
      have inner := forUpto_inv (fun k o => BackwardSegmentCmp.cell feat.data arg.data dim t k o)
        (fun c o => BackwardInv feat.data arg.data out.data n dim (processed t c) o) dim o1 hinv
        (by
          intro c o2 hc hinv2
          exact BackwardSegmentCmp_cell_spec feat.data arg.data out.data n M dim hfeat harg ho
            hrange hinj (processed t c) (processed t (c + 1)) t c ht hc
            (by simp [processed]) (by intro i k; simp only [processed]; omega) o2 hinv2)
      obtain ⟨o3, h3, hinv3⟩ := inner
      refine ⟨o3, h3, ?_⟩
      apply BackwardInv_congr _ _ _ _ _ (processed t dim) _ _ _ hinv3
      intro i k hk
      simp only [processed]
      omega)
  obtain ⟨data, h, hl, hput, hfr⟩ := key
  refine ⟨data, ?_, hl.trans ho, ?_, ?_⟩
  · simp only [BackwardSegmentCmp, hn, hd, h, Option.bind_eq_bind, Option.some_bind,
      Option.pure_def]
  · intro i k hi hk hnn
    exact hput i k hi hk (Or.inl hi) hnn
  · intro q hq
    apply hfr q
    intro i k hi hk _ hnn
    exact hq i k hi hk hnn

theorem offsets_mono_chain (offsets : List Int) (n : Nat)
    (hmono : ∀ i, i < n → offsets.getD i 0 ≤ offsets.getD (i + 1) 0) (i i' : Nat)
    (h : i ≤ i') (h' : i' ≤ n) : offsets.getD i 0 ≤ offsets.getD i' 0 := by
  induction i' with
  | zero =>
    have : i = 0 := by omega
    rw [this]
  | succ m ih =>
    by_cases hm : i = m + 1
    · rw [hm]
    · exact le_trans (ih (by omega) (by omega)) (hmono m (by omega))

/-- A cell read through `[·]?` and through `getD`. -/
theorem getD_of_getElem? {α : Type} (l : List α) (p : Nat) (d v : α) (h : l[p]? = some v) :
    l.getD p d = v := by
  rw [List.getD_eq_getElem?_getD, h]
  rfl

/-- Arguments that lie in their own segments, for non-decreasing offsets, name
every row at most once per column. -/
theorem args_injective (offsets : List Int) (a : List Int) (n dim : Nat)
    (hmono : ∀ i, i < n → offsets.getD i 0 ≤ offsets.getD (i + 1) 0)
    (hcell : ∀ i k, i < n → k < dim → a.getD (i * dim + k) 0 = -1 ∨
      ∃ j : Nat, offsets.getD i 0 ≤ (j : Int) ∧ (j : Int) < offsets.getD (i + 1) 0 ∧
        a.getD (i * dim + k) 0 = (j : Int))
    (i i' k : Nat) (hi : i < n) (hi' : i' < n) (hk : k < dim)
    (hnn : a.getD (i * dim + k) 0 ≠ -1)
    (he : a.getD (i * dim + k) 0 = a.getD (i' * dim + k) 0) : i = i' := by
  rcases hcell i k hi hk with h1 | ⟨j, h1, h2, h3⟩
  · exact absurd h1 hnn
  · rcases hcell i' k hi' hk with h4 | ⟨j', h4, h5, h6⟩
    · rw [← he] at h4
      exact absurd h4 hnn
    · rcases Nat.lt_trichotomy i i' with hlt | heq | hgt
      · have := offsets_mono_chain offsets n hmono (i + 1) i' (by omega) (by omega)
        omega
      · exact heq
      · have := offsets_mono_chain offsets n hmono (i' + 1) i (by omega) (by omega)
        omega

/-! ## Claims about SegmentSum -/

/-- C1: `SegmentSum` on a feature buffer of `R` rows of width `dim`, an offsets
buffer of length `n + 1` whose values are row positions `0 ≤ offsets[i] ≤ R`, and
an output buffer of `n` rows of width `dim` completes, and every cell satisfies
`out_after[i,k] = out_before[i,k] + Σ feat[j,k]` over `offsets[i] ≤ j < offsets[i+1]`.
In particular a zeroed output ends holding the per-segment sums, and the output row of
an empty segment keeps its value. The order of the offsets is not needed. -/
theorem SegmentSum_segment_sum {α : Type} [AddCommMonoid α] (feat : NDArray α)
    (offsets : NDArray Int) (out : NDArray α) (n dim R : Nat)
    (hn : out.shape[0]? = some n) (hd : rowWidth out.shape = dim)
    (ho : out.data.length = n * dim) (hfeat : feat.data.length = R * dim)
    (hoff : offsets.data.length = n + 1)
    (hrange : ∀ x ∈ offsets.data, 0 ≤ x ∧ x ≤ (R : Int)) :
    ∃ out', SegmentSum feat offsets out = some out' ∧ out'.shape = out.shape ∧
      out'.data.length = n * dim ∧
      (∀ i k, i < n → k < dim →
        out'.data[i * dim + k]? = some (out.data.getD (i * dim + k) 0
          + ∑ j ∈ Finset.Ico (offsets.data.getD i 0).toNat (offsets.data.getD (i + 1) 0).toNat,
              feat.data.getD (j * dim + k) 0)) ∧
      (out.data = List.replicate (n * dim) 0 → ∀ i k, i < n → k < dim →
        out'.data[i * dim + k]?
          = some (∑ j ∈ Finset.Ico (offsets.data.getD i 0).toNat
              (offsets.data.getD (i + 1) 0).toNat, feat.data.getD (j * dim + k) 0)) ∧
      (∀ i k, i < n → k < dim → offsets.data.getD i 0 = offsets.data.getD (i + 1) 0 →
        out'.data[i * dim + k]? = out.data[i * dim + k]?) := by
  obtain ⟨data, hrun, hl, hcell⟩ := SegmentSum_run feat offsets out n dim R hn hd ho hfeat hoff hrange
  have hget : ∀ i k, i < n → k < dim →
      data[i * dim + k]? = some (out.data.getD (i * dim + k) 0
        + ∑ j ∈ Finset.Ico (offsets.data.getD i 0).toNat (offsets.data.getD (i + 1) 0).toNat,
            feat.data.getD (j * dim + k) 0) := by
    intro i k hi hk
    have hlt : i * dim + k < data.length := by rw [hl]; exact cell_lt hi hk
    rw [← hcell i k hi hk, ← rdN_getD data _ 0 hlt, rdN]
  refine ⟨⟨out.shape, data⟩, hrun, rfl, hl, hget, ?_, ?_⟩
  · intro hz i k hi hk
    rw [hget i k hi hk, hz]
    have hlt : i * dim + k < n * dim := cell_lt hi hk
    simp [List.getD_eq_getElem?_getD, List.getElem?_replicate, hlt]
  · intro i k hi hk he
    have hlt : i * dim + k < out.data.length := by rw [ho]; exact cell_lt hi hk
    rw [hget i k hi hk, he]
    simp [List.getD_eq_getElem?_getD, List.getElem?_eq_getElem hlt]

/-- The hypotheses of C1 hold, and its conclusion is obtained, on the feature
buffer `[[1,9],[3,2],[0,0],[4,4],[7,1]]` with offsets `[0,2,5]`. -/
theorem SegmentSum_segment_sum_witness :
    ∃ out', SegmentSum (⟨[5, 2], [1, 9, 3, 2, 0, 0, 4, 4, 7, 1]⟩ : NDArray Int) ⟨[3], [0, 2, 5]⟩
        ⟨[2, 2], [0, 0, 0, 0]⟩ = some out' ∧ out'.shape = [2, 2] ∧ out'.data.length = 2 * 2 :=
  (SegmentSum_segment_sum (⟨[5, 2], [1, 9, 3, 2, 0, 0, 4, 4, 7, 1]⟩ : NDArray Int) ⟨[3], [0, 2, 5]⟩
    ⟨[2, 2], [0, 0, 0, 0]⟩ 2 2 5 (by decide) (by decide) (by decide) (by decide) (by decide)
    (by decide)).imp (fun _ h => ⟨h.1, h.2.1, h.2.2.1⟩)

/-! ## Claims about SegmentCmp -/

/-- C2: `SegmentCmp` with the `Max` policy on well-formed buffers (offsets of length
`n + 1` that are row positions `0 ≤ offsets[i] ≤ R`) completes, and for every
non-empty segment `i` and column `k` the cell `out[i,k]` is the greatest of the
values `feat[j,k]` with `offsets[i] ≤ j < offsets[i+1]`. -/
theorem SegmentCmp_max_value {α : Type} [LinearOrder α] [OrderBot α] (feat : NDArray α)
    (offsets : NDArray Int) (out : NDArray α) (arg : NDArray Int) (n dim R : Nat)
    (hn : out.shape[0]? = some n) (hd : rowWidth out.shape = dim)
    (ho : out.data.length = n * dim) (hs : arg.shape = out.shape)
    (ha : arg.data.length = n * dim) (hfeat : feat.data.length = R * dim)
    (hoff : offsets.data.length = n + 1)
    (hrange : ∀ x ∈ offsets.data, 0 ≤ x ∧ x ≤ (R : Int)) :
    ∃ o a, SegmentCmp (op.Max α) feat offsets out arg = some (o, a) ∧
      o.shape = out.shape ∧ o.data.length = n * dim ∧
      ∀ i k, i < n → k < dim → offsets.data.getD i 0 < offsets.data.getD (i + 1) 0 →
        ∃ v, o.data[i * dim + k]? = some v ∧
          IsGreatest {w | ∃ j : Nat, offsets.data.getD i 0 ≤ (j : Int) ∧
            (j : Int) < offsets.data.getD (i + 1) 0 ∧ feat.data[j * dim + k]? = some w} v := by
  obtain ⟨o, a, hrun, hlo, hla, hcell⟩ :=
    SegmentCmp_max_cells feat offsets out arg n dim R hn hd ho hs ha hfeat hoff hrange
  refine ⟨⟨out.shape, o⟩, ⟨arg.shape, a⟩, hrun, rfl, hlo, ?_⟩
  intro i k hi hk hne
  obtain ⟨hub, hcase⟩ := hcell i k hi hk
  obtain ⟨h0, -⟩ := hrange _ (getD_mem_of_lt offsets.data i 0 (by omega))
  obtain ⟨-, hR⟩ := hrange _ (getD_mem_of_lt offsets.data (i + 1) 0 (by omega))
  have hfe : ∀ j : Nat, (j : Int) < offsets.data.getD (i + 1) 0 →
      feat.data[j * dim + k]? = some (feat.data.getD (j * dim + k) ⊥) := by
    intro j hj
    have : j < R := by omega
    exact rdN_getD feat.data _ ⊥ (by rw [hfeat]; exact cell_lt this hk)
  refine ⟨o.getD (i * dim + k) ⊥,
    getElem?_of_getD o _ ⊥ _ (by rw [hlo]; exact cell_lt hi hk) rfl, ?_, ?_⟩
  · rcases hcase with ⟨h1, -⟩ | ⟨j, h1, h2, h3, -⟩
    · refine ⟨(offsets.data.getD i 0).toNat, by omega, by omega, ?_⟩
      have hle := hub (offsets.data.getD i 0).toNat (by omega) (by omega)
      rw [h1] at hle
      rw [hfe _ (by omega), h1, le_bot_iff.mp hle]
    · exact ⟨j, h1, h2, by rw [hfe j h2, h3]⟩
  · rintro w ⟨j, h1, h2, h3⟩
    rw [hfe j h2] at h3
    rw [← Option.some.inj h3]
    exact hub j h1 h2

/-- The hypotheses of C2 hold on the feature buffer
`[[1,9],[3,2],[0,0],[4,4],[7,1]]` with offsets `[0,2,5]`. -/
theorem SegmentCmp_max_value_witness :
    ∃ o a, SegmentCmp (op.Max (WithBot Int)) ⟨[5, 2], [1, 9, 3, 2, 0, 0, 4, 4, 7, 1]⟩
        ⟨[3], [0, 2, 5]⟩ ⟨[2, 2], [0, 0, 0, 0]⟩ ⟨[2, 2], [0, 0, 0, 0]⟩ = some (o, a) ∧
      o.shape = [2, 2] ∧ o.data.length = 2 * 2 :=
  (SegmentCmp_max_value (⟨[5, 2], [1, 9, 3, 2, 0, 0, 4, 4, 7, 1]⟩ : NDArray (WithBot Int))
    ⟨[3], [0, 2, 5]⟩ ⟨[2, 2], [0, 0, 0, 0]⟩ ⟨[2, 2], [0, 0, 0, 0]⟩ 2 2 5
    (by decide) (by decide) (by decide) (by decide) (by decide) (by decide) (by decide)
    (by decide)).imp (fun _ h => h.imp (fun _ h => ⟨h.1, h.2.1, h.2.2.1⟩))

/-- C3, as stated, fails: on the one-row feature buffer `[[-infinity]]` with offsets `[0, 1]`
the only segment is non-empty and row `0` attains its maximum, but `SegmentCmp`
with the `Max` policy leaves `arg[0,0] = -1`, since `Call(-infinity, -infinity)` is false. -/
theorem SegmentCmp_max_arg_counterexample :
    SegmentCmp (op.Max (WithBot Int)) ⟨[1, 1], [⊥]⟩ ⟨[2], [0, 1]⟩ ⟨[1, 1], [0]⟩ ⟨[1, 1], [0]⟩
        = some (⟨[1, 1], [⊥]⟩, ⟨[1, 1], [-1]⟩) ∧
      ¬ ∃ o a, SegmentCmp (op.Max (WithBot Int)) ⟨[1, 1], [⊥]⟩ ⟨[2], [0, 1]⟩ ⟨[1, 1], [0]⟩
        ⟨[1, 1], [0]⟩ = some (o, a) ∧ a.data[0 * 1 + 0]? = some 0 := by
  have h : SegmentCmp (op.Max (WithBot Int)) ⟨[1, 1], [⊥]⟩ ⟨[2], [0, 1]⟩ ⟨[1, 1], [0]⟩
      ⟨[1, 1], [0]⟩ = some (⟨[1, 1], [⊥]⟩, ⟨[1, 1], [-1]⟩) := by decide
  refine ⟨h, ?_⟩
  rintro ⟨o, a, h1, h2⟩
  rw [h] at h1
  obtain ⟨-, rfl⟩ := Prod.mk.inj (Option.some.inj h1)
  revert h2
  decide

/-- C3, amended: `SegmentCmp` with the `Max` policy on well-formed buffers completes,
and for every segment `i` and column `k`: when some row of the segment holds a value
other than `-infinity` in column `k`, `arg[i,k]` is the smallest row `j0` of the segment
whose value `feat[j0,k]` is the greatest value of the segment in column `k` (ties keep
the first row); when every row of the segment holds `-infinity` there, `arg[i,k] = -1`. -/
theorem SegmentCmp_max_arg {α : Type} [LinearOrder α] [OrderBot α] (feat : NDArray α)
    (offsets : NDArray Int) (out : NDArray α) (arg : NDArray Int) (n dim R : Nat)
    (hn : out.shape[0]? = some n) (hd : rowWidth out.shape = dim)
    (ho : out.data.length = n * dim) (hs : arg.shape = out.shape)
    (ha : arg.data.length = n * dim) (hfeat : feat.data.length = R * dim)
    (hoff : offsets.data.length = n + 1)
    (hrange : ∀ x ∈ offsets.data, 0 ≤ x ∧ x ≤ (R : Int)) :
    ∃ o a, SegmentCmp (op.Max α) feat offsets out arg = some (o, a) ∧
      a.shape = arg.shape ∧ a.data.length = n * dim ∧
      ∀ i k, i < n → k < dim →
        ((∃ j : Nat, offsets.data.getD i 0 ≤ (j : Int) ∧ (j : Int) < offsets.data.getD (i + 1) 0 ∧
            feat.data.getD (j * dim + k) ⊥ ≠ ⊥) →
          ∃ j0 : Nat, a.data[i * dim + k]? = some (j0 : Int) ∧
            offsets.data.getD i 0 ≤ (j0 : Int) ∧ (j0 : Int) < offsets.data.getD (i + 1) 0 ∧
            (∀ j : Nat, offsets.data.getD i 0 ≤ (j : Int) →
              (j : Int) < offsets.data.getD (i + 1) 0 →
              feat.data.getD (j * dim + k) ⊥ ≤ feat.data.getD (j0 * dim + k) ⊥) ∧
            (∀ j : Nat, offsets.data.getD i 0 ≤ (j : Int) →
              (j : Int) < offsets.data.getD (i + 1) 0 →
              feat.data.getD (j * dim + k) ⊥ = feat.data.getD (j0 * dim + k) ⊥ → j0 ≤ j)) ∧
        ((∀ j : Nat, offsets.data.getD i 0 ≤ (j : Int) → (j : Int) < offsets.data.getD (i + 1) 0 →
            feat.data.getD (j * dim + k) ⊥ = ⊥) →
          a.data[i * dim + k]? = some (-1)) := by
  obtain ⟨o, a, hrun, hlo, hla, hcell⟩ :=
    SegmentCmp_max_cells feat offsets out arg n dim R hn hd ho hs ha hfeat hoff hrange
  refine ⟨⟨out.shape, o⟩, ⟨arg.shape, a⟩, hrun, rfl, hla, ?_⟩
  intro i k hi hk
  obtain ⟨hub, hcase⟩ := hcell i k hi hk
  have hin : i * dim + k < a.length := by rw [hla]; exact cell_lt hi hk
  refine ⟨?_, ?_⟩
  · rintro ⟨j, h1, h2, h3⟩
    rcases hcase with ⟨h4, -⟩ | ⟨j0, h4, h5, h6, h7, -, h9⟩
    · have hle := hub j h1 h2
      rw [h4] at hle
      exact absurd (le_bot_iff.mp hle) h3
    · refine ⟨j0, getElem?_of_getD a _ 0 _ hin h7, h4, h5, ?_, ?_⟩
      · intro j' h10 h11
        rw [← h6]
        exact hub j' h10 h11
      · intro j' h10 _ h12
        by_contra hlt
        exact absurd h12 (ne_of_lt (h9 j' h10 (by omega)))
  · intro hall
    rcases hcase with ⟨-, h4⟩ | ⟨j0, h4, h5, -, -, h8, -⟩
    · exact getElem?_of_getD a _ 0 _ hin h4
    · rw [hall j0 h4 h5] at h8
      exact absurd h8 (lt_irrefl _)

/-- The hypotheses of the amended C3 hold on the feature buffer
`[[1,9],[3,2],[0,0],[4,4],[7,1]]` with offsets `[0,2,5]`. -/
theorem SegmentCmp_max_arg_witness :
    ∃ o a, SegmentCmp (op.Max (WithBot Int)) ⟨[5, 2], [1, 9, 3, 2, 0, 0, 4, 4, 7, 1]⟩
        ⟨[3], [0, 2, 5]⟩ ⟨[2, 2], [0, 0, 0, 0]⟩ ⟨[2, 2], [0, 0, 0, 0]⟩ = some (o, a) ∧
      a.shape = [2, 2] ∧ a.data.length = 2 * 2 :=
  (SegmentCmp_max_arg (⟨[5, 2], [1, 9, 3, 2, 0, 0, 4, 4, 7, 1]⟩ : NDArray (WithBot Int))
    ⟨[3], [0, 2, 5]⟩ ⟨[2, 2], [0, 0, 0, 0]⟩ ⟨[2, 2], [0, 0, 0, 0]⟩ 2 2 5
    (by decide) (by decide) (by decide) (by decide) (by decide) (by decide) (by decide)
    (by decide)).imp (fun _ h => h.imp (fun _ h => ⟨h.1, h.2.1, h.2.2.1⟩))

/-- C4, as stated, fails in its argument part: on the one-row feature buffer
`[[+infinity]]` with offsets `[0, 1]` row `0` attains the minimum of the only segment,
but `SegmentCmp` with the `Min` policy leaves `arg[0,0] = -1`, since
`Call(+infinity, +infinity)` is false. -/
theorem SegmentCmp_min_arg_counterexample :
    SegmentCmp (op.Min (WithTop Int)) ⟨[1, 1], [⊤]⟩ ⟨[2], [0, 1]⟩ ⟨[1, 1], [0]⟩ ⟨[1, 1], [0]⟩
        = some (⟨[1, 1], [⊤]⟩, ⟨[1, 1], [-1]⟩) ∧
      ¬ ∃ o a, SegmentCmp (op.Min (WithTop Int)) ⟨[1, 1], [⊤]⟩ ⟨[2], [0, 1]⟩ ⟨[1, 1], [0]⟩
        ⟨[1, 1], [0]⟩ = some (o, a) ∧ a.data[0 * 1 + 0]? = some 0 := by
  have h : SegmentCmp (op.Min (WithTop Int)) ⟨[1, 1], [⊤]⟩ ⟨[2], [0, 1]⟩ ⟨[1, 1], [0]⟩
      ⟨[1, 1], [0]⟩ = some (⟨[1, 1], [⊤]⟩, ⟨[1, 1], [-1]⟩) := by decide
  refine ⟨h, ?_⟩
  rintro ⟨o, a, h1, h2⟩
  rw [h] at h1
  obtain ⟨-, rfl⟩ := Prod.mk.inj (Option.some.inj h1)
  revert h2
  decide

/-- C4, amended: `SegmentCmp` with the `Min` policy on well-formed buffers completes,
and for every non-empty segment `i` and column `k` the cell `out[i,k]` is the least of
the values `feat[j,k]` of the segment; when some row of the segment holds a value other
than `+infinity` in column `k`, `arg[i,k]` is the smallest row of the segment that
attains this minimum; when every row of the segment holds `+infinity` there,
`arg[i,k] = -1`. -/
theorem SegmentCmp_min_value_arg {α : Type} [LinearOrder α] [OrderTop α] (feat : NDArray α)
    (offsets : NDArray Int) (out : NDArray α) (arg : NDArray Int) (n dim R : Nat)
    (hn : out.shape[0]? = some n) (hd : rowWidth out.shape = dim)
    (ho : out.data.length = n * dim) (hs : arg.shape = out.shape)
    (ha : arg.data.length = n * dim) (hfeat : feat.data.length = R * dim)
    (hoff : offsets.data.length = n + 1)
    (hrange : ∀ x ∈ offsets.data, 0 ≤ x ∧ x ≤ (R : Int)) :
    ∃ o a, SegmentCmp (op.Min α) feat offsets out arg = some (o, a) ∧
      o.shape = out.shape ∧ o.data.length = n * dim ∧
      a.shape = arg.shape ∧ a.data.length = n * dim ∧
      ∀ i k, i < n → k < dim →
        (offsets.data.getD i 0 < offsets.data.getD (i + 1) 0 →
          ∃ v, o.data[i * dim + k]? = some v ∧
            IsLeast {w | ∃ j : Nat, offsets.data.getD i 0 ≤ (j : Int) ∧
              (j : Int) < offsets.data.getD (i + 1) 0 ∧ feat.data[j * dim + k]? = some w} v) ∧
        ((∃ j : Nat, offsets.data.getD i 0 ≤ (j : Int) ∧ (j : Int) < offsets.data.getD (i + 1) 0 ∧
            feat.data.getD (j * dim + k) ⊤ ≠ ⊤) →
          ∃ j0 : Nat, a.data[i * dim + k]? = some (j0 : Int) ∧
            offsets.data.getD i 0 ≤ (j0 : Int) ∧ (j0 : Int) < offsets.data.getD (i + 1) 0 ∧
            o.data[i * dim + k]? = some (feat.data.getD (j0 * dim + k) ⊤) ∧
            (∀ j : Nat, offsets.data.getD i 0 ≤ (j : Int) →
              (j : Int) < offsets.data.getD (i + 1) 0 →
              feat.data.getD (j * dim + k) ⊤ = feat.data.getD (j0 * dim + k) ⊤ → j0 ≤ j)) ∧
        ((∀ j : Nat, offsets.data.getD i 0 ≤ (j : Int) → (j : Int) < offsets.data.getD (i + 1) 0 →
            feat.data.getD (j * dim + k) ⊤ = ⊤) →
          a.data[i * dim + k]? = some (-1)) := by
  obtain ⟨o, a, hrun, hlo, hla, hcell⟩ :=
    SegmentCmp_min_cells feat offsets out arg n dim R hn hd ho hs ha hfeat hoff hrange
  refine ⟨⟨out.shape, o⟩, ⟨arg.shape, a⟩, hrun, rfl, hlo, rfl, hla, ?_⟩
  intro i k hi hk
  obtain ⟨hlb, hcase⟩ := hcell i k hi hk
  obtain ⟨h0, -⟩ := hrange _ (getD_mem_of_lt offsets.data i 0 (by omega))
  obtain ⟨-, hR⟩ := hrange _ (getD_mem_of_lt offsets.data (i + 1) 0 (by omega))
  have hina : i * dim + k < a.length := by rw [hla]; exact cell_lt hi hk
  have hino : i * dim + k < o.length := by rw [hlo]; exact cell_lt hi hk
  have hfe : ∀ j : Nat, (j : Int) < offsets.data.getD (i + 1) 0 →
      feat.data[j * dim + k]? = some (feat.data.getD (j * dim + k) ⊤) := by
    intro j hj
    have : j < R := by omega
    exact rdN_getD feat.data _ ⊤ (by rw [hfeat]; exact cell_lt this hk)
  refine ⟨?_, ?_, ?_⟩
  · intro hne
    refine ⟨o.getD (i * dim + k) ⊤, getElem?_of_getD o _ ⊤ _ hino rfl, ?_, ?_⟩
    · rcases hcase with ⟨h1, -⟩ | ⟨j, h1, h2, h3, -⟩
      · refine ⟨(offsets.data.getD i 0).toNat, by omega, by omega, ?_⟩
        have hle := hlb (offsets.data.getD i 0).toNat (by omega) (by omega)
        rw [h1] at hle
        rw [hfe _ (by omega), h1, top_le_iff.mp hle]
      · exact ⟨j, h1, h2, by rw [hfe j h2, h3]⟩
    · rintro w ⟨j, h1, h2, h3⟩
      rw [hfe j h2] at h3
      rw [← Option.some.inj h3]
      exact hlb j h1 h2
  · rintro ⟨j, h1, h2, h3⟩
    rcases hcase with ⟨h4, -⟩ | ⟨j0, h4, h5, h6, h7, -, h9⟩
    · have hle := hlb j h1 h2
      rw [h4] at hle
      exact absurd (top_le_iff.mp hle) h3
    · refine ⟨j0, getElem?_of_getD a _ 0 _ hina h7, h4, h5,
        getElem?_of_getD o _ ⊤ _ hino h6, ?_⟩
      intro j' h10 _ h12
      by_contra hlt
      exact absurd h12.symm (ne_of_lt (h9 j' h10 (by omega)))
  · intro hall
    rcases hcase with ⟨-, h4⟩ | ⟨j0, h4, h5, -, -, h8, -⟩
    · exact getElem?_of_getD a _ 0 _ hina h4
    · rw [hall j0 h4 h5] at h8
      exact absurd h8 (lt_irrefl _)

/-- The hypotheses of the amended C4 hold on the feature buffer
`[[1,9],[3,2],[0,0],[4,4],[7,1]]` with offsets `[0,2,5]`. -/
theorem SegmentCmp_min_value_arg_witness :
    ∃ o a, SegmentCmp (op.Min (WithTop Int)) ⟨[5, 2], [1, 9, 3, 2, 0, 0, 4, 4, 7, 1]⟩
        ⟨[3], [0, 2, 5]⟩ ⟨[2, 2], [0, 0, 0, 0]⟩ ⟨[2, 2], [0, 0, 0, 0]⟩ = some (o, a) ∧
      o.shape = [2, 2] ∧ o.data.length = 2 * 2 :=
  (SegmentCmp_min_value_arg (⟨[5, 2], [1, 9, 3, 2, 0, 0, 4, 4, 7, 1]⟩ : NDArray (WithTop Int))
    ⟨[3], [0, 2, 5]⟩ ⟨[2, 2], [0, 0, 0, 0]⟩ ⟨[2, 2], [0, 0, 0, 0]⟩ 2 2 5
    (by decide) (by decide) (by decide) (by decide) (by decide) (by decide) (by decide)
    (by decide)).imp (fun _ h => h.imp (fun _ h => ⟨h.1, h.2.1, h.2.2.1⟩))

/-- C5: for every comparator policy, `SegmentCmp` on well-formed buffers completes
and, whatever `out` and `arg` held before the call, every cell of a segment `i` with
`offsets[i] = offsets[i+1]` ends as `out[i,k] = Cmp::zero` and `arg[i,k] = -1`. -/
theorem SegmentCmp_empty_segment {α : Type} (C : Cmp α) (feat : NDArray α)
    (offsets : NDArray Int) (out : NDArray α) (arg : NDArray Int) (n dim R : Nat)
    (hn : out.shape[0]? = some n) (hd : rowWidth out.shape = dim)
    (ho : out.data.length = n * dim) (hs : arg.shape = out.shape)
    (ha : arg.data.length = n * dim) (hfeat : feat.data.length = R * dim)
    (hoff : offsets.data.length = n + 1)
    (hrange : ∀ x ∈ offsets.data, 0 ≤ x ∧ x ≤ (R : Int)) :
    ∃ o a, SegmentCmp C feat offsets out arg = some (o, a) ∧
      ∀ i k, i < n → k < dim → offsets.data.getD i 0 = offsets.data.getD (i + 1) 0 →
        o.data[i * dim + k]? = some C.zero ∧ a.data[i * dim + k]? = some (-1) := by
  obtain ⟨o, a, hrun, hlo, hla, hcell⟩ :=
    SegmentCmp_cells C feat offsets out arg n dim R hn hd ho hs ha hfeat hoff hrange
  refine ⟨⟨out.shape, o⟩, ⟨arg.shape, a⟩, hrun, ?_⟩
  intro i k hi hk he
  have hina : i * dim + k < a.length := by rw [hla]; exact cell_lt hi hk
  have hino : i * dim + k < o.length := by rw [hlo]; exact cell_lt hi hk
  rcases hcell i k hi hk with ⟨h1, h2⟩ | ⟨j, h1, h2, -⟩
  · exact ⟨getElem?_of_getD o _ C.zero _ hino h1, getElem?_of_getD a _ 0 _ hina h2⟩
  · omega

/-- The hypotheses of C5 hold on a call whose second segment is empty and whose
buffers hold other values before the call. -/
theorem SegmentCmp_empty_segment_witness :
    ∃ o a, SegmentCmp (op.Max (WithBot Int)) ⟨[2, 1], [4, 6]⟩ ⟨[3], [0, 2, 2]⟩
        ⟨[2, 1], [8, 8]⟩ ⟨[2, 1], [5, 5]⟩ = some (o, a) ∧
      o.data[1 * 1 + 0]? = some ⊥ ∧ a.data[1 * 1 + 0]? = some (-1) :=
  (SegmentCmp_empty_segment (op.Max (WithBot Int)) ⟨[2, 1], [4, 6]⟩ ⟨[3], [0, 2, 2]⟩
    ⟨[2, 1], [8, 8]⟩ ⟨[2, 1], [5, 5]⟩ 2 1 2
    (by decide) (by decide) (by decide) (by decide) (by decide) (by decide) (by decide)
    (by decide)).imp (fun _ h => h.imp (fun _ h =>
      ⟨h.1, h.2 1 0 (by decide) (by decide) (by decide)⟩))

/-- C9: for every comparator policy, on well-formed buffers whose offsets are
non-decreasing, the argument buffer produced by `SegmentCmp` names every
feature row at most once per column: for two distinct segments `i` and `i'`, if
`arg[i,k]` and `arg[i',k]` both differ from `-1` then they are different rows. -/
theorem SegmentCmp_arg_injective {α : Type} (C : Cmp α) (feat : NDArray α)
    (offsets : NDArray Int) (out : NDArray α) (arg : NDArray Int) (n dim R : Nat)
    (hn : out.shape[0]? = some n) (hd : rowWidth out.shape = dim)
    (ho : out.data.length = n * dim) (hs : arg.shape = out.shape)
    (ha : arg.data.length = n * dim) (hfeat : feat.data.length = R * dim)
    (hoff : offsets.data.length = n + 1)
    (hrange : ∀ x ∈ offsets.data, 0 ≤ x ∧ x ≤ (R : Int))
    (hmono : ∀ i, i < n → offsets.data.getD i 0 ≤ offsets.data.getD (i + 1) 0) :
    ∃ o a, SegmentCmp C feat offsets out arg = some (o, a) ∧
      ∀ i i' k, i < n → i' < n → k < dim → i ≠ i' →
        ∀ x y, a.data[i * dim + k]? = some x → a.data[i' * dim + k]? = some y →
          x ≠ -1 → y ≠ -1 → x ≠ y := by
  obtain ⟨o, a, hrun, hlo, hla, hcell⟩ :=
    SegmentCmp_cells C feat offsets out arg n dim R hn hd ho hs ha hfeat hoff hrange
  refine ⟨⟨out.shape, o⟩, ⟨arg.shape, a⟩, hrun, ?_⟩
  have ordered : ∀ i i' k, i < n → i' < n → k < dim → i < i' →
      ∀ x y, a[i * dim + k]? = some x → a[i' * dim + k]? = some y →
        x ≠ -1 → y ≠ -1 → x ≠ y := by
    intro i i' k hi hi' hk hlt x y hx hy hx1 hy1
    have hin : i * dim + k < a.length := by rw [hla]; exact cell_lt hi hk
    have hin' : i' * dim + k < a.length := by rw [hla]; exact cell_lt hi' hk
    have ex : a.getD (i * dim + k) 0 = x := by
      have := rdN_getD a _ 0 hin
      rw [rdN, hx] at this
      exact (Option.some.inj this).symm
    have ey : a.getD (i' * dim + k) 0 = y := by
      have := rdN_getD a _ 0 hin'
      rw [rdN, hy] at this
      exact (Option.some.inj this).symm
    have hch := offsets_mono_chain offsets.data n hmono (i + 1) i' (by omega) (by omega)
    rcases hcell i k hi hk with ⟨-, h2⟩ | ⟨j, -, h2, -, h4⟩
    · rw [ex] at h2
      exact absurd h2 hx1
    · rcases hcell i' k hi' hk with ⟨-, h6⟩ | ⟨j', h5, -, -, h8⟩
      · rw [ey] at h6
        exact absurd h6 hy1
      · rw [ex] at h4
        rw [ey] at h8
        omega
  intro i i' k hi hi' hk hne x y hx hy hx1 hy1
  rcases Nat.lt_or_gt_of_ne hne with hlt | hgt
  · exact ordered i i' k hi hi' hk hlt x y hx hy hx1 hy1
  · exact fun e => ordered i' i k hi' hi hk hgt y x hy hx hy1 hx1 e.symm

/-- The hypotheses of C9 hold on the feature buffer
`[[1,9],[3,2],[0,0],[4,4],[7,1]]` with offsets `[0,2,5]`. -/
theorem SegmentCmp_arg_injective_witness :
    ∃ o a, SegmentCmp (op.Min (WithTop Int)) ⟨[5, 2], [1, 9, 3, 2, 0, 0, 4, 4, 7, 1]⟩
        ⟨[3], [0, 2, 5]⟩ ⟨[2, 2], [0, 0, 0, 0]⟩ ⟨[2, 2], [0, 0, 0, 0]⟩ = some (o, a) ∧
      ∀ x y, a.data[0 * 2 + 1]? = some x → a.data[1 * 2 + 1]? = some y →
        x ≠ -1 → y ≠ -1 → x ≠ y :=
  (SegmentCmp_arg_injective (op.Min (WithTop Int)) ⟨[5, 2], [1, 9, 3, 2, 0, 0, 4, 4, 7, 1]⟩
    ⟨[3], [0, 2, 5]⟩ ⟨[2, 2], [0, 0, 0, 0]⟩ ⟨[2, 2], [0, 0, 0, 0]⟩ 2 2 5
    (by decide) (by decide) (by decide) (by decide) (by decide) (by decide) (by decide)
    (by decide) (by decide)).imp (fun _ h => h.imp (fun _ h =>
      ⟨h.1, h.2 0 1 1 (by decide) (by decide) (by decide) (by decide)⟩))

/-! ## Claims about ScatterAdd -/

/-- C6: `ScatterAdd` on a feature buffer of `R` rows, an `idx` buffer of length `R`
with all values in `[0, M)` and an output buffer of `M` rows completes, and every cell
satisfies `out_after[r,k] = out_before[r,k] + Σ feat[i,k]` over the input rows `i`
with `idx[i] = r`; the output rows that no `idx[i]` names are unchanged. -/
theorem ScatterAdd_accumulate {α : Type} [AddCommMonoid α] (feat : NDArray α)
    (idx : NDArray Int) (out : NDArray α) (R M dim : Nat)
    (hn : feat.shape[0]? = some R) (hd : rowWidth out.shape = dim)
    (ho : out.data.length = M * dim) (hfeat : feat.data.length = R * dim)
    (hidx : idx.data.length = R)
    (hrange : ∀ x ∈ idx.data, 0 ≤ x ∧ x < (M : Int)) :
    ∃ out', ScatterAdd feat idx out = some out' ∧ out'.shape = out.shape ∧
      out'.data.length = M * dim ∧
      (∀ r k, r < M → k < dim →
        out'.data[r * dim + k]? = some (out.data.getD (r * dim + k) 0
          + ∑ i ∈ (Finset.range R).filter (fun i => idx.data.getD i 0 = (r : Int)),
              feat.data.getD (i * dim + k) 0)) ∧
      (∀ r k, r < M → k < dim → (∀ i, i < R → idx.data.getD i 0 ≠ (r : Int)) →
        out'.data[r * dim + k]? = out.data[r * dim + k]?) := by
  obtain ⟨data, hrun, hl, hcell⟩ := ScatterAdd_run feat idx out R M dim hn hd ho hfeat hidx hrange
  have hget : ∀ r k, r < M → k < dim →
      data[r * dim + k]? = some (out.data.getD (r * dim + k) 0
        + ∑ i ∈ (Finset.range R).filter (fun i => idx.data.getD i 0 = (r : Int)),
            feat.data.getD (i * dim + k) 0) := fun r k hr hk =>
    getElem?_of_getD data _ 0 _ (by rw [hl]; exact cell_lt hr hk) (hcell r k hr hk)
  refine ⟨⟨out.shape, data⟩, hrun, rfl, hl, hget, ?_⟩
  intro r k hr hk hnone
  have hlt : r * dim + k < out.data.length := by rw [ho]; exact cell_lt hr hk
  have hempty : (Finset.range R).filter (fun i => idx.data.getD i 0 = (r : Int)) = ∅ := by
    apply Finset.filter_eq_empty_iff.mpr
    intro i hi
    exact hnone i (Finset.mem_range.mp hi)
  rw [hget r k hr hk, hempty, Finset.sum_empty, add_zero]
  exact (getElem?_of_getD out.data _ 0 _ hlt rfl).symm

/-- The hypotheses of C6 hold on three input rows of which two share the destination `0`. -/
theorem ScatterAdd_accumulate_witness :
    ∃ out', ScatterAdd (⟨[3, 1], [2, 5, 1]⟩ : NDArray Int) ⟨[3], [0, 1, 0]⟩ ⟨[2, 1], [0, 0]⟩
        = some out' ∧ out'.shape = [2, 1] ∧ out'.data.length = 2 * 1 :=
  (ScatterAdd_accumulate (⟨[3, 1], [2, 5, 1]⟩ : NDArray Int) ⟨[3], [0, 1, 0]⟩ ⟨[2, 1], [0, 0]⟩
    3 2 1 (by decide) (by decide) (by decide) (by decide) (by decide)
    (by decide)).imp (fun _ h => ⟨h.1, h.2.1, h.2.2.1⟩)

/-- C7: `ScatterAdd` does not depend on the order of the input rows: when `feat'` and
`idx'` are `feat` and `idx` with their rows rearranged by the same permutation `p` of
the `R` input rows (row `i` of `feat'` and entry `i` of `idx'` are row `p i` of `feat` and
entry `p i` of `idx`), both calls complete from the same initial output with the same
final output. Values are taken in a commutative additive monoid (exact arithmetic). -/
theorem ScatterAdd_perm_invariant {α : Type} [AddCommMonoid α] (feat feat' : NDArray α)
    (idx idx' : NDArray Int) (out : NDArray α) (R M dim : Nat) (p : Equiv.Perm (Fin R))
    (hn : feat.shape[0]? = some R) (hn' : feat'.shape[0]? = some R)
    (hd : rowWidth out.shape = dim) (ho : out.data.length = M * dim)
    (hfeat : feat.data.length = R * dim) (hfeat' : feat'.data.length = R * dim)
    (hidx : idx.data.length = R) (hidx' : idx'.data.length = R)
    (hrange : ∀ x ∈ idx.data, 0 ≤ x ∧ x < (M : Int))
    (hpf : ∀ (i : Fin R) (k : Fin dim),
      feat'.data[i.val * dim + k.val]? = feat.data[(p i).val * dim + k.val]?)
    (hpi : ∀ i : Fin R, idx'.data[i.val]? = idx.data[(p i).val]?) :
    ∃ out', ScatterAdd feat idx out = some out' ∧ ScatterAdd feat' idx' out = some out' := by
  have hrange' : ∀ x ∈ idx'.data, 0 ≤ x ∧ x < (M : Int) := by
    intro x hx
    obtain ⟨i, hi, rfl⟩ := List.getElem_of_mem hx
    have h1 := hpi ⟨i, by omega⟩
    rw [List.getElem?_eq_getElem hi] at h1
    exact hrange _ (List.getElem?_mem h1.symm)
  obtain ⟨data, hrun, hl, hcell⟩ := ScatterAdd_run feat idx out R M dim hn hd ho hfeat hidx hrange
  obtain ⟨data', hrun', hl', hcell'⟩ :=
    ScatterAdd_run feat' idx' out R M dim hn' hd ho hfeat' hidx' hrange'
  have he : data' = data := by
    apply list_eq_of_getD data' data 0 (hl'.trans hl.symm)
    intro q hq
    obtain ⟨r, k, hr, hk, rfl⟩ := cell_of_lt M dim q (by omega)
    rw [hcell r k hr hk, hcell' r k hr hk]
    congr 1
    apply scatter_sum_perm R p
    · intro i
      rw [List.getD_eq_getElem?_getD, List.getD_eq_getElem?_getD, hpi i]
    · intro i
      rw [List.getD_eq_getElem?_getD, List.getD_eq_getElem?_getD, hpf i ⟨k, hk⟩]
  exact ⟨⟨out.shape, data⟩, hrun, by rw [hrun', he]⟩

/-- The hypotheses of C7 hold when the first two of three input rows are exchanged. -/
theorem ScatterAdd_perm_invariant_witness :
    ∃ out', ScatterAdd (⟨[3, 1], [2, 5, 1]⟩ : NDArray Int) ⟨[3], [0, 1, 0]⟩ ⟨[2, 1], [7, 7]⟩
        = some out' ∧
      ScatterAdd (⟨[3, 1], [5, 2, 1]⟩ : NDArray Int) ⟨[3], [1, 0, 0]⟩ ⟨[2, 1], [7, 7]⟩
        = some out' :=
  ScatterAdd_perm_invariant (⟨[3, 1], [2, 5, 1]⟩ : NDArray Int) ⟨[3, 1], [5, 2, 1]⟩
    ⟨[3], [0, 1, 0]⟩ ⟨[3], [1, 0, 0]⟩ ⟨[2, 1], [7, 7]⟩ 3 2 1 (Equiv.swap 0 1)
    (by decide) (by decide) (by decide) (by decide) (by decide) (by decide) (by decide)
    (by decide) (by decide) (by decide) (by decide)

/-! ## Claims about BackwardSegmentCmp -/

/-- C10: on well-formed buffers with non-decreasing offsets, let `(o, a)` be the result
of `SegmentCmp` (any policy), `grad` an array of `o`'s size and `z` an array of `feat`'s
size. Then `BackwardSegmentCmp(grad, a, z)` completes with a result `g` such that, for
every `(i, k)` with `a[i,k] ≠ -1`, `a[i,k]` is a row `r` with `o[i,k] = feat[r,k]` and
`g[r,k] = grad[i,k]`; and every cell of `g` that no `a[i,k]` names is that of `z`. -/
theorem BackwardSegmentCmp_replay {α : Type} (C : Cmp α) (feat : NDArray α)
    (offsets : NDArray Int) (out : NDArray α) (arg : NDArray Int) (grad z : NDArray α)
    (n dim R : Nat)
    (hn : out.shape[0]? = some n) (hd : rowWidth out.shape = dim)
    (ho : out.data.length = n * dim) (hs : arg.shape = out.shape)
    (ha : arg.data.length = n * dim) (hfeat : feat.data.length = R * dim)
    (hoff : offsets.data.length = n + 1)
    (hrange : ∀ x ∈ offsets.data, 0 ≤ x ∧ x ≤ (R : Int))
    (hmono : ∀ i, i < n → offsets.data.getD i 0 ≤ offsets.data.getD (i + 1) 0)
    (hgn : grad.shape[0]? = some n) (hg : grad.data.length = n * dim)
    (hzd : rowWidth z.shape = dim) (hz : z.data.length = R * dim) :
    ∃ o a g, SegmentCmp C feat offsets out arg = some (o, a) ∧
      BackwardSegmentCmp grad a z = some g ∧ g.shape = z.shape ∧ g.data.length = R * dim ∧
      (∀ i k, i < n → k < dim → ∀ x, a.data[i * dim + k]? = some x → x ≠ -1 →
        ∃ r : Nat, x = (r : Int) ∧ r < R ∧ o.data[i * dim + k]? = feat.data[r * dim + k]? ∧
          g.data[r * dim + k]? = grad.data[i * dim + k]?) ∧
      (∀ r k, r < R → k < dim → (∀ i, i < n → a.data[i * dim + k]? ≠ some (r : Int)) →
        g.data[r * dim + k]? = z.data[r * dim + k]?) := by
  obtain ⟨o, a, hrun, hlo, hla, hcell⟩ :=
    SegmentCmp_cells C feat offsets out arg n dim R hn hd ho hs ha hfeat hoff hrange
  have hcell' : ∀ i k, i < n → k < dim → a.getD (i * dim + k) 0 = -1 ∨
      ∃ j : Nat, offsets.data.getD i 0 ≤ (j : Int) ∧ (j : Int) < offsets.data.getD (i + 1) 0 ∧
        a.getD (i * dim + k) 0 = (j : Int) := by
    intro i k hi hk
    rcases hcell i k hi hk with ⟨-, h⟩ | ⟨j, h1, h2, -, h4⟩
    · exact Or.inl h
    · exact Or.inr ⟨j, h1, h2, h4⟩
  have hbound : ∀ x ∈ a, x < (R : Int) := by
    intro x hx
    obtain ⟨q, hq, rfl⟩ := List.getElem_of_mem hx
    obtain ⟨i, k, hi, hk, rfl⟩ := cell_of_lt n dim q (by omega)
    have e : a[i * dim + k] = a.getD (i * dim + k) 0 := (List.getD_eq_getElem _ _ hq).symm
    obtain ⟨-, hR⟩ := hrange _ (getD_mem_of_lt offsets.data (i + 1) 0 (by omega))
    rcases hcell' i k hi hk with h | ⟨j, -, h2, h3⟩
    · rw [e, h]; omega
    · rw [e, h3]; omega
  have hinj : ∀ i i' k, i < n → i' < n → k < dim → 0 ≤ a.getD (i * dim + k) 0 →
      a.getD (i * dim + k) 0 = a.getD (i' * dim + k) 0 → i = i' := by
    intro i i' k hi hi' hk hnn he
    exact args_injective offsets.data a n dim hmono hcell' i i' k hi hi' hk (by omega) he
  obtain ⟨data, hrun2, hl2, hput, hfr⟩ :=
    BackwardSegmentCmp_run grad ⟨arg.shape, a⟩ z n R dim hgn hzd hg hla hz hbound hinj
  refine ⟨⟨out.shape, o⟩, ⟨arg.shape, a⟩, ⟨z.shape, data⟩, hrun, hrun2, rfl, hl2, ?_, ?_⟩
  · intro i k hi hk x hx hx1
    have e := getD_of_getElem? a _ 0 _ hx
    obtain ⟨-, hR⟩ := hrange _ (getD_mem_of_lt offsets.data (i + 1) 0 (by omega))
    rcases hcell i k hi hk with ⟨-, h⟩ | ⟨j, h1, h2, h3, h4⟩
    · rw [e] at h
      exact absurd h hx1
    · have hjR : j < R := by omega
      refine ⟨j, by rw [← e, h4], hjR, ?_, ?_⟩
      · show o[i * dim + k]? = feat.data[j * dim + k]?
        rw [getElem?_of_getD o _ C.zero _ (by rw [hlo]; exact cell_lt hi hk) h3]
        exact (getElem?_of_getD feat.data _ C.zero _
          (by rw [hfeat]; exact cell_lt hjR hk) rfl).symm
      · have := hput i k hi hk (by show 0 ≤ a.getD (i * dim + k) 0; rw [h4]; omega)
        have e4 : a.getD (i * dim + k) 0 = (j : Int) := h4
        simp only [e4, Int.toNat_ofNat] at this
        exact this
  · intro r k hr hk hnone
    apply hfr
    intro i k' hi hk' hnn e
    obtain ⟨e1, e2⟩ := cell_inj hk hk' e
    subst e2
    apply hnone i hi
    have hlt : i * dim + k < a.length := by rw [hla]; exact cell_lt hi hk
    apply getElem?_of_getD a _ 0 _ hlt
    have : 0 ≤ a.getD (i * dim + k) 0 := hnn
    have e5 : r = (a.getD (i * dim + k) 0).toNat := e1
    omega

/-- The hypotheses of C10 hold on the feature buffer
`[[1,9],[3,2],[0,0],[4,4],[7,1]]` with offsets `[0,2,5]`. -/
theorem BackwardSegmentCmp_replay_witness :
    ∃ o a g, SegmentCmp (op.Max (WithBot Int)) ⟨[5, 2], [1, 9, 3, 2, 0, 0, 4, 4, 7, 1]⟩
        ⟨[3], [0, 2, 5]⟩ ⟨[2, 2], [0, 0, 0, 0]⟩ ⟨[2, 2], [0, 0, 0, 0]⟩ = some (o, a) ∧
      BackwardSegmentCmp (⟨[2, 2], [10, 20, 30, 40]⟩ : NDArray (WithBot Int)) a
        ⟨[5, 2], [0, 0, 0, 0, 0, 0, 0, 0, 0, 0]⟩ = some g ∧ g.shape = [5, 2] ∧
      g.data.length = 5 * 2 :=
  (BackwardSegmentCmp_replay (op.Max (WithBot Int)) ⟨[5, 2], [1, 9, 3, 2, 0, 0, 4, 4, 7, 1]⟩
    ⟨[3], [0, 2, 5]⟩ ⟨[2, 2], [0, 0, 0, 0]⟩ ⟨[2, 2], [0, 0, 0, 0]⟩ ⟨[2, 2], [10, 20, 30, 40]⟩
    ⟨[5, 2], [0, 0, 0, 0, 0, 0, 0, 0, 0, 0]⟩ 2 2 5
    (by decide) (by decide) (by decide) (by decide) (by decide) (by decide) (by decide)
    (by decide) (by decide) (by decide) (by decide) (by decide) (by decide)).imp
    (fun _ h => h.imp (fun _ h => h.imp (fun _ h => ⟨h.1, h.2.1, h.2.2.1, h.2.2.2.1⟩)))

/-! ## Scenarios -/

/-- C13: with `feature = [[1,9],[3,2],[0,0],[4,4],[7,1]]` and `offsets = [0,2,5]`,
`SegmentSum` on a zeroed 2x2 output yields `[[4,11],[11,5]]`, and `SegmentCmp` with the
`Max` policy yields `out = [[3,9],[7,4]]` and `arg = [[1,0],[4,3]]`. -/
theorem round_trip_scenario :
    SegmentSum (⟨[5, 2], [1, 9, 3, 2, 0, 0, 4, 4, 7, 1]⟩ : NDArray Int) ⟨[3], [0, 2, 5]⟩
        ⟨[2, 2], [0, 0, 0, 0]⟩ = some ⟨[2, 2], [4, 11, 11, 5]⟩ ∧
      SegmentCmp (op.Max (WithBot Int)) ⟨[5, 2], [1, 9, 3, 2, 0, 0, 4, 4, 7, 1]⟩ ⟨[3], [0, 2, 5]⟩
        ⟨[2, 2], [0, 0, 0, 0]⟩ ⟨[2, 2], [0, 0, 0, 0]⟩
        = some (⟨[2, 2], [3, 9, 7, 4]⟩, ⟨[2, 2], [1, 0, 4, 3]⟩) := by
  constructor <;> decide

/-- C14: with `feature = [[2],[5],[1]]` and `idx = [0,1,0]`, `ScatterAdd` on a zeroed
2x1 output yields `[[3],[5]]`. -/
theorem scatter_scenario :
    ScatterAdd (⟨[3, 1], [2, 5, 1]⟩ : NDArray Int) ⟨[3], [0, 1, 0]⟩ ⟨[2, 1], [0, 0]⟩
      = some ⟨[2, 1], [3, 5]⟩ := by
  decide

/-! ## Further claims about SegmentCmp -/

/-- Two runs of the comparison scan that fill the same cells are the same buffers. -/
theorem cmp_result_unique {α : Type} (z : α) (n dim : Nat) (o o' : List α) (a a' : List Int)
    (F : Nat → Nat → α × Int)
    (hlo : o.length = n * dim) (hla : a.length = n * dim)
    (hlo' : o'.length = n * dim) (hla' : a'.length = n * dim)
    (h : ∀ i k, i < n → k < dim → (o.getD (i * dim + k) z, a.getD (i * dim + k) 0) = F i k)
    (h' : ∀ i k, i < n → k < dim → (o'.getD (i * dim + k) z, a'.getD (i * dim + k) 0) = F i k) :
    o = o' ∧ a = a' := by
  constructor
  · apply list_eq_of_getD o o' z (hlo.trans hlo'.symm)
    intro q hq
    obtain ⟨i, k, hi, hk, rfl⟩ := cell_of_lt n dim q (by omega)
    exact congrArg Prod.fst ((h i k hi hk).trans (h' i k hi hk).symm)
  · apply list_eq_of_getD a a' 0 (hla.trans hla'.symm)
    intro q hq
    obtain ⟨i, k, hi, hk, rfl⟩ := cell_of_lt n dim q (by omega)
    exact congrArg Prod.snd ((h i k hi hk).trans (h' i k hi hk).symm)

/-- C12: on well-formed buffers and for every comparator policy, the result of
`SegmentCmp` does not depend on what `out` and `arg` held before the call: two initial
pairs of the same shape give the same final pair; and calling `SegmentCmp` again on its
own result gives this result again. -/
theorem SegmentCmp_init_independent {α : Type} (C : Cmp α) (feat : NDArray α)
    (offsets : NDArray Int) (out out2 : NDArray α) (arg arg2 : NDArray Int) (n dim R : Nat)
    (hn : out.shape[0]? = some n) (hd : rowWidth out.shape = dim)
    (ho : out.data.length = n * dim) (hs : arg.shape = out.shape)
    (ha : arg.data.length = n * dim) (hfeat : feat.data.length = R * dim)
    (hoff : offsets.data.length = n + 1)
    (hrange : ∀ x ∈ offsets.data, 0 ≤ x ∧ x ≤ (R : Int))
    (hs2 : out2.shape = out.shape) (ho2 : out2.data.length = n * dim)
    (hsa2 : arg2.shape = arg.shape) (ha2 : arg2.data.length = n * dim) :
    ∃ o a, SegmentCmp C feat offsets out arg = some (o, a) ∧
      SegmentCmp C feat offsets out2 arg2 = some (o, a) ∧
      SegmentCmp C feat offsets o a = some (o, a) := by
  obtain ⟨o, a, hrun, hlo, hla, hcell⟩ :=
    SegmentCmp_run C feat offsets out arg n dim R hn hd ho hs ha hfeat hoff hrange
  obtain ⟨o2, a2, hrun2, hlo2, hla2, hcell2⟩ :=
    SegmentCmp_run C feat offsets out2 arg2 n dim R (by rw [hs2]; exact hn) (by rw [hs2]; exact hd)
      ho2 (by rw [hsa2, hs, hs2]) ha2 hfeat hoff hrange
  obtain ⟨o3, a3, hrun3, hlo3, hla3, hcell3⟩ :=
    SegmentCmp_run C feat offsets ⟨out.shape, o⟩ ⟨arg.shape, a⟩ n dim R hn hd hlo hs hla hfeat
      hoff hrange
  obtain ⟨e1, e2⟩ := cmp_result_unique C.zero n dim o2 o a2 a _ hlo2 hla2 hlo hla hcell2 hcell
  obtain ⟨e3, e4⟩ := cmp_result_unique C.zero n dim o3 o a3 a _ hlo3 hla3 hlo hla hcell3 hcell
  refine ⟨⟨out.shape, o⟩, ⟨arg.shape, a⟩, hrun, ?_, ?_⟩
  · rw [hrun2, hs2, hsa2, e1, e2]
  · rw [hrun3, e3, e4]

/-- The hypotheses of C12 hold for two different initial pairs of buffers. -/
theorem SegmentCmp_init_independent_witness :
    ∃ o a, SegmentCmp (op.Max (WithBot Int)) ⟨[5, 2], [1, 9, 3, 2, 0, 0, 4, 4, 7, 1]⟩
        ⟨[3], [0, 2, 5]⟩ ⟨[2, 2], [0, 0, 0, 0]⟩ ⟨[2, 2], [0, 0, 0, 0]⟩ = some (o, a) ∧
      SegmentCmp (op.Max (WithBot Int)) ⟨[5, 2], [1, 9, 3, 2, 0, 0, 4, 4, 7, 1]⟩
        ⟨[3], [0, 2, 5]⟩ ⟨[2, 2], [8, 8, 8, 8]⟩ ⟨[2, 2], [3, 3, 3, 3]⟩ = some (o, a) ∧
      SegmentCmp (op.Max (WithBot Int)) ⟨[5, 2], [1, 9, 3, 2, 0, 0, 4, 4, 7, 1]⟩
        ⟨[3], [0, 2, 5]⟩ o a = some (o, a) :=
  SegmentCmp_init_independent (op.Max (WithBot Int)) ⟨[5, 2], [1, 9, 3, 2, 0, 0, 4, 4, 7, 1]⟩
    ⟨[3], [0, 2, 5]⟩ ⟨[2, 2], [0, 0, 0, 0]⟩ ⟨[2, 2], [8, 8, 8, 8]⟩ ⟨[2, 2], [0, 0, 0, 0]⟩
    ⟨[2, 2], [3, 3, 3, 3]⟩ 2 2 5
    (by decide) (by decide) (by decide) (by decide) (by decide) (by decide) (by decide)
    (by decide) (by decide) (by decide) (by decide) (by decide)

/-- C19: for every comparator policy, on well-formed buffers, after `SegmentCmp` each
cell satisfies either `arg[i,k] = -1` and `out[i,k] = Cmp::zero`, or `arg[i,k]` is a
row `r` with `offsets[i] ≤ r < offsets[i+1]` and `out[i,k] = feat[r,k]`; such a row is
below the feature row count `R`, hence a valid row of the output of
`BackwardSegmentCmp`. -/
theorem SegmentCmp_out_arg_consistent {α : Type} (C : Cmp α) (feat : NDArray α)
    (offsets : NDArray Int) (out : NDArray α) (arg : NDArray Int) (n dim R : Nat)
    (hn : out.shape[0]? = some n) (hd : rowWidth out.shape = dim)
    (ho : out.data.length = n * dim) (hs : arg.shape = out.shape)
    (ha : arg.data.length = n * dim) (hfeat : feat.data.length = R * dim)
    (hoff : offsets.data.length = n + 1)
    (hrange : ∀ x ∈ offsets.data, 0 ≤ x ∧ x ≤ (R : Int)) :
    ∃ o a, SegmentCmp C feat offsets out arg = some (o, a) ∧
      ∀ i k, i < n → k < dim →
        (a.data[i * dim + k]? = some (-1) ∧ o.data[i * dim + k]? = some C.zero) ∨
        ∃ r : Nat, a.data[i * dim + k]? = some (r : Int) ∧
          offsets.data.getD i 0 ≤ (r : Int) ∧ (r : Int) < offsets.data.getD (i + 1) 0 ∧
          r < R ∧ o.data[i * dim + k]? = feat.data[r * dim + k]? := by
  obtain ⟨o, a, hrun, hlo, hla, hcell⟩ :=
    SegmentCmp_cells C feat offsets out arg n dim R hn hd ho hs ha hfeat hoff hrange
  refine ⟨⟨out.shape, o⟩, ⟨arg.shape, a⟩, hrun, ?_⟩
  intro i k hi hk
  have hina : i * dim + k < a.length := by rw [hla]; exact cell_lt hi hk
  have hino : i * dim + k < o.length := by rw [hlo]; exact cell_lt hi hk
  obtain ⟨-, hR⟩ := hrange _ (getD_mem_of_lt offsets.data (i + 1) 0 (by omega))
  rcases hcell i k hi hk with ⟨h1, h2⟩ | ⟨j, h1, h2, h3, h4⟩
  · exact Or.inl ⟨getElem?_of_getD a _ 0 _ hina h2, getElem?_of_getD o _ C.zero _ hino h1⟩
  · have hjR : j < R := by omega
    refine Or.inr ⟨j, getElem?_of_getD a _ 0 _ hina h4, h1, h2, hjR, ?_⟩
    show o[i * dim + k]? = feat.data[j * dim + k]?
    rw [getElem?_of_getD o _ C.zero _ hino h3]
    exact (getElem?_of_getD feat.data _ C.zero _ (by rw [hfeat]; exact cell_lt hjR hk) rfl).symm

/-- The hypotheses of C19 hold on the feature buffer
`[[1,9],[3,2],[0,0],[4,4],[7,1]]` with offsets `[0,2,5]`. -/
theorem SegmentCmp_out_arg_consistent_witness :
    ∃ o a, SegmentCmp (op.Min (WithTop Int)) ⟨[5, 2], [1, 9, 3, 2, 0, 0, 4, 4, 7, 1]⟩
        ⟨[3], [0, 2, 5]⟩ ⟨[2, 2], [0, 0, 0, 0]⟩ ⟨[2, 2], [0, 0, 0, 0]⟩ = some (o, a) ∧
      ((a.data[1 * 2 + 0]? = some (-1) ∧ o.data[1 * 2 + 0]? = some (op.Min (WithTop Int)).zero) ∨
        ∃ r : Nat, a.data[1 * 2 + 0]? = some (r : Int) ∧
          ([0, 2, 5] : List Int).getD 1 0 ≤ (r : Int) ∧
          (r : Int) < ([0, 2, 5] : List Int).getD (1 + 1) 0 ∧ r < 5 ∧
          o.data[1 * 2 + 0]?
            = ([1, 9, 3, 2, 0, 0, 4, 4, 7, 1] : List (WithTop Int))[r * 2 + 0]?) :=
  (SegmentCmp_out_arg_consistent (op.Min (WithTop Int)) ⟨[5, 2], [1, 9, 3, 2, 0, 0, 4, 4, 7, 1]⟩
    ⟨[3], [0, 2, 5]⟩ ⟨[2, 2], [0, 0, 0, 0]⟩ ⟨[2, 2], [0, 0, 0, 0]⟩ 2 2 5
    (by decide) (by decide) (by decide) (by decide) (by decide) (by decide) (by decide)
    (by decide)).imp (fun _ h => h.imp (fun _ h => ⟨h.1, h.2 1 0 (by decide) (by decide)⟩))

/-! ## Range of the offsets and additivity -/

/-- Non-negative, non-decreasing offsets whose last value is at most `R` all lie
between `0` and `R`. -/
theorem offsets_in_range (offsets : List Int) (n R : Nat) (hoff : offsets.length = n + 1)
    (hnn : ∀ x ∈ offsets, 0 ≤ x)
    (hmono : ∀ i, i < n → offsets.getD i 0 ≤ offsets.getD (i + 1) 0)
    (hlast : offsets.getD n 0 ≤ (R : Int)) :
    ∀ x ∈ offsets, 0 ≤ x ∧ x ≤ (R : Int) := by
  intro x hx
  refine ⟨hnn x hx, ?_⟩
  obtain ⟨q, hq, rfl⟩ := List.getElem_of_mem hx
  have h := offsets_mono_chain offsets n hmono q n (by omega) (le_refl n)
  rw [List.getD_eq_getElem _ _ hq] at h
  exact le_trans h hlast

theorem getD_zipWith_add {α : Type} [AddCommMonoid α] (a b : List α) (p : Nat)
    (h : a.length = b.length) :
    (List.zipWith (fun x y => x + y) a b).getD p 0 = a.getD p 0 + b.getD p 0 := by
  simp only [List.getD_eq_getElem?_getD, List.getElem?_zipWith]
  by_cases hp : p < a.length
  · rw [List.getElem?_eq_getElem hp, List.getElem?_eq_getElem (by omega : p < b.length)]
    rfl
  · rw [List.getElem?_eq_none (by omega), List.getElem?_eq_none (by omega : b.length ≤ p)]
    simp

/-- C16: over exact arithmetic and on well-formed buffers, for two feature buffers `A`
and `B` of the same size, `SegmentSum` with `A` followed by `SegmentSum` with `B` on the
same output gives the output of one `SegmentSum` call with the elementwise sum `A + B`. -/
theorem SegmentSum_additive {α : Type} [AddCommMonoid α] (A B : NDArray α)
    (offsets : NDArray Int) (out : NDArray α) (n dim R : Nat)
    (hn : out.shape[0]? = some n) (hd : rowWidth out.shape = dim)
    (ho : out.data.length = n * dim) (hA : A.data.length = R * dim)
    (hB : B.data.length = R * dim) (hoff : offsets.data.length = n + 1)
    (hrange : ∀ x ∈ offsets.data, 0 ≤ x ∧ x ≤ (R : Int)) :
    ∃ o1 o2, SegmentSum A offsets out = some o1 ∧ SegmentSum B offsets o1 = some o2 ∧
      SegmentSum (A.add B) offsets out = some o2 := by
  obtain ⟨d1, hrun1, hl1, hc1⟩ := SegmentSum_run A offsets out n dim R hn hd ho hA hoff hrange
  obtain ⟨d2, hrun2, hl2, hc2⟩ :=
    SegmentSum_run B offsets ⟨out.shape, d1⟩ n dim R hn hd hl1 hB hoff hrange
  have hAB : (A.add B).data.length = R * dim := by
    simp [NDArray.add, hA, hB]
  obtain ⟨d3, hrun3, hl3, hc3⟩ :=
    SegmentSum_run (A.add B) offsets out n dim R hn hd ho hAB hoff hrange
  have he : d3 = d2 := by
    apply list_eq_of_getD d3 d2 0 (hl3.trans hl2.symm)
    intro q hq
    obtain ⟨i, k, hi, hk, rfl⟩ := cell_of_lt n dim q (by omega)
    rw [hc3 i k hi hk, hc2 i k hi hk]
    show _ = d1.getD (i * dim + k) 0 + _
    rw [hc1 i k hi hk, add_assoc, ← Finset.sum_add_distrib]
    congr 1
    apply Finset.sum_congr rfl
    intro j _
    exact getD_zipWith_add A.data B.data _ (hA.trans hB.symm)
  exact ⟨⟨out.shape, d1⟩, ⟨out.shape, d2⟩, hrun1, hrun2, by rw [hrun3, he]⟩

/-- The hypotheses of C16 hold on two feature buffers of five rows and an output
that is not zero before the calls. -/
theorem SegmentSum_additive_witness :
    ∃ o1 o2, SegmentSum (⟨[5, 2], [1, 9, 3, 2, 0, 0, 4, 4, 7, 1]⟩ : NDArray Int) ⟨[3], [0, 2, 5]⟩
        ⟨[2, 2], [1, 1, 1, 1]⟩ = some o1 ∧
      SegmentSum (⟨[5, 2], [1, 1, 1, 1, 2, 2, 2, 2, 3, 3]⟩ : NDArray Int) ⟨[3], [0, 2, 5]⟩ o1
        = some o2 ∧
      SegmentSum (NDArray.add (⟨[5, 2], [1, 9, 3, 2, 0, 0, 4, 4, 7, 1]⟩ : NDArray Int)
        ⟨[5, 2], [1, 1, 1, 1, 2, 2, 2, 2, 3, 3]⟩) ⟨[3], [0, 2, 5]⟩ ⟨[2, 2], [1, 1, 1, 1]⟩
        = some o2 :=
  SegmentSum_additive (⟨[5, 2], [1, 9, 3, 2, 0, 0, 4, 4, 7, 1]⟩ : NDArray Int)
    ⟨[5, 2], [1, 1, 1, 1, 2, 2, 2, 2, 3, 3]⟩ ⟨[3], [0, 2, 5]⟩ ⟨[2, 2], [1, 1, 1, 1]⟩ 2 2 5
    (by decide) (by decide) (by decide) (by decide) (by decide) (by decide) (by decide)

/-! ## SegmentSum and ScatterAdd on segment ids -/

/-- Every row between the first and the last offset lies in some segment. -/
theorem segment_of_row (offsets : List Int) (j : Int) (m : Nat)
    (h0 : offsets.getD 0 0 ≤ j) (hm : j < offsets.getD m 0) :
    ∃ i, i < m ∧ offsets.getD i 0 ≤ j ∧ j < offsets.getD (i + 1) 0 := by
  induction m with
  | zero => omega
  | succ m ih =>
    by_cases h : j < offsets.getD m 0
    · obtain ⟨i, hi, h1, h2⟩ := ih h
      exact ⟨i, by omega, h1, h2⟩
    · exact ⟨m, by omega, by omega, hm⟩

/-- C20: over exact arithmetic, for a feature buffer of `R` rows, non-decreasing offsets
of length `n + 1` with `offsets[0] = 0` and `offsets[n] = R`, and the length-`R` buffer `idx`
with `idx[j] = i` for every row `j` of segment `i`, `SegmentSum(feat, offsets, out)` and
`ScatterAdd(feat, idx, out)` complete with the same output from the same `n`-row output. -/
theorem SegmentSum_eq_ScatterAdd {α : Type} [AddCommMonoid α] (feat : NDArray α)
    (offsets idx : NDArray Int) (out : NDArray α) (n dim R : Nat)
    (hn : out.shape[0]? = some n) (hd : rowWidth out.shape = dim)
    (ho : out.data.length = n * dim) (hfs : feat.shape[0]? = some R)
    (hfeat : feat.data.length = R * dim) (hoff : offsets.data.length = n + 1)
    (hmono : ∀ i, i < n → offsets.data.getD i 0 ≤ offsets.data.getD (i + 1) 0)
    (h0 : offsets.data.getD 0 0 = 0) (hR : offsets.data.getD n 0 = (R : Int))
    (hil : idx.data.length = R)
    (hidx : ∀ i, i < n → ∀ j, j < R → offsets.data.getD i 0 ≤ (j : Int) →
      (j : Int) < offsets.data.getD (i + 1) 0 → idx.data.getD j 0 = (i : Int)) :
    ∃ o, SegmentSum feat offsets out = some o ∧ ScatterAdd feat idx out = some o := by
  have hrange : ∀ x ∈ offsets.data, 0 ≤ x ∧ x ≤ (R : Int) := by
    intro x hx
    obtain ⟨q, hq, rfl⟩ := List.getElem_of_mem hx
    have h1 := offsets_mono_chain offsets.data n hmono 0 q (by omega) (by omega)
    have h2 := offsets_mono_chain offsets.data n hmono q n (by omega) (le_refl n)
    rw [List.getD_eq_getElem _ _ hq] at h1 h2
    omega
  have hrow : ∀ j, j < R → ∃ i, i < n ∧ offsets.data.getD i 0 ≤ (j : Int) ∧
      (j : Int) < offsets.data.getD (i + 1) 0 := by
    intro j hj
    exact segment_of_row offsets.data j n (by omega) (by omega)
  have hirange : ∀ x ∈ idx.data, 0 ≤ x ∧ x < (n : Int) := by
    intro x hx
    obtain ⟨q, hq, rfl⟩ := List.getElem_of_mem hx
    obtain ⟨i, hi, h1, h2⟩ := hrow q (by omega)
    have := hidx i hi q (by omega) h1 h2
    rw [List.getD_eq_getElem _ _ hq] at this
    omega
  obtain ⟨d1, hrun1, hl1, hc1⟩ := SegmentSum_run feat offsets out n dim R hn hd ho hfeat hoff hrange
  obtain ⟨d2, hrun2, hl2, hc2⟩ := ScatterAdd_run feat idx out R n dim hfs hd ho hfeat hil hirange
  have he : d2 = d1 := by
    apply list_eq_of_getD d2 d1 0 (hl2.trans hl1.symm)
    intro q hq
    obtain ⟨i, k, hi, hk, rfl⟩ := cell_of_lt n dim q (by omega)
    rw [hc1 i k hi hk, hc2 i k hi hk]
    congr 1
    apply Finset.sum_congr _ (fun _ _ => rfl)
    ext j
    obtain ⟨hlo0, -⟩ := hrange _ (getD_mem_of_lt offsets.data i 0 (by omega))
    obtain ⟨-, hhiR⟩ := hrange _ (getD_mem_of_lt offsets.data (i + 1) 0 (by omega))
    simp only [Finset.mem_filter, Finset.mem_range, Finset.mem_Ico]
    constructor
    · rintro ⟨hj, hji⟩
      obtain ⟨i', hi', h1, h2⟩ := hrow j hj
      have := hidx i' hi' j hj h1 h2
      have hii : i' = i := by omega
      subst hii
      omega
    · rintro ⟨h1, h2⟩
      have hj : j < R := by omega
      exact ⟨hj, hidx i hi j hj (by omega) (by omega)⟩
  exact ⟨⟨out.shape, d1⟩, hrun1, by rw [hrun2, he]⟩

/-- The hypotheses of C20 hold on the feature buffer
`[[1,9],[3,2],[0,0],[4,4],[7,1]]` with offsets `[0,2,5]` and `idx = [0,0,1,1,1]`. -/
theorem SegmentSum_eq_ScatterAdd_witness :
    ∃ o, SegmentSum (⟨[5, 2], [1, 9, 3, 2, 0, 0, 4, 4, 7, 1]⟩ : NDArray Int) ⟨[3], [0, 2, 5]⟩
        ⟨[2, 2], [1, 1, 1, 1]⟩ = some o ∧
      ScatterAdd (⟨[5, 2], [1, 9, 3, 2, 0, 0, 4, 4, 7, 1]⟩ : NDArray Int) ⟨[5], [0, 0, 1, 1, 1]⟩
        ⟨[2, 2], [1, 1, 1, 1]⟩ = some o :=
  SegmentSum_eq_ScatterAdd (⟨[5, 2], [1, 9, 3, 2, 0, 0, 4, 4, 7, 1]⟩ : NDArray Int)
    ⟨[3], [0, 2, 5]⟩ ⟨[5], [0, 0, 1, 1, 1]⟩ ⟨[2, 2], [1, 1, 1, 1]⟩ 2 2 5
    (by decide) (by decide) (by decide) (by decide) (by decide) (by decide) (by decide)
    (by decide) (by decide) (by decide) (by decide)

/-! ## Processing the segments in another order -/

/-- The segment loop of `SegmentSum` run over a duplicate-free list of segments: the
rows in the list have gained the sum of their segment, the other rows are unchanged. -/
theorem SegmentSum_forOrder {α : Type} [AddCommMonoid α] (feat : List α) (offsets : List Int)
    (n dim R : Nat) (hfeat : feat.length = R * dim) (hoff : offsets.length = n + 1)
    (hrange : ∀ x ∈ offsets, 0 ≤ x ∧ x ≤ (R : Int)) (order : List Nat)
    (hlt : ∀ i ∈ order, i < n) (hnd : order.Nodup) (s : List α) (hs : s.length = n * dim) :
    ∃ s', forOrder order (fun i o => SegmentSum.segment feat offsets dim i o) s = some s' ∧
      s'.length = n * dim ∧
      ∀ i k, i < n → k < dim → s'.getD (i * dim + k) 0
        = if i ∈ order then s.getD (i * dim + k) 0
            + ∑ j ∈ Finset.Ico (offsets.getD i 0).toNat (offsets.getD (i + 1) 0).toNat,
                feat.getD (j * dim + k) 0
          else s.getD (i * dim + k) 0 := by
  induction order generalizing s with
  | nil => exact ⟨s, rfl, hs, fun i k _ _ => by simp⟩
  | cons i0 rest ih =>
    have hi0 : i0 < n := hlt i0 (List.mem_cons_self _ _)
    obtain ⟨hnot, hnd'⟩ := List.nodup_cons.mp hnd
    obtain ⟨s1, h1, hl1, hrow1, hfr1⟩ :=
      SegmentSum_segment_spec feat offsets n dim R i0 s hi0 hs hfeat hoff hrange
    obtain ⟨s2, h2, hl2, hc2⟩ :=
      ih (fun i hi => hlt i (List.mem_cons_of_mem _ hi)) hnd' s1 (hl1.trans hs)
    refine ⟨s2, ?_, hl2, ?_⟩
    · simp only [forOrder, h1, Option.some_bind]
      exact h2
    · intro i k hi hk
      rw [hc2 i k hi hk]
      by_cases hii : i = i0
      · subst hii
        rw [if_neg hnot, if_pos (List.mem_cons_self _ _), hrow1 k hk]
      · rw [hfr1 _ (cell_outside hii hk)]
        by_cases hmem : i ∈ rest
        · rw [if_pos hmem, if_pos (List.mem_cons_of_mem _ hmem)]
        · have : ¬ i ∈ i0 :: rest := by
            intro h
            rcases List.mem_cons.mp h with h | h
            · exact hii h
            · exact hmem h
          rw [if_neg hmem, if_neg this]

/-- The segment loop of `SegmentCmp` run over a duplicate-free list of segments. -/
theorem SegmentCmp_forOrder {α : Type} (C : Cmp α) (feat : List α) (offsets : List Int)
    (n dim R : Nat) (hfeat : feat.length = R * dim) (hoff : offsets.length = n + 1)
    (hrange : ∀ x ∈ offsets, 0 ≤ x ∧ x ≤ (R : Int)) (order : List Nat)
    (hlt : ∀ i ∈ order, i < n) (hnd : order.Nodup) (s : List α × List Int)
    (hs1 : s.1.length = n * dim) (hs2 : s.2.length = n * dim) :
    ∃ s', forOrder order (fun i s => SegmentCmp.segment C feat offsets dim i s) s = some s' ∧
      (s'.1.length = n * dim ∧ s'.2.length = n * dim) ∧
      ∀ i k, i < n → k < dim → pairAt C.zero s' (i * dim + k)
        = if i ∈ order then cmpScan C (fun j => feat.getD (j * dim + k) C.zero)
            (offsets.getD i 0).toNat (pairAt C.zero s (i * dim + k))
            ((offsets.getD (i + 1) 0).toNat - (offsets.getD i 0).toNat)
          else pairAt C.zero s (i * dim + k) := by
  induction order generalizing s with
  | nil => exact ⟨s, rfl, ⟨hs1, hs2⟩, fun i k _ _ => by simp⟩
  | cons i0 rest ih =>
    have hi0 : i0 < n := hlt i0 (List.mem_cons_self _ _)
    obtain ⟨hnot, hnd'⟩ := List.nodup_cons.mp hnd
    obtain ⟨s1, h1, ⟨hl1, hl1'⟩, hrow1, hfr1⟩ :=
      SegmentCmp_segment_spec C feat offsets n dim R i0 s hi0 hs1 hs2 hfeat hoff hrange
    obtain ⟨s2, h2, hl2, hc2⟩ :=
      ih (fun i hi => hlt i (List.mem_cons_of_mem _ hi)) hnd' s1 hl1 hl1'
    refine ⟨s2, ?_, hl2, ?_⟩
    · simp only [forOrder, h1, Option.some_bind]
      exact h2
    · intro i k hi hk
      rw [hc2 i k hi hk]
      by_cases hii : i = i0
      · subst hii
        rw [if_neg hnot, if_pos (List.mem_cons_self _ _), hrow1 k hk]
      · rw [hfr1 _ (cell_outside hii hk)]
        by_cases hmem : i ∈ rest
        · rw [if_pos hmem, if_pos (List.mem_cons_of_mem _ hmem)]
        · have : ¬ i ∈ i0 :: rest := by
            intro h
            rcases List.mem_cons.mp h with h | h
            · exact hii h
            · exact hmem h
          rw [if_neg hmem, if_neg this]

/-- C17: on well-formed buffers, the loop body of `SegmentSum` for segment `i` changes
only cells of output row `i`, and what it leaves in row `i` depends on the incoming
output only through row `i`; likewise for the loop body of `SegmentCmp` and the rows `i`
of `out` and `arg`. Hence, for every permutation `order` of the segments `0, ..., n-1`,
running the segment loop in this order gives the same final buffers as the ascending
run, for `SegmentSum` and for `SegmentCmp`. -/
theorem segment_order_independent {α : Type} [AddCommMonoid α] (C : Cmp α) (feat : NDArray α)
    (offsets : NDArray Int) (out : NDArray α) (arg : NDArray Int) (n dim R : Nat)
    (order : List Nat)
    (hn : out.shape[0]? = some n) (hd : rowWidth out.shape = dim)
    (ho : out.data.length = n * dim) (hs : arg.shape = out.shape)
    (ha : arg.data.length = n * dim) (hfeat : feat.data.length = R * dim)
    (hoff : offsets.data.length = n + 1)
    (hrange : ∀ x ∈ offsets.data, 0 ≤ x ∧ x ≤ (R : Int))
    (hperm : order.Perm (List.range n)) :
    (∀ i, i < n → ∀ o o2 : List α, o.length = n * dim → o2.length = n * dim →
      (∀ k, k < dim → o2.getD (i * dim + k) 0 = o.getD (i * dim + k) 0) →
      ∃ o' o2', SegmentSum.segment feat.data offsets.data dim i o = some o' ∧
        SegmentSum.segment feat.data offsets.data dim i o2 = some o2' ∧
        o'.length = o.length ∧
        (∀ p, (p < i * dim ∨ i * dim + dim ≤ p) → o'.getD p 0 = o.getD p 0) ∧
        (∀ k, k < dim → o2'.getD (i * dim + k) 0 = o'.getD (i * dim + k) 0)) ∧
    (∀ i, i < n → ∀ s s2 : List α × List Int,
      s.1.length = n * dim → s.2.length = n * dim →
      s2.1.length = n * dim → s2.2.length = n * dim →
      (∀ k, k < dim → s2.1.getD (i * dim + k) C.zero = s.1.getD (i * dim + k) C.zero ∧
        s2.2.getD (i * dim + k) 0 = s.2.getD (i * dim + k) 0) →
      ∃ s' s2', SegmentCmp.segment C feat.data offsets.data dim i s = some s' ∧
        SegmentCmp.segment C feat.data offsets.data dim i s2 = some s2' ∧
        s'.1.length = s.1.length ∧ s'.2.length = s.2.length ∧
        (∀ p, (p < i * dim ∨ i * dim + dim ≤ p) →
          s'.1.getD p C.zero = s.1.getD p C.zero ∧ s'.2.getD p 0 = s.2.getD p 0) ∧
        (∀ k, k < dim → s2'.1.getD (i * dim + k) C.zero = s'.1.getD (i * dim + k) C.zero ∧
          s2'.2.getD (i * dim + k) 0 = s'.2.getD (i * dim + k) 0)) ∧
    (∃ o, SegmentSum.inOrder order feat offsets out = some o ∧
      SegmentSum feat offsets out = some o) ∧
    (∃ o a, SegmentCmp.inOrder order C feat offsets out arg = some (o, a) ∧
      SegmentCmp C feat offsets out arg = some (o, a)) := by
  have hlt : ∀ i ∈ order, i < n := fun i hi => List.mem_range.mp (hperm.mem_iff.mp hi)
  have hnd : order.Nodup := hperm.nodup_iff.mpr (List.nodup_range n)
  have hall : ∀ i, i < n → i ∈ order := fun i hi => hperm.mem_iff.mpr (List.mem_range.mpr hi)
  refine ⟨?_, ?_, ?_, ?_⟩
  · intro i hi o o2 hlo hlo2 hagree
    obtain ⟨o', h1, hl1, hrow1, hfr1⟩ :=
      SegmentSum_segment_spec feat.data offsets.data n dim R i o hi hlo hfeat hoff hrange
    obtain ⟨o2', h2, -, hrow2, -⟩ :=
      SegmentSum_segment_spec feat.data offsets.data n dim R i o2 hi hlo2 hfeat hoff hrange
    refine ⟨o', o2', h1, h2, hl1, hfr1, ?_⟩
    intro k hk
    rw [hrow1 k hk, hrow2 k hk, hagree k hk]
  · intro i hi s s2 hl1 hl2 hl3 hl4 hagree
    obtain ⟨s', h1, ⟨hl5, hl6⟩, hrow1, hfr1⟩ :=
      SegmentCmp_segment_spec C feat.data offsets.data n dim R i s hi hl1 hl2 hfeat hoff hrange
    obtain ⟨s2', h2, -, hrow2, -⟩ :=
      SegmentCmp_segment_spec C feat.data offsets.data n dim R i s2 hi hl3 hl4 hfeat hoff hrange
    refine ⟨s', s2', h1, h2, hl5.trans hl1.symm, hl6.trans hl2.symm, ?_, ?_⟩
    · intro p hp
      have := hfr1 p hp
      exact ⟨congrArg Prod.fst this, congrArg Prod.snd this⟩
    · intro k hk
      have e : pairAt C.zero s2 (i * dim + k) = pairAt C.zero s (i * dim + k) :=
        Prod.ext (hagree k hk).1 (hagree k hk).2
      have h3 : pairAt C.zero s2' (i * dim + k) = pairAt C.zero s' (i * dim + k) := by
        rw [hrow2 k hk, hrow1 k hk, e]
      exact ⟨congrArg Prod.fst h3, congrArg Prod.snd h3⟩
  · obtain ⟨d1, hrun1, hl1, hc1⟩ :=
      SegmentSum_run feat offsets out n dim R hn hd ho hfeat hoff hrange
    obtain ⟨d2, h2, hl2, hc2⟩ :=
      SegmentSum_forOrder feat.data offsets.data n dim R hfeat hoff hrange order hlt hnd
        out.data ho
    have he : d2 = d1 := by
      apply list_eq_of_getD d2 d1 0 (hl2.trans hl1.symm)
      intro q hq
      obtain ⟨i, k, hi, hk, rfl⟩ := cell_of_lt n dim q (by omega)
      rw [hc2 i k hi hk, if_pos (hall i hi), hc1 i k hi hk]
    refine ⟨⟨out.shape, d1⟩, ?_, hrun1⟩
    simp only [SegmentSum.inOrder, hn, hd, h2, he, Option.bind_eq_bind, Option.some_bind,
      Option.pure_def]
  · obtain ⟨o1, a1, hrun1, hlo1, hla1, hc1⟩ :=
      SegmentCmp_run C feat offsets out arg n dim R hn hd ho hs ha hfeat hoff hrange
    have hne : numElements out.shape = n * dim := by rw [numElements_eq _ _ hn, hd]
    have f1 : fill out.data (numElements out.shape) C.zero
        = some (List.replicate (n * dim) C.zero) := by
      rw [hne]; exact fill_spec _ _ _ ho.symm
    have f2 : fill arg.data (numElements arg.shape) (-1)
        = some (List.replicate (n * dim) (-1)) := by
      rw [hs, hne]; exact fill_spec _ _ _ ha.symm
    obtain ⟨s2, h2, ⟨hlo2, hla2⟩, hc2⟩ :=
      SegmentCmp_forOrder C feat.data offsets.data n dim R hfeat hoff hrange order hlt hnd
        (List.replicate (n * dim) C.zero, List.replicate (n * dim) (-1)) (by simp) (by simp)
    have hc2' : ∀ i k, i < n → k < dim →
        (s2.1.getD (i * dim + k) C.zero, s2.2.getD (i * dim + k) 0)
          = cmpScan C (fun j => feat.data.getD (j * dim + k) C.zero)
              (offsets.data.getD i 0).toNat (C.zero, -1)
              ((offsets.data.getD (i + 1) 0).toNat - (offsets.data.getD i 0).toNat) := by
      intro i k hi hk
      have := hc2 i k hi hk
      rw [if_pos (hall i hi)] at this
      simp only [pairAt] at this
      rw [getD_replicate_lt _ _ _ _ (cell_lt hi hk),
        getD_replicate_lt _ _ _ _ (cell_lt hi hk)] at this
      exact this
    obtain ⟨e1, e2⟩ :=
      cmp_result_unique C.zero n dim s2.1 o1 s2.2 a1 _ hlo2 hla2 hlo1 hla1 hc2' hc1
    refine ⟨⟨out.shape, o1⟩, ⟨arg.shape, a1⟩, ?_, hrun1⟩
    simp only [SegmentCmp.inOrder, hn, hd, f1, f2, h2, e1, e2, Option.bind_eq_bind,
      Option.some_bind, Option.pure_def]

/-- The hypotheses of C17 hold when the two segments of the round-trip scenario are
processed in the order `1, 0`. -/
theorem segment_order_independent_witness :
    (∃ o, SegmentSum.inOrder [1, 0] (⟨[5, 2], [1, 9, 3, 2, 0, 0, 4, 4, 7, 1]⟩ : NDArray Int)
        ⟨[3], [0, 2, 5]⟩ ⟨[2, 2], [0, 0, 0, 0]⟩ = some o ∧
      SegmentSum (⟨[5, 2], [1, 9, 3, 2, 0, 0, 4, 4, 7, 1]⟩ : NDArray Int)
        ⟨[3], [0, 2, 5]⟩ ⟨[2, 2], [0, 0, 0, 0]⟩ = some o) ∧
    (∃ o a, SegmentCmp.inOrder [1, 0] (⟨0, fun a b => decide (b > a)⟩ : Cmp Int)
        ⟨[5, 2], [1, 9, 3, 2, 0, 0, 4, 4, 7, 1]⟩ ⟨[3], [0, 2, 5]⟩
        ⟨[2, 2], [0, 0, 0, 0]⟩ ⟨[2, 2], [0, 0, 0, 0]⟩ = some (o, a) ∧
      SegmentCmp (⟨0, fun a b => decide (b > a)⟩ : Cmp Int)
        ⟨[5, 2], [1, 9, 3, 2, 0, 0, 4, 4, 7, 1]⟩ ⟨[3], [0, 2, 5]⟩
        ⟨[2, 2], [0, 0, 0, 0]⟩ ⟨[2, 2], [0, 0, 0, 0]⟩ = some (o, a)) :=
  (segment_order_independent (⟨0, fun a b => decide (b > a)⟩ : Cmp Int)
    ⟨[5, 2], [1, 9, 3, 2, 0, 0, 4, 4, 7, 1]⟩ ⟨[3], [0, 2, 5]⟩
    ⟨[2, 2], [0, 0, 0, 0]⟩ ⟨[2, 2], [0, 0, 0, 0]⟩ 2 2 5 [1, 0]
    (by decide) (by decide) (by decide) (by decide) (by decide) (by decide) (by decide)
    (by decide) (by decide)).2.2

/-! ## Accesses outside the buffers -/

/-- A loop whose iteration `t` performs an access outside a buffer, whatever the state,
performs this access. -/
theorem forUpto_none_of_step {σ : Type} (body : Nat → σ → Option σ) (n t : Nat) (s : σ)
    (ht : t < n) (hfail : ∀ s, body t s = none) : forUpto n body s = none := by
  induction n with
  | zero => omega
  | succ m ih =>
    by_cases h : t = m
    · subst h
      cases hm : forUpto t body s with
      | none => simp [forUpto, hm]
      | some s1 => simp [forUpto, hm, hfail s1]
    · simp [forUpto, ih (by omega)]

theorem forUpto_first_none {σ : Type} (body : Nat → σ → Option σ) (n : Nat) (s : σ)
    (hn : 0 < n) (hfail : body 0 s = none) : forUpto n body s = none := by
  induction n with
  | zero => omega
  | succ m ih =>
    cases m with
    | zero => simp [forUpto, hfail]
    | succ m =>
      have h := ih (by omega)
      show (forUpto (m + 1) body s).bind (body (m + 1)) = none
      rw [h]
      rfl

theorem toInt32_of_fits (x : Int) (h1 : -2147483648 ≤ x) (h2 : x < 2147483648) :
    toInt32 x = x := by
  unfold toInt32
  omega

theorem toInt32_range (x : Int) : -2147483648 ≤ toInt32 x ∧ toInt32 x < 2147483648 := by
  unfold toInt32
  omega

theorem map_toInt32_of_fits (l : List Int)
    (h : ∀ x ∈ l, -2147483648 ≤ x ∧ x < 2147483648) : l.map toInt32 = l := by
  induction l with
  | nil => rfl
  | cons a t ih =>
    rw [List.map_cons, toInt32_of_fits a (h a (List.mem_cons_self a t)).1
      (h a (List.mem_cons_self a t)).2, ih (fun x hx => h x (List.mem_cons_of_mem a hx))]

/-- The kernel `ScatterAdd.wide` is `ScatterAdd` on the `idx` values converted to `int`. -/
theorem ScatterAdd_wide_eq {α : Type} [Add α] (feat : NDArray α) (idx : NDArray Int)
    (out : NDArray α) :
    ScatterAdd.wide feat idx out = ScatterAdd feat ⟨idx.shape, idx.data.map toInt32⟩ out := by
  have h : (fun i o => ScatterAdd.wideRow feat.data idx.data (rowWidth out.shape) i o)
      = (fun i o => ScatterAdd.row feat.data (idx.data.map toInt32) (rowWidth out.shape) i o) := by
    funext i o
    unfold ScatterAdd.wideRow ScatterAdd.row rdN
    rw [List.getElem?_map]
    cases idx.data[i]? with
    | none => rfl
    | some x => rfl
  unfold ScatterAdd.wide ScatterAdd
  simp only [h]

/-- The kernel `BackwardSegmentCmp.wide` is `BackwardSegmentCmp` on the `arg` values
converted to `int`. -/
theorem BackwardSegmentCmp_wide_eq {α : Type} (feat : NDArray α) (arg : NDArray Int)
    (out : NDArray α) :
    BackwardSegmentCmp.wide feat arg out
      = BackwardSegmentCmp feat ⟨arg.shape, arg.data.map toInt32⟩ out := by
  have h : (fun i o => BackwardSegmentCmp.wideCols feat.data arg.data (rowWidth out.shape) i o)
      = (fun i o => BackwardSegmentCmp.cols feat.data (arg.data.map toInt32)
          (rowWidth out.shape) i o) := by
    funext i o
    unfold BackwardSegmentCmp.wideCols BackwardSegmentCmp.cols
    congr 1
    funext k o
    unfold BackwardSegmentCmp.wideCell BackwardSegmentCmp.cell rdN
    rw [List.getElem?_map]
    cases arg.data[i * rowWidth out.shape + k]? with
    | none => rfl
    | some x => rfl
  unfold BackwardSegmentCmp.wide BackwardSegmentCmp
  simp only [h]

/-- On `idx` values in the range of `int`, the conversion of line 93 keeps every value:
`ScatterAdd.wide` is `ScatterAdd`. -/
theorem ScatterAdd_wide_of_fits {α : Type} [Add α] (feat : NDArray α) (idx : NDArray Int)
    (out : NDArray α) (h : ∀ x ∈ idx.data, -2147483648 ≤ x ∧ x < 2147483648) :
    ScatterAdd.wide feat idx out = ScatterAdd feat idx out := by
  rw [ScatterAdd_wide_eq, map_toInt32_of_fits idx.data h]

/-- On `arg` values in the range of `int`, the conversion of line 120 keeps every value:
`BackwardSegmentCmp.wide` is `BackwardSegmentCmp`. -/
theorem BackwardSegmentCmp_wide_of_fits {α : Type} (feat : NDArray α) (arg : NDArray Int)
    (out : NDArray α) (h : ∀ x ∈ arg.data, -2147483648 ≤ x ∧ x < 2147483648) :
    BackwardSegmentCmp.wide feat arg out = BackwardSegmentCmp feat arg out := by
  rw [BackwardSegmentCmp_wide_eq, map_toInt32_of_fits arg.data h]

/-! ## Claim about the overwrite of BackwardSegmentCmp -/

/-- C8, as stated, fails when `IdType` is wider than `int`: the argument `-4294967295`
is negative, yet line 120 converts it to the `int` value `1`, which passes the test
`write_row >= 0`, and the call overwrites row `1` of the output: an `arg` buffer that
is negative throughout does not leave `out` unchanged. -/
theorem BackwardSegmentCmp_negative_arg_counterexample :
    (∀ x ∈ ([-4294967295] : List Int), x < 0) ∧
      toInt32 (-4294967295) = 1 ∧
      BackwardSegmentCmp.wide (⟨[1, 1], [7]⟩ : NDArray Int) ⟨[1, 1], [-4294967295]⟩
        ⟨[2, 1], [0, 0]⟩ = some ⟨[2, 1], [0, 7]⟩ := by
  refine ⟨?_, ?_, ?_⟩ <;> decide

/-- C8, amended: `BackwardSegmentCmp` on `feat` and `arg` of `n` rows of width `dim` and
an output of `M` rows, where every argument is in the range of `int` (the type in which
line 120 holds it) and below `M`, and each output cell `(r, k)` is named by at most one
non-negative `arg[i,k]`, completes with `out[arg[i,k], k] = feat[i,k]` for every `(i, k)`
with `arg[i,k] ≥ 0`; every output cell `(r, k)` that no `arg[i,k]` names keeps its value;
and an `arg` buffer that is negative throughout leaves `out` unchanged. -/
theorem BackwardSegmentCmp_overwrite {α : Type} (feat : NDArray α) (arg : NDArray Int)
    (out : NDArray α) (n M dim : Nat)
    (hn : feat.shape[0]? = some n) (hd : rowWidth out.shape = dim)
    (hfeat : feat.data.length = n * dim) (harg : arg.data.length = n * dim)
    (ho : out.data.length = M * dim)
    (hint : ∀ x ∈ arg.data, -2147483648 ≤ x ∧ x < 2147483648)
    (hrange : ∀ x ∈ arg.data, x < (M : Int))
    (hinj : ∀ i, i < n → ∀ i', i' < n → ∀ k, k < dim → 0 ≤ arg.data.getD (i * dim + k) 0 →
      arg.data.getD (i * dim + k) 0 = arg.data.getD (i' * dim + k) 0 → i = i') :
    ∃ out', BackwardSegmentCmp.wide feat arg out = some out' ∧ out'.shape = out.shape ∧
      out'.data.length = M * dim ∧
      (∀ i k, i < n → k < dim → ∀ r : Nat, arg.data[i * dim + k]? = some (r : Int) →
        out'.data[r * dim + k]? = feat.data[i * dim + k]?) ∧
      (∀ r k, r < M → k < dim → (∀ i, i < n → arg.data[i * dim + k]? ≠ some (r : Int)) →
        out'.data[r * dim + k]? = out.data[r * dim + k]?) ∧
      ((∀ x ∈ arg.data, x < 0) → out' = out) := by
  have hw := BackwardSegmentCmp_wide_of_fits feat arg out hint
  obtain ⟨data, hrun, hl, hput, hfr⟩ :=
    BackwardSegmentCmp_run feat arg out n M dim hn hd hfeat harg ho hrange
      (fun i i' k hi hi' hk => hinj i hi i' hi' k hk)
  refine ⟨⟨out.shape, data⟩, hw.trans hrun, rfl, hl, ?_, ?_, ?_⟩
  · intro i k hi hk r hr
    have e := getD_of_getElem? arg.data _ 0 _ hr
    have := hput i k hi hk (by rw [e]; omega)
    rw [e] at this
    simpa using this
  · intro r k hr hk hnone
    apply hfr
    intro i k' hi hk' hnn e
    obtain ⟨e1, e2⟩ := cell_inj hk hk' e
    subst e2
    apply hnone i hi
    have hlt : i * dim + k < arg.data.length := by rw [harg]; exact cell_lt hi hk
    apply getElem?_of_getD arg.data _ 0 _ hlt
    omega
  · intro hneg
    have hd' : data = out.data := by
      apply List.ext_getElem?
      intro q
      apply hfr
      intro i k hi hk hnn
      have hlt : i * dim + k < arg.data.length := by rw [harg]; exact cell_lt hi hk
      have := hneg _ (getD_mem_of_lt arg.data _ 0 hlt)
      omega
    rw [hd']

/-- The hypotheses of the amended C8 hold on the argument buffer `[[1,0],[4,-1]]` and an
output of five rows. -/
theorem BackwardSegmentCmp_overwrite_witness :
    ∃ out', BackwardSegmentCmp.wide (⟨[2, 2], [10, 20, 30, 40]⟩ : NDArray Int)
        ⟨[2, 2], [1, 0, 4, -1]⟩ ⟨[5, 2], [0, 0, 0, 0, 0, 0, 0, 0, 0, 0]⟩ = some out' ∧
      out'.shape = [5, 2] ∧ out'.data.length = 5 * 2 :=
  (BackwardSegmentCmp_overwrite (⟨[2, 2], [10, 20, 30, 40]⟩ : NDArray Int) ⟨[2, 2], [1, 0, 4, -1]⟩
    ⟨[5, 2], [0, 0, 0, 0, 0, 0, 0, 0, 0, 0]⟩ 2 5 2 (by decide) (by decide) (by decide)
    (by decide) (by decide) (by decide) (by decide) (by decide)).imp
    (fun _ h => ⟨h.1, h.2.1, h.2.2.1⟩)

/-! ## Claim about bounds rejection -/

theorem forUpto_congr {σ : Type} (f g : Nat → σ → Option σ) (n : Nat) (s : σ)
    (h : ∀ t, t < n → ∀ s, f t s = g t s) : forUpto n f s = forUpto n g s := by
  induction n with
  | zero => rfl
  | succ m ih =>
    show (forUpto m f s).bind (f m) = (forUpto m g s).bind (g m)
    rw [ih (fun t ht => h t (by omega))]
    cases forUpto m g s with
    | none => rfl
    | some s1 => exact h m (by omega) s1

theorem signedBound_32 : signedBound 32 = 2147483648 := by decide

theorem signed_of_fits (w : Nat) (x : Int) (h1 : -(signedBound w) ≤ x) (h2 : x < signedBound w) :
    signed w x = some x := by
  unfold signed
  rw [if_pos ⟨h1, h2⟩]

/-- A flat index of non-negative row, width and column whose exact value is representable
is formed without overflow. -/
theorem flatIndex_of_fits (w r dim k : Nat) (h : ((r * dim + k : Nat) : Int) < signedBound w) :
    flatIndex w (r : Int) (dim : Int) (k : Int) = some ((r * dim + k : Nat) : Int) := by
  have hm : (0 : Int) ≤ (r : Int) * (dim : Int) := by positivity
  have hk : (0 : Int) ≤ (k : Int) := by positivity
  push_cast at h
  unfold flatIndex
  rw [signed_of_fits w _ (by omega) (by omega)]
  simp only [Option.bind_eq_bind, Option.some_bind]
  rw [signed_of_fits w _ (by omega) (by omega)]
  push_cast
  rfl

theorem SegmentSum_machineCols_eq {α : Type} [Add α] (w : Nat) (feat : List α)
    (n dim R i jn : Nat) (o : List α) (hi : i < n) (hout : n * dim ≤ 2147483648)
    (hj : jn < R) (hR : ((R * dim : Nat) : Int) ≤ signedBound w) :
    SegmentSum.machineCols w feat (dim : Int) (i : Int) (jn : Int) o
      = SegmentSum.cols feat dim i (jn : Int) o := by
  unfold SegmentSum.machineCols SegmentSum.cols forRange
  have e : ((dim : Int) - 0).toNat = dim := by omega
  rw [e]
  apply forUpto_congr
  intro k hk s
  have c1 := cell_lt hi hk
  have c2 := cell_lt hj hk
  have h1 : flatIndex 32 (i : Int) (dim : Int) (0 + (k : Int)) = some ((i * dim + k : Nat) : Int) := by
    rw [zero_add]
    exact flatIndex_of_fits 32 i dim k (by rw [signedBound_32]; omega)
  have h2 : flatIndex w (jn : Int) (dim : Int) (0 + (k : Int)) = some ((jn * dim + k : Nat) : Int) := by
    rw [zero_add]
    exact flatIndex_of_fits w jn dim k (by omega)
  have h3 : (jn : Int) * (dim : Int) + (k : Int) = ((jn * dim + k : Nat) : Int) := by
    push_cast
    rfl
  simp only [h1, h2, h3, Option.bind_eq_bind, Option.some_bind, rd_natCast, wr_natCast, rdN]

theorem SegmentCmp_machineCols_eq {α : Type} (w : Nat) (C : Cmp α) (feat : List α)
    (n dim R i jn : Nat) (s : List α × List Int) (hi : i < n) (hout : n * dim ≤ 2147483648)
    (hj : jn < R) (hR : ((R * dim : Nat) : Int) ≤ signedBound w) :
    SegmentCmp.machineCols w C feat (dim : Int) (i : Int) (jn : Int) s
      = SegmentCmp.cols C feat dim i (jn : Int) s := by
  unfold SegmentCmp.machineCols SegmentCmp.cols forRange
  have e : ((dim : Int) - 0).toNat = dim := by omega
  rw [e]
  apply forUpto_congr
  intro k hk s
  have c1 := cell_lt hi hk
  have c2 := cell_lt hj hk
  have h1 : flatIndex 32 (i : Int) (dim : Int) (0 + (k : Int)) = some ((i * dim + k : Nat) : Int) := by
    rw [zero_add]
    exact flatIndex_of_fits 32 i dim k (by rw [signedBound_32]; omega)
  have h2 : flatIndex w (jn : Int) (dim : Int) (0 + (k : Int)) = some ((jn * dim + k : Nat) : Int) := by
    rw [zero_add]
    exact flatIndex_of_fits w jn dim k (by omega)
  have h3 : (jn : Int) * (dim : Int) + (k : Int) = ((jn * dim + k : Nat) : Int) := by
    push_cast
    rfl
  simp only [h1, h2, h3, Option.bind_eq_bind, Option.some_bind, rd_natCast, wr_natCast, rdN]

/-- The rows of a segment loop over offsets in `[0, R]` are rows of the feature buffer. -/
theorem segment_row (lo hi : Int) (R t : Nat) (h0 : 0 ≤ lo) (hR : hi ≤ (R : Int))
    (ht : t < (hi - lo).toNat) :
    lo + (t : Int) = (((lo + (t : Int)).toNat : Nat) : Int) ∧ (lo + (t : Int)).toNat < R := by
  omega

theorem SegmentSum_machineSegment_eq {α : Type} [Add α] (w : Nat) (feat : List α)
    (offsets : List Int) (n dim R i : Nat) (o : List α) (hi : i < n) (hn31 : n < 2147483648)
    (hout : n * dim ≤ 2147483648) (hR : ((R * dim : Nat) : Int) ≤ signedBound w)
    (hrange : ∀ x ∈ offsets, 0 ≤ x ∧ x ≤ (R : Int)) :
    SegmentSum.machineSegment w feat offsets (dim : Int) (i : Int) o
      = SegmentSum.segment feat offsets dim i o := by
  have hs : signed 32 ((i : Int) + 1) = some ((i + 1 : Nat) : Int) := by
    have hb := signedBound_32
    rw [signed_of_fits 32 ((i : Int) + 1) (by omega) (by omega)]
    push_cast
    rfl
  unfold SegmentSum.machineSegment SegmentSum.segment
  simp only [hs, rd_natCast, rdN, Option.bind_eq_bind, Option.some_bind]
  cases h1 : offsets[i]? with
  | none => simp only [Option.none_bind]
  | some lo =>
    cases h2 : offsets[i + 1]? with
    | none => simp only [Option.some_bind, Option.none_bind]
    | some hi' =>
      simp only [Option.some_bind]
      unfold forRange
      apply forUpto_congr
      intro t ht s
      obtain ⟨e, hj⟩ := segment_row lo hi' R t (hrange lo (List.getElem?_mem h1)).1
        (hrange hi' (List.getElem?_mem h2)).2 ht
      beta_reduce
      rw [e]
      exact SegmentSum_machineCols_eq w feat n dim R i _ s hi hout hj hR

theorem SegmentCmp_machineSegment_eq {α : Type} (w : Nat) (C : Cmp α) (feat : List α)
    (offsets : List Int) (n dim R i : Nat) (s : List α × List Int) (hi : i < n)
    (hn31 : n < 2147483648) (hout : n * dim ≤ 2147483648)
    (hR : ((R * dim : Nat) : Int) ≤ signedBound w)
    (hrange : ∀ x ∈ offsets, 0 ≤ x ∧ x ≤ (R : Int)) :
    SegmentCmp.machineSegment w C feat offsets (dim : Int) (i : Int) s
      = SegmentCmp.segment C feat offsets dim i s := by
  have hs : signed 32 ((i : Int) + 1) = some ((i + 1 : Nat) : Int) := by
    have hb := signedBound_32
    rw [signed_of_fits 32 ((i : Int) + 1) (by omega) (by omega)]
    push_cast
    rfl
  unfold SegmentCmp.machineSegment SegmentCmp.segment
  simp only [hs, rd_natCast, rdN, Option.bind_eq_bind, Option.some_bind]
  cases h1 : offsets[i]? with
  | none => simp only [Option.none_bind]
  | some lo =>
    cases h2 : offsets[i + 1]? with
    | none => simp only [Option.some_bind, Option.none_bind]
    | some hi' =>
      simp only [Option.some_bind]
      unfold forRange
      apply forUpto_congr
      intro t ht s
      obtain ⟨e, hj⟩ := segment_row lo hi' R t (hrange lo (List.getElem?_mem h1)).1
        (hrange hi' (List.getElem?_mem h2)).2 ht
      beta_reduce
      rw [e]
      exact SegmentCmp_machineCols_eq w C feat n dim R i _ s hi hout hj hR

theorem toInt32_ofNat (n : Nat) (h : n < 2147483648) : toInt32 (Int.ofNat n) = (n : Int) := by
  apply toInt32_of_fits
  · simp only [Int.ofNat_eq_coe]; omega
  · simp only [Int.ofNat_eq_coe]; omega

/-- With an output row count below `2^31`, a row width computed without overflow, at most
`2^31` output cells and at most `2^(w-1)` feature cells, `SegmentSum` with the integer
types of the source is `SegmentSum` with exact integers. -/
theorem SegmentSum_machine_eq {α : Type} [Add α] (w : Nat) (feat : NDArray α)
    (offsets : NDArray Int) (out : NDArray α) (n dim R : Nat)
    (hn : out.shape[0]? = some n) (hd : rowWidth out.shape = dim)
    (hdim : rowWidthInt out.shape = some (dim : Int)) (hn31 : n < 2147483648)
    (hout : n * dim ≤ 2147483648) (hR : ((R * dim : Nat) : Int) ≤ signedBound w)
    (hrange : ∀ x ∈ offsets.data, 0 ≤ x ∧ x ≤ (R : Int)) :
    SegmentSum.machine w feat offsets out = SegmentSum feat offsets out := by
  have hn' : toInt32 (Int.ofNat n) = (n : Int) := toInt32_ofNat n hn31
  have hloop : ∀ s, forRange 0 (n : Int)
      (fun i o => SegmentSum.machineSegment w feat.data offsets.data (dim : Int) i o) s
      = forUpto n (fun i o => SegmentSum.segment feat.data offsets.data dim i o) s := by
    intro s
    unfold forRange
    have e : ((n : Int) - 0).toNat = n := by omega
    rw [e]
    apply forUpto_congr
    intro i hi s
    beta_reduce
    rw [zero_add]
    exact SegmentSum_machineSegment_eq w feat.data offsets.data n dim R i s hi hn31 hout hR hrange
  unfold SegmentSum.machine SegmentSum
  simp only [hn, Option.bind_eq_bind, Option.some_bind]
  rw [hdim, hn', hd]
  simp only [Option.some_bind]
  rw [hloop]

theorem SegmentCmp_machine_eq {α : Type} (w : Nat) (C : Cmp α) (feat : NDArray α)
    (offsets : NDArray Int) (out : NDArray α) (arg : NDArray Int) (n dim R : Nat)
    (hn : out.shape[0]? = some n) (hd : rowWidth out.shape = dim)
    (hdim : rowWidthInt out.shape = some (dim : Int)) (hn31 : n < 2147483648)
    (hout : n * dim ≤ 2147483648) (hR : ((R * dim : Nat) : Int) ≤ signedBound w)
    (hrange : ∀ x ∈ offsets.data, 0 ≤ x ∧ x ≤ (R : Int)) :
    SegmentCmp.machine w C feat offsets out arg = SegmentCmp C feat offsets out arg := by
  have hn' : toInt32 (Int.ofNat n) = (n : Int) := toInt32_ofNat n hn31
  have hloop : ∀ s, forRange 0 (n : Int)
      (fun i s => SegmentCmp.machineSegment w C feat.data offsets.data (dim : Int) i s) s
      = forUpto n (fun i s => SegmentCmp.segment C feat.data offsets.data dim i s) s := by
    intro s
    unfold forRange
    have e : ((n : Int) - 0).toNat = n := by omega
    rw [e]
    apply forUpto_congr
    intro i hi s
    beta_reduce
    rw [zero_add]
    exact SegmentCmp_machineSegment_eq w C feat.data offsets.data n dim R i s hi hn31 hout hR
      hrange
  unfold SegmentCmp.machine SegmentCmp
  simp only [hn, Option.bind_eq_bind, Option.some_bind]
  rw [hdim, hn', hd]
  simp only [Option.some_bind]
  cases fill out.data (numElements out.shape) C.zero with
  | none => simp only [Option.none_bind]
  | some out0 =>
    cases fill arg.data (numElements arg.shape) (-1) with
    | none => simp only [Option.some_bind, Option.none_bind]
    | some arg0 =>
      simp only [Option.some_bind]
      rw [hloop]

/-! ## Claim about index safety -/

/-- A non-empty segment `i` whose first flat output index `i * dim + 0` cannot be formed
in `int` makes `SegmentSum` overflow: the call has undefined behaviour. -/
theorem SegmentSum_machine_overflow {α : Type} [Add α] (w : Nat) (feat : NDArray α)
    (offsets : NDArray Int) (out : NDArray α) (n dim i : Nat) (lo hi : Int)
    (hn : out.shape[0]? = some n) (hn31 : n < 2147483648)
    (hdim : rowWidthInt out.shape = some (dim : Int)) (hin : i < n)
    (h1 : offsets.data[i]? = some lo) (h2 : offsets.data[i + 1]? = some hi) (hlt : lo < hi)
    (hd : 0 < dim) (hov : flatIndex 32 (i : Int) (dim : Int) 0 = none) :
    SegmentSum.machine w feat offsets out = none := by
  have hs : signed 32 ((i : Int) + 1) = some ((i + 1 : Nat) : Int) := by
    have hb := signedBound_32
    rw [signed_of_fits 32 ((i : Int) + 1) (by omega) (by omega)]
    push_cast
    rfl
  have hcols : ∀ s, SegmentSum.machineCols w feat.data (dim : Int) (i : Int) (lo + ((0 : Nat) : Int)) s
      = none := by
    intro s
    unfold SegmentSum.machineCols forRange
    apply forUpto_first_none _ _ s (by omega)
    simp only [Nat.cast_zero, zero_add, hov, Option.bind_eq_bind, Option.none_bind]
  have hseg : ∀ s, SegmentSum.machineSegment w feat.data offsets.data (dim : Int)
      (0 + (i : Int)) s = none := by
    intro s
    unfold SegmentSum.machineSegment
    rw [zero_add]
    simp only [hs, rd_natCast, h1, h2, Option.bind_eq_bind, Option.some_bind]
    unfold forRange
    exact forUpto_first_none _ _ s (by omega) (hcols s)
  have hloop : forRange 0 (n : Int)
      (fun i o => SegmentSum.machineSegment w feat.data offsets.data (dim : Int) i o) out.data
      = none := by
    unfold forRange
    exact forUpto_none_of_step _ _ i out.data (by omega) hseg
  unfold SegmentSum.machine
  simp only [hn, Option.bind_eq_bind, Option.some_bind]
  rw [hdim, toInt32_ofNat n hn31]
  simp only [Option.some_bind]
  rw [hloop]
  simp only [Option.none_bind]

/-- C18, as stated, fails on large buffers. With an output of `3` rows of width `2^30`, a
feature buffer of one row and `offsets = [0,0,0,1]`, the preconditions of the claim hold,
and the index `2 * 2^30 + 0 = 2^31` of the first output cell of segment `2` is below
`n * dim = 3 * 2^30`; but the code forms `i * dim + k` in the 32-bit type `int`, where
`2 * 2^30` overflows, so the call of `SegmentSum` (here with a 64-bit `IdType`) has
undefined behaviour instead of accessing the cell. -/
theorem SegmentSum_index_overflow_counterexample :
    (⟨[3, 1073741824], List.replicate 3221225472 0⟩ : NDArray Int).shape[0]? = some 3 ∧
      rowWidth [3, 1073741824] = 1073741824 ∧
      (⟨[3, 1073741824], List.replicate 3221225472 0⟩ : NDArray Int).data.length
        = 3 * 1073741824 ∧
      (⟨[1, 1073741824], List.replicate 1073741824 0⟩ : NDArray Int).data.length
        = 1 * 1073741824 ∧
      ([0, 0, 0, 1] : List Int).length = 3 + 1 ∧
      (∀ x ∈ ([0, 0, 0, 1] : List Int), 0 ≤ x) ∧
      (∀ i, i < 3 → ([0, 0, 0, 1] : List Int).getD i 0 ≤ ([0, 0, 0, 1] : List Int).getD (i + 1) 0) ∧
      ([0, 0, 0, 1] : List Int).getD 3 0 ≤ ((1 : Nat) : Int) ∧
      2 * 1073741824 + 0 < 3 * 1073741824 ∧
      flatIndex 32 2 1073741824 0 = none ∧
      SegmentSum.machine 64 (⟨[1, 1073741824], List.replicate 1073741824 0⟩ : NDArray Int)
        ⟨[4], [0, 0, 0, 1]⟩ ⟨[3, 1073741824], List.replicate 3221225472 0⟩ = none := by
  refine ⟨rfl, by decide, ?_, ?_, rfl, by decide, by decide, by decide, by decide, by decide, ?_⟩
  · exact List.length_replicate _ _
  · exact List.length_replicate _ _
  · exact SegmentSum_machine_overflow 64 _ _ _ 3 1073741824 2 0 1 rfl (by decide) (by decide)
      (by decide) rfl rfl (by decide) (by decide) (by decide)

/-- C18, amended: index safety of `SegmentSum` and `SegmentCmp` with the integer types of
the source. When `offsets` has length `n + 1` for the output row count `n`, its values are
non-negative and non-decreasing with `offsets[n] ≤ R`, `feat`, `out` and `arg` have `R`,
`n` and `n` rows of the same width `dim`, and moreover the sizes fit the integer types in
which the code computes (`n < 2^31`, the row width is computed in `int` without overflow,
`n * dim ≤ 2^31`, and `R * dim ≤ 2^(w-1)` for the `w`-bit `IdType`), then every index the
loops form is formed without overflow and is inside its buffer: `i + 1 ≤ n` for the
offsets, `j*dim+k < R*dim` for `feat` and `i*dim+k < n*dim` for `out` and `arg`; and both
kernels run to completion, which in this model says that no access left its buffer and no
index overflowed. -/
theorem SegmentSum_SegmentCmp_index_safe {α : Type} [AddCommMonoid α] (w : Nat) (C : Cmp α)
    (feat : NDArray α) (offsets : NDArray Int) (out : NDArray α) (arg : NDArray Int)
    (n dim R : Nat)
    (hn : out.shape[0]? = some n) (hd : rowWidth out.shape = dim)
    (ho : out.data.length = n * dim) (hs : arg.shape = out.shape)
    (ha : arg.data.length = n * dim) (hfeat : feat.data.length = R * dim)
    (hoff : offsets.data.length = n + 1)
    (hnn : ∀ x ∈ offsets.data, 0 ≤ x)
    (hmono : ∀ i, i < n → offsets.data.getD i 0 ≤ offsets.data.getD (i + 1) 0)
    (hlast : offsets.data.getD n 0 ≤ (R : Int))
    (hn31 : n < 2147483648) (hdim : rowWidthInt out.shape = some (dim : Int))
    (hout : n * dim ≤ 2147483648) (hR : ((R * dim : Nat) : Int) ≤ signedBound w) :
    (∀ i, i < n → ∀ j : Int, offsets.data.getD i 0 ≤ j → j < offsets.data.getD (i + 1) 0 →
      ∀ k, k < dim →
        (∃ q : Nat, signed 32 ((i : Int) + 1) = some (q : Int) ∧ q ≤ n ∧
          q < offsets.data.length) ∧
        (∃ p : Nat, flatIndex w j (dim : Int) (k : Int) = some (p : Int) ∧ p < R * dim ∧
          p < feat.data.length) ∧
        (∃ p : Nat, flatIndex 32 (i : Int) (dim : Int) (k : Int) = some (p : Int) ∧
          p < n * dim ∧ p < out.data.length ∧ p < arg.data.length)) ∧
    (∃ o, SegmentSum.machine w feat offsets out = some o) ∧
    (∃ o a, SegmentCmp.machine w C feat offsets out arg = some (o, a)) := by
  have hrange := offsets_in_range offsets.data n R hoff hnn hmono hlast
  refine ⟨?_, ?_, ?_⟩
  · intro i hi j hj1 hj2 k hk
    obtain ⟨h0, -⟩ := hrange _ (getD_mem_of_lt offsets.data i 0 (by omega))
    obtain ⟨-, hR'⟩ := hrange _ (getD_mem_of_lt offsets.data (i + 1) 0 (by omega))
    have hj0 : 0 ≤ j := le_trans h0 hj1
    have hjR : j.toNat < R := by omega
    have hc := cell_lt hjR hk
    have hc' := cell_lt hi hk
    have hb := signedBound_32
    have hj : j = ((j.toNat : Nat) : Int) := (Int.toNat_of_nonneg hj0).symm
    refine ⟨⟨i + 1, ?_, by omega, by omega⟩, ⟨j.toNat * dim + k, ?_, hc, by omega⟩,
      ⟨i * dim + k, ?_, hc', by omega, by omega⟩⟩
    · rw [signed_of_fits 32 ((i : Int) + 1) (by omega) (by omega)]
      push_cast
      rfl
    · rw [hj, Int.toNat_ofNat]
      exact flatIndex_of_fits w j.toNat dim k (by omega)
    · exact flatIndex_of_fits 32 i dim k (by omega)
  · obtain ⟨data, hrun, -⟩ := SegmentSum_run feat offsets out n dim R hn hd ho hfeat hoff hrange
    exact ⟨_, (SegmentSum_machine_eq w feat offsets out n dim R hn hd hdim hn31 hout hR
      hrange).trans hrun⟩
  · obtain ⟨o, a, hrun, -⟩ :=
      SegmentCmp_run C feat offsets out arg n dim R hn hd ho hs ha hfeat hoff hrange
    exact ⟨_, _, (SegmentCmp_machine_eq w C feat offsets out arg n dim R hn hd hdim hn31 hout hR
      hrange).trans hrun⟩

/-- The hypotheses of the amended C18 hold on the feature buffer
`[[1,9],[3,2],[0,0],[4,4],[7,1]]` with offsets `[0,2,5]` and a 64-bit `IdType`. -/
theorem SegmentSum_SegmentCmp_index_safe_witness :
    (∃ o, SegmentSum.machine 64 (⟨[5, 2], [1, 9, 3, 2, 0, 0, 4, 4, 7, 1]⟩ : NDArray Int)
        ⟨[3], [0, 2, 5]⟩ ⟨[2, 2], [0, 0, 0, 0]⟩ = some o) ∧
    (∃ o a, SegmentCmp.machine 64 (⟨0, fun a b => decide (b > a)⟩ : Cmp Int)
        ⟨[5, 2], [1, 9, 3, 2, 0, 0, 4, 4, 7, 1]⟩ ⟨[3], [0, 2, 5]⟩
        ⟨[2, 2], [0, 0, 0, 0]⟩ ⟨[2, 2], [0, 0, 0, 0]⟩ = some (o, a)) :=
  (SegmentSum_SegmentCmp_index_safe 64 (⟨0, fun a b => decide (b > a)⟩ : Cmp Int)
    ⟨[5, 2], [1, 9, 3, 2, 0, 0, 4, 4, 7, 1]⟩ ⟨[3], [0, 2, 5]⟩
    ⟨[2, 2], [0, 0, 0, 0]⟩ ⟨[2, 2], [0, 0, 0, 0]⟩ 2 2 5
    (by decide) (by decide) (by decide) (by decide) (by decide) (by decide) (by decide)
    (by decide) (by decide) (by decide) (by decide) (by decide) (by decide) (by decide)).2

end dgl.aten.cpu
